import Mathlib

/-!
Verification of the query execution engine of the DSCI551 embedded data
engine (files `nosql/query.py` and `nosql/query_executor.py`).

The Python code is shallowly embedded: JSON scalar values become the
inductive `Value` (Python floats are modelled as exact rationals, so float
rounding is idealised away; both sides of every equation compute with the
same arithmetic), records become association lists from field name to
`Value`, file contents become lists of records, and fallible Python code
(uncaught exceptions) returns `Option`.  Python string operations that do
not reduce in the kernel (`str.lower`, `str.replace`) are re-implemented
over character lists.
-/

namespace NoSQL

/-- A JSON scalar value as handled by the engine.  Python `int` is `int`,
Python `float` is modelled as an exact rational `rat`, `str` is `str`, and
JSON `null` (Python `None`) is `null`. -/
inductive Value where
  | int (n : Int)
  | rat (q : ℚ)
  | str (s : String)
  | null
deriving DecidableEq, Repr

/-- A record: a JSON object as loaded by `json.loads`, i.e. an ordered
mapping from string field names to scalar values. -/
abbrev Record := List (String × Value)

/-- Numeric view of a value: Python `isinstance(v, (int, float))`. -/
def Value.toQ : Value → Option ℚ
  | .int n => some (n : ℚ)
  | .rat q => some q
  | _ => none

/-- `isinstance(v, (int, float))` as used by the aggregation stage. -/
def Value.isNum (v : Value) : Bool := v.toQ.isSome

/-- Lexicographic strict comparison of two strings by Unicode code point,
exactly Python's `str < str`.  (Lean's built-in `String` order does not
reduce in the kernel, hence this char-list version.) -/
def strLtB (a b : String) : Bool :=
  go (a.toList.map Char.toNat) (b.toList.map Char.toNat)
where
  go : List Nat → List Nat → Bool
    | [], [] => false
    | [], _ :: _ => true
    | _ :: _, [] => false
    | x :: xs, y :: ys => if x < y then true else if y < x then false else go xs ys

/-- Python `==` on scalar values: numerics compare numerically across
`int`/`float`, strings compare as strings, `None == None`, and values of
different classes are unequal (no exception). -/
def pyEqB : Value → Value → Bool
  | .int a, .int b => a = b
  | .int a, .rat b => (a : ℚ) = b
  | .rat a, .int b => a = (b : ℚ)
  | .rat a, .rat b => a = b
  | .str a, .str b => a = b
  | .null, .null => true
  | _, _ => false

/-- Python `<` on scalar values: defined for two numerics or two strings,
raises `TypeError` (modelled `none`) otherwise, in particular whenever
`None` or a string/number mix is involved. -/
def pyLtB : Value → Value → Option Bool
  | .str a, .str b => some (strLtB a b)
  | x, y =>
    match x.toQ, y.toQ with
    | some a, some b => some (a < b)
    | _, _ => none

/-- Does `ys` start with `xs` (over characters)? -/
def listStarts : List Char → List Char → Bool
  | [], _ => true
  | _ :: _, [] => false
  | x :: xs, y :: ys => x = y && listStarts xs ys

/-- Does `xs` occur contiguously inside `ys`?  Python substring test. -/
def listSub (xs : List Char) : List Char → Bool
  | [] => xs.isEmpty
  | y :: ys => listStarts xs (y :: ys) || listSub xs ys

/-- Python `in` on scalar values: substring test when both operands are
strings, `TypeError` (`none`) otherwise. -/
def pyInB : Value → Value → Option Bool
  | .str a, .str b => some (listSub a.toList b.toList)
  | _, _ => none

/-- The `condition_functions` dictionary of `filter_by_values`
(`nosql/query.py` lines 104-112): maps a canonical operator name to the
Python comparison, `none` for an unknown operator (the dictionary `.get`
misses and `evaluate_condition` raises `ValueError`). -/
def conditionFunctions (op : String) : Option (Value → Value → Option Bool) :=
  if op = "gt" then some (fun x v => pyLtB v x)
  else if op = "lt" then some (fun x v => pyLtB x v)
  else if op = "gte" then some (fun x v => (pyLtB x v).map (fun b => !b))
  else if op = "lte" then some (fun x v => (pyLtB v x).map (fun b => !b))
  else if op = "eq" then some (fun x v => some (pyEqB x v))
  else if op = "ne" then some (fun x v => some (!(pyEqB x v)))
  else if op = "in" then some (fun x v => pyInB x v)
  else none

/-- `evaluate_condition` of `filter_by_values` (`nosql/query.py` lines
114-124).  An unknown operator raises `ValueError` (overall `none`); a
missing target field — and likewise a field stored as JSON `null`, since
`item.get` returns `None` in both cases — yields `False`; a `TypeError`
inside the comparison is caught and yields `False`. -/
def evaluateCondition (item : Record) (target : String) (op : String)
    (value : Value) : Option Bool :=
  match conditionFunctions op with
  | none => none
  | some f =>
    match List.lookup target item with
    | none => some false
    | some .null => some false
    | some tv => some ((f tv value).getD false)

/-- A compiled condition: either a leaf comparison or an `AND`/`OR` node,
mirroring the nested-dictionary format of `filter_by_values`.  A leaf whose
target came out of the compiler as a non-string token can never match a
JSON object key (JSON keys are strings), which `badLeaf` records. -/
inductive Cond where
  | leaf (target : String) (condition : String) (value : Value)
  | badLeaf (condition : String) (value : Value)
  | node (operator : String) (conditions : List Cond)
deriving Repr

/-- Case-insensitive string equality: Python `s.upper() == t.upper()`,
used to model `.upper()`/`.lower()` membership tests. -/
def eqIC (a b : String) : Bool :=
  a.toList.map lowerCode = b.toList.map lowerCode
where
  lowerCode (c : Char) : Nat :=
    if 65 ≤ c.toNat ∧ c.toNat ≤ 90 then c.toNat + 32 else c.toNat

mutual

/-- `item_satisfies_conditions` of `filter_by_values` (`nosql/query.py`
lines 126-138): leaves delegate to `evaluate_condition`; `AND` nodes use
`all`, `OR` nodes use `any` (both short-circuiting, as in Python); an
unknown logical operator raises `ValueError` (`none`).  A `badLeaf` looks
its non-string target up in the record, finds nothing (`item.get` returns
`None`) and yields `False`. -/
def itemSatisfiesConditions (item : Record) : Cond → Option Bool
  | .leaf t op v => evaluateCondition item t op v
  | .badLeaf op _ =>
    match conditionFunctions op with
    | none => none
    | some _ => some false
  | .node op cs =>
    if eqIC op "and" then allSatisfy item cs
    else if eqIC op "or" then anySatisfy item cs
    else none

/-- Python `all(...)` over sub-conditions, short-circuiting at the first
`False` (so later errors are not raised, as with Python generators). -/
def allSatisfy (item : Record) : List Cond → Option Bool
  | [] => some true
  | c :: rest =>
    match itemSatisfiesConditions item c with
    | none => none
    | some false => some false
    | some true => allSatisfy item rest

/-- Python `any(...)` over sub-conditions, short-circuiting at the first
`True`. -/
def anySatisfy (item : Record) : List Cond → Option Bool
  | [] => some false
  | c :: rest =>
    match itemSatisfiesConditions item c with
    | none => none
    | some true => some true
    | some false => anySatisfy item rest

end

/-- The record-stream core of `filter_by_values` (`nosql/query.py` lines
140-147): the survivors written to the new temporary file, paired with
`true` when the pass completed, `false` when a condition-evaluation error
aborted it mid-stream (the survivors seen before the error were already
written). -/
def filterScan (records : List Record) (c : Cond) : List Record × Bool :=
  match records with
  | [] => ([], true)
  | r :: rest =>
    match itemSatisfiesConditions r c with
    | none => ([], false)
    | some b =>
      let (out, ok) := filterScan rest c
      (if b then r :: out else out, ok)

/-- Python dict insertion used to model a dict comprehension: an existing
key keeps its position and gets the new value, a new key is appended. -/
def dictInsert (d : Record) (k : String) (v : Value) : Record :=
  if (List.lookup k d).isSome then
    d.map (fun p => if p.1 = k then (k, v) else p)
  else d ++ [(k, v)]

/-- `select_record_fields` (`nosql/query.py` lines 76-85): the record
itself for the wildcard list `['*']`, otherwise the dict comprehension
`{field: record[field] for field in fields}`, which raises `KeyError`
(`none`) at the first absent field. -/
def selectRecordFields (record : Record) (fields : List String) : Option Record :=
  if fields = ["*"] then some record
  else
    List.foldlM
      (fun acc f => (List.lookup f record).map (fun v => dictInsert acc f v))
      [] fields

/-! ### Query compiler (`nosql/query_executor.py`) -/

/-- Is `c` an ASCII decimal digit? -/
def isDigitC (c : Char) : Bool := 48 ≤ c.toNat ∧ c.toNat ≤ 57

/-- A non-empty all-digit character list. -/
def digitsNE (l : List Char) : Bool := !l.isEmpty && l.all isDigitC

/-- The natural number denoted by a digit list. -/
def digitsToNat (l : List Char) : Nat :=
  l.foldl (fun a c => a * 10 + (c.toNat - 48)) 0

/-- Python `int(s)` on a whitespace-free token: optional sign followed by
digits, `ValueError` (`none`) otherwise.  (Python additionally allows
underscore digit separators; those never occur in the claims.) -/
def strToIntPy (s : String) : Option Int :=
  match s.toList with
  | '+' :: rest => if digitsNE rest then some (digitsToNat rest : Int) else none
  | '-' :: rest => if digitsNE rest then some (-(digitsToNat rest : Int)) else none
  | l => if digitsNE l then some (digitsToNat l : Int) else none

/-- Split a character list at the first character satisfying `p`: the part
before, and — when a split character exists — the part after it. -/
def splitFirst (p : Char → Bool) : List Char → List Char × Option (List Char)
  | [] => ([], none)
  | c :: rest =>
    if p c then ([], some rest)
    else
      let (a, b) := splitFirst p rest
      (c :: a, b)

/-- Acceptance of a mantissa by Python `float`: digits, optionally with a
single decimal point, at least one digit overall. -/
def mantOk (l : List Char) : Bool :=
  match splitFirst (fun c => c = '.') l with
  | (a, none) => digitsNE a
  | (a, some b) =>
    a.all isDigitC && b.all isDigitC && (!a.isEmpty || !b.isEmpty) && !b.contains '.'

/-- Python `float(s)` acceptance on a whitespace-free token (`is_number` of
`convert_to_nested_format`, `nosql/query_executor.py` lines 96-101):
optional sign, mantissa, optional exponent, or an infinity/NaN word. -/
def strIsFloat (s : String) : Bool :=
  let l := match s.toList with
    | c :: rest => if c = '+' || c = '-' then rest else c :: rest
    | [] => []
  if eqIC (String.mk l) "inf" || eqIC (String.mk l) "infinity" || eqIC (String.mk l) "nan"
  then true
  else
    match splitFirst (fun c => c = 'e' || c = 'E') l with
    | (m, none) => mantOk m
    | (m, some ex) =>
      mantOk m &&
      (match ex with
        | c :: rest => if c = '+' || c = '-' then digitsNE rest else digitsNE ex
        | [] => false)

/-- The exact rational denoted by a Python decimal float literal
(optional sign, digits, decimal point, digits, optional exponent).  The
engine only reaches this for tokens containing a `'.'`.  Floats are
modelled exactly, so no binary rounding occurs. -/
def strToFloatPy (s : String) : Option ℚ :=
  match s.toList with
  | '+' :: rest => core rest
  | '-' :: rest => (core rest).map Neg.neg
  | l => core l
where
  core (l : List Char) : Option ℚ :=
    let (m, ex) := splitFirst (fun c => c = 'e' || c = 'E') l
    if !mantOk m then none
    else
      let (a, b) := splitFirst (fun c => c = '.') m
      let b := b.getD []
      let base : ℚ := (digitsToNat (a ++ b) : ℚ) / ((10 : ℚ) ^ b.length)
      match ex with
      | none => some base
      | some e =>
        let (sgn, ds) := match e with
          | '+' :: rest => ((1 : Int), rest)
          | '-' :: rest => ((-1 : Int), rest)
          | _ => ((1 : Int), e)
        if digitsNE ds then some (base * (10 : ℚ) ^ (sgn * (digitsToNat ds : Int)))
        else none

/-- Python `s.strip(chars)`: remove leading and trailing characters drawn
from `cs`. -/
def stripChars (cs : List Char) (s : String) : String :=
  String.mk
    (((s.toList.dropWhile (fun c => cs.contains c)).reverse.dropWhile
        (fun c => cs.contains c)).reverse)

/-- `process_filter_value` (`nosql/query_executor.py` lines 41-47): a
double-quoted token has its quotes stripped and stays a string; otherwise
the token is converted to `int` when it has no `'.'`, to `float` when it
has one, and kept as a raw string when the conversion raises. -/
def processFilterValue (v : String) : Value :=
  let l := v.toList
  if (match l with | c :: _ => c = '"' | [] => false)
      && (match l.reverse with | c :: _ => c = '"' | [] => false) then
    .str (stripChars ['"'] v)
  else if !l.contains '.' then
    match strToIntPy v with
    | some n => .int n
    | none => .str v
  else
    match strToFloatPy v with
    | some q => .rat q
    | none => .str v

/-- The `operator_mapping` dictionary (`nosql/query_executor.py` lines
80-88); `none` is the `KeyError` of `operator_mapping[...]`. -/
def operatorMapping (s : String) : Option String :=
  List.lookup s
    [("<", "lt"), (">", "gt"), ("<=", "lte"), (">=", "gte"),
     ("=", "eq"), ("!=", "ne"), ("in", "in")]

/-- The `operator_flip` dictionary with its `.get(x, x)` default
(`nosql/query_executor.py` lines 89-94): `=`, `!=` and `in` map to
themselves. -/
def operatorFlip (s : String) : String :=
  (List.lookup s [("<", ">"), (">", "<"), ("<=", ">="), (">=", "<=")]).getD s

/-- `is_number` applied to a processed filter token: numbers pass, strings
pass when `float()` accepts them.  (`float(None)` would raise an uncaught
`TypeError`, but `None` never occurs among tokens.) -/
def isNumberTok : Value → Option Bool
  | .int _ => some true
  | .rat _ => some true
  | .str s => some (strIsFloat s)
  | .null => none

/-- `handle_condition` (`nosql/query_executor.py` lines 103-117): unpacks
a three-token group, flips the operator when a number-like token precedes
the field, strips quotes from a string literal, and builds the normalized
leaf.  `none` models the unpack `ValueError` (group shorter than three),
the `KeyError` for an unmapped operator symbol, and the `TypeError` of
`float(None)`. -/
def handleCondition (sub : List Value) : Option Cond :=
  match sub with
  | [first, opTok, second] => do
    let isNum ← isNumberTok first
    let (opTok, targetTok, valueTok) :=
      if isNum then
        ((match opTok with | .str s => .str (operatorFlip s) | t => t),
         second, first)
      else (opTok, first, second)
    let valueTok := match valueTok with
      | .str s => Value.str (stripChars [Char.ofNat 39, '"'] s)
      | t => t
    let opName ← match opTok with
      | .str s => operatorMapping s
      | _ => none
    match targetTok with
    | .str t => some (Cond.leaf t opName valueTok)
    | _ => some (Cond.badLeaf opName valueTok)
  | _ => none

/-- Uppercase an ASCII string, Python `s.upper()` for the tokens at hand. -/
def strUpperAZ (s : String) : String :=
  String.mk (s.toList.map (fun c =>
    if 97 ≤ c.toNat ∧ c.toNat ≤ 122 then Char.ofNat (c.toNat - 32) else c))

/-- The scanning loop of `convert_to_nested_format`
(`nosql/query_executor.py` lines 119-138), with the accumulated condition
list and the current logical operator as explicit state.  A non-string
token at a group boundary raises `AttributeError` on `.upper()` (`none`).
On a new connective, the conditions accumulated under the previous
connective are wrapped into a single nested group. -/
def convertLoop : List Value → List Cond → Option String → Option Cond
  | [], conds, curOp =>
    (match curOp with
     | some op => some (.node op conds)
     | none =>
       match conds with
       | c :: _ => some c
       | [] => none)
  | tok :: rest, conds, curOp =>
    match tok with
    | .str s =>
      if eqIC s "and" || eqIC s "or" then
        let conds' :=
          match curOp, conds with
          | some op, c :: cs => [Cond.node op (c :: cs)]
          | _, _ => conds
        convertLoop rest conds' (some (strUpperAZ s))
      else
        match rest with
        | opTok :: second :: rest' =>
          match handleCondition [tok, opTok, second] with
          | some c => convertLoop rest' (conds ++ [c]) curOp
          | none => none
        | _ => none
    | _ => none

/-- `convert_to_nested_format` (`nosql/query_executor.py` lines 79-138).
`none` covers the `AttributeError` on `condition_list[i].upper()` for a
non-string token, the failures of `handle_condition`, and the `IndexError`
of `conditions[0]` on an empty token list. -/
def convertToNestedFormat (toks : List Value) : Option Cond :=
  convertLoop toks [] none

/-- The result tuple of `parse_query` (`nosql/query_executor.py` lines
14-76) in its non-`None` case. -/
structure Parsed where
  columns : List String
  table : String
  conditions : List Value
  groupBy : List String
  sortBy : List String
  reverse : Bool
  limit : Option Int
deriving Repr

/-- `parts_lower.index(kw)`-style lookup: the first token equal to `kw`
case-insensitively. -/
def kwIdx (parts : List String) (kw : String) : Option Nat :=
  List.findIdx? (fun p => eqIC p kw) parts

/-- Python truthiness of an optional index: `if filter_index:` treats both
`None` and `0` as false. -/
def truthyIdx : Option Nat → Option Nat
  | some 0 => none
  | x => x

/-- The Python `a or b or ... or len(parts)` chains that delimit a clause:
first truthy index, else the default. -/
def firstTruthy (xs : List (Option Nat)) (dflt : Nat) : Nat :=
  match xs with
  | [] => dflt
  | x :: rest =>
    match truthyIdx x with
    | some i => i
    | none => firstTruthy rest dflt

/-- Python list slice `parts[a:b]`. -/
def pySlice (parts : List String) (a b : Nat) : List String :=
  (parts.drop a).take (b - a)

/-- Concatenate tokens with single spaces (`' '.join`). -/
def joinTokens : List String → List Char
  | [] => []
  | [t] => t.toList
  | t :: rest => t.toList ++ ' ' :: joinTokens rest

/-- Split a character list on spaces, dropping empty pieces (`str.split()`
restricted to the space separators these tokens can contain). -/
def splitWS (l : List Char) : List String :=
  go l []
where
  go : List Char → List Char → List String
    | [], acc => if acc.isEmpty then [] else [String.mk acc.reverse]
    | c :: rest, acc =>
      if c = ' ' then
        if acc.isEmpty then go rest [] else String.mk acc.reverse :: go rest []
      else go rest (c :: acc)

/-- `' '.join(tokens).replace(',', '').split()` as used for the GET, GROUP
and SORT clauses. -/
def cleanSplit (toks : List String) : List String :=
  splitWS ((joinTokens toks).filter (fun c => !(c = ',')))

/-- `parse_query` (`nosql/query_executor.py` lines 14-76) over the token
list produced by `shlex.split(query, posix=False)`.  `none` merges the
paths on which `execute_query` prints `"Invalid query"` and returns: the
caught absence of GET or FROM (the `None` tuple), and the `ValueError`s of
`int(...)` on a malformed LIMIT operand and of `list.remove` on a
mixed-case ASC/DESC token.  (The `IndexError` of `parts[from_index + 1]`
or `parts[limit_index + 1]` on a truncated query, which Python does not
catch, is also modelled as `none`; no claim depends on it.) -/
def parseQuery (parts : List String) : Option Parsed := do
  let getIdx ← kwIdx parts "get"
  let fromIdx ← kwIdx parts "from"
  let filterIdx := truthyIdx (kwIdx parts "filter")
  let groupIdx := truthyIdx (kwIdx parts "group")
  let sortIdx := truthyIdx (kwIdx parts "sort")
  let limitIdx := truthyIdx (kwIdx parts "limit")
  let columns := cleanSplit (pySlice parts (getIdx + 1) fromIdx)
  let table ← parts.get? (fromIdx + 1)
  let conditions :=
    match filterIdx with
    | some fi =>
      (pySlice parts (fi + 1)
        (firstTruthy [groupIdx, sortIdx, limitIdx] parts.length)).map
        processFilterValue
    | none => []
  let groupBy :=
    match groupIdx with
    | some gi =>
      cleanSplit (pySlice parts (gi + 1) (firstTruthy [sortIdx, limitIdx] parts.length))
    | none => []
  let (sortBy, reverse) ←
    match sortIdx with
    | some si =>
      let sortBy := cleanSplit (pySlice parts (si + 1) (firstTruthy [limitIdx] parts.length))
      let rev := sortBy.any (fun t => eqIC t "desc")
      if rev then
        if sortBy.contains "DESC" then some (sortBy.erase "DESC", true)
        else if sortBy.contains "desc" then some (sortBy.erase "desc", true)
        else none
      else if sortBy.any (fun t => eqIC t "asc") then
        if sortBy.contains "ASC" then some (sortBy.erase "ASC", false)
        else if sortBy.contains "asc" then some (sortBy.erase "asc", false)
        else none
      else some (sortBy, false)
    | none => some ([], false)
  let limit ←
    match limitIdx with
    | some li => do
      let tok ← parts.get? (li + 1)
      let n ← strToIntPy tok
      pure (some n)
    | none => pure none
  pure ⟨columns, table, conditions, groupBy, sortBy, reverse, limit⟩

/-! ### External sort stage (`nosql/query.py` lines 156-259)

Sort keys are modelled as numerics (exact rationals): a missing sort field
raises `KeyError` in `_sort_and_write_chunk`, and the descending merge
negates keys (`_push_to_heap`), which `TypeError`s on non-numeric keys —
the spec itself notes that descending sort is constrained to
numeric-comparable keys.  (Python would additionally sort homogeneous
string keys ascending; that corner is outside the modelled domain.) -/

/-- A single-field or composite (tuple) field selector, the
`str | list[str]` of `_sort_and_write_chunk` and `partial_aggregate`. -/
inductive FieldSel where
  | single (k : String)
  | multi (ks : List String)
deriving Repr

/-- The field names of a selector, in tuple order. -/
def FieldSel.fields : FieldSel → List String
  | .single k => [k]
  | .multi ks => ks

/-- The sort-key tuple of a record: `x[k]` or `tuple(x[k] for k in key)`,
`none` on a missing or non-numeric field. -/
def keyTup (sk : FieldSel) (r : Record) : Option (List ℚ) :=
  sk.fields.mapM (fun k => (List.lookup k r).bind Value.toQ)

/-- Total wrapper for `keyTup`, exact on records that have the key. -/
def keyOf (sk : FieldSel) (r : Record) : List ℚ :=
  (keyTup sk r).getD []

/-- Strict lexicographic comparison of equal-or-unequal-length rational
tuples, Python tuple `<`. -/
def lexLt : List ℚ → List ℚ → Bool
  | [], [] => false
  | [], _ :: _ => true
  | _ :: _, [] => false
  | a :: as, b :: bs => if a < b then true else if b < a then false else lexLt as bs

/-- Non-strict lexicographic comparison. -/
def lexLe (a b : List ℚ) : Bool := !lexLt b a

/-- `_sort_and_write_chunk` (`nosql/query.py` lines 156-181): load a run,
sort it in memory by the key (stably, as Python's `list.sort`; a stable
sort under a total preorder is unique, so insertion sort models Timsort
exactly), write it back out.  `none` is the `KeyError`/`TypeError` on a
record without a numeric sort key. -/
def sortChunk (sk : FieldSel) (rev : Bool) (data : List Record) : Option (List Record) :=
  if data.all (fun r => (keyTup sk r).isSome) then
    some (if rev then
            List.insertionSort (fun a b => lexLe (keyOf sk b) (keyOf sk a) = true) data
          else
            List.insertionSort (fun a b => lexLe (keyOf sk a) (keyOf sk b) = true) data)
  else none

/-- The heap key of `_push_to_heap` (`nosql/query.py` lines 184-199):
the key tuple, negated componentwise for a descending merge. -/
def hkey (sk : FieldSel) (rev : Bool) (r : Record) : List ℚ :=
  if rev then (keyOf sk r).map Neg.neg else keyOf sk r

/-- One `heappop` of the k-way merge (`_merge_sorted_files`,
`nosql/query.py` lines 202-244).  The heap always holds exactly the head
of every non-exhausted run, keyed by `(heap key, run index)`, so a pop
returns the head with the least key, ties broken by the earliest run;
`popMin` returns that record and the runs with it removed. -/
def popMin (keyF : Record → List ℚ) : List (List Record) → Option (Record × List (List Record))
  | [] => none
  | [] :: rest => (popMin keyF rest).map (fun p => (p.1, [] :: p.2))
  | (x :: xs) :: rest =>
    match popMin keyF rest with
    | none => some (x, xs :: rest)
    | some (y, rest') =>
      if lexLt (keyF y) (keyF x) then some (y, (x :: xs) :: rest')
      else some (x, xs :: rest)

/-- Total number of records left in the runs. -/
def runsSize (runs : List (List Record)) : Nat := (runs.map List.length).sum

/-- The merge loop with explicit fuel (one unit per emitted record;
`mergeRuns` supplies exactly enough). -/
def mergeRunsGo (keyF : Record → List ℚ) : Nat → List (List Record) → List Record
  | 0, _ => []
  | n + 1, runs =>
    match popMin keyF runs with
    | none => []
    | some (r, rest') => r :: mergeRunsGo keyF n rest'

/-- `_merge_sorted_files`: repeatedly pop the least head until all runs
are exhausted. -/
def mergeRuns (keyF : Record → List ℚ) (runs : List (List Record)) : List Record :=
  mergeRunsGo keyF (runsSize runs) runs

/-- `execute_external_sort` (`nosql/query.py` lines 247-259): chunk-sort
every input file, then k-way merge the sorted runs. -/
def executeExternalSort (files : List (List Record)) (sk : FieldSel) (rev : Bool) :
    Option (List Record) :=
  (files.mapM (sortChunk sk rev)).map (fun runs => mergeRuns (hkey sk rev) runs)

/-! ### Aggregation stage (`nosql/query.py` lines 266-350)

Numeric aggregation values are exact rationals.  Python dict keys compare
with `==`, so two group-key tuples denote the same group exactly when they
are elementwise Python-equal (`gkeyEq`). -/

/-- The supported aggregation functions. -/
inductive Agg where
  | count | sum | avg | max | min
deriving DecidableEq, Repr

/-- Python `==` on group-key tuples (dict-key identification). -/
def gkeyEq (a b : List Value) : Bool :=
  a.length = b.length && (a.zip b).all (fun p => pyEqB p.1 p.2)

/-- The group-key tuple of a record:
`tuple(record[key] for key in group_keys)` (or the 1-tuple for a single
key); `none` is the `KeyError` on a record missing a group key, raised for
every record whether or not it carries any target. -/
def gkeyOf (gks : FieldSel) (r : Record) : Option (List Value) :=
  gks.fields.mapM (fun k => List.lookup k r)

/-- The per-group accumulator rows of `grouped_data`: for each target (in
`targets` order, the Python `{target: [] for target in targets}` default),
the values collected so far in record order. -/
abbrev GroupRow := List (String × List Value)

/-- `grouped_data`: insertion-ordered groups, each with its target rows. -/
abbrev GroupData := List (List Value × GroupRow)

/-- The `{target: [] for target in targets}` defaultdict default. -/
def defaultRow (targets : List (String × Agg)) : GroupRow :=
  targets.map (fun p => (p.1, []))

/-- `grouped_data[g][t].append(v)` on an existing group. -/
def addVal (row : GroupRow) (t : String) (v : Value) : GroupRow :=
  row.map (fun p => if p.1 = t then (p.1, p.2 ++ [v]) else p)

/-- Look a group up by Python tuple equality. -/
def glookup (g : List Value) (G : List (List Value × α)) : Option α :=
  (G.find? (fun e => gkeyEq e.1 g)).map Prod.snd

/-- `grouped_data[g][t].append(v)`: update the existing group, or create
it at the end of the dict with the all-targets default row. -/
def addToGroup (targets : List (String × Agg)) (G : GroupData) (g : List Value)
    (t : String) (v : Value) : GroupData :=
  if G.any (fun e => gkeyEq e.1 g) then
    G.map (fun e => if gkeyEq e.1 g then (e.1, addVal e.2 t v) else e)
  else G ++ [(g, addVal (defaultRow targets) t v)]

/-- One step of the per-record target loop on `grouped_data`: append the
record's value for one target, when present. -/
def recStep (targets : List (String × Agg)) (r : Record) (g : List Value)
    (G : GroupData) (p : String × Agg) : GroupData :=
  match List.lookup p.1 r with
  | some v => addToGroup targets G g p.1 v
  | none => G

/-- The same step at the level of one group's row. -/
def rowStep (r : Record) (row : GroupRow) (p : String × Agg) : GroupRow :=
  match List.lookup p.1 r with
  | some v => addVal row p.1 v
  | none => row

/-- Process one record into `grouped_data` (`nosql/query.py` lines
281-287): compute its group key (`KeyError` → `none`), then for each
target present in the record append the record's value.  A record carrying
no target touches no group. -/
def recordInto (gks : FieldSel) (targets : List (String × Agg)) (G : GroupData)
    (r : Record) : Option GroupData := do
  let g ← gkeyOf gks r
  pure (targets.foldl (recStep targets r g) G)

/-- The grouping loop of `partial_aggregate`. -/
def buildGroups (gks : FieldSel) (targets : List (String × Agg))
    (records : List Record) : Option GroupData :=
  records.foldlM (recordInto gks targets) []

/-- A partial aggregation value: running sum, deferred `(sum, count)` pair
for average, count, or running extremum. -/
inductive PartialVal where
  | psum (q : ℚ)
  | pavg (s : ℚ) (n : ℕ)
  | pcount (n : ℕ)
  | pmax (q : ℚ)
  | pmin (q : ℚ)
deriving DecidableEq, Repr

/-- The numeric values of a collected list
(`[v for v in values if isinstance(v, (int, float))]`). -/
def numericOf (vals : List Value) : List ℚ := vals.filterMap Value.toQ

/-- Maximum of a rational list, `none` for the `ValueError` of `max([])`. -/
def maxQ : List ℚ → Option ℚ
  | [] => none
  | x :: xs => some (xs.foldl Max.max x)

/-- Minimum of a rational list, `none` for the `ValueError` of `min([])`. -/
def minQ : List ℚ → Option ℚ
  | [] => none
  | x :: xs => some (xs.foldl Min.min x)

/-- The per-target computation of `partial_aggregate` (`nosql/query.py`
lines 293-309): non-numeric values are excluded from `sum`/`avg`/`max`/
`min` but counted by `count`; `max`/`min` of no numeric values raises
`ValueError` (`none`). -/
def pvalOf (a : Agg) (vals : List Value) : Option PartialVal :=
  let nums := numericOf vals
  match a with
  | .sum => some (.psum nums.sum)
  | .avg => some (.pavg nums.sum nums.length)
  | .count => some (.pcount vals.length)
  | .max => (maxQ nums).map .pmax
  | .min => (minQ nums).map .pmin

/-- One output row of `partial_aggregate` for a group: `targets[target]`
is looked up for each collected row (`none` would be its `KeyError`). -/
def pvRow (targets : List (String × Agg)) (row : GroupRow) :
    Option (List (String × PartialVal)) :=
  row.mapM (fun p => do
    let a ← List.lookup p.1 targets
    let pv ← pvalOf a p.2
    pure (p.1, pv))

/-- All output rows of `partial_aggregate`, group by group. -/
def pvRows (targets : List (String × Agg)) :
    GroupData → Option (List (List Value × List (String × PartialVal)))
  | [] => some []
  | (g, row) :: rest => do
    let tvs ← pvRow targets row
    let out ← pvRows targets rest
    pure ((g, tvs) :: out)

/-- `partial_aggregate` (`nosql/query.py` lines 266-311) over the records
of one partition file. -/
def partialAggregate (records : List Record) (gks : FieldSel)
    (targets : List (String × Agg)) :
    Option (List (List Value × List (String × PartialVal))) := do
  let G ← buildGroups gks targets records
  pvRows targets G

/-- The `{'sum': 0, 'count': 0, 'values': []}` accumulator of
`final_aggregate`. -/
structure FAcc where
  s : ℚ
  c : ℕ
  vals : List ℚ
deriving DecidableEq, Repr

/-- The all-targets default accumulator row of `final_result`. -/
def defaultFRow (targets : List (String × Agg)) : List (String × FAcc) :=
  targets.map (fun p => (p.1, ⟨0, 0, []⟩))

/-- One accumulator update of `final_aggregate` (`nosql/query.py` lines
326-333); `none` is the `TypeError` of adding a value of the wrong shape
for the aggregation (never reached by well-formed partial results). -/
def updateFAcc (a : Agg) (acc : FAcc) (pv : PartialVal) : Option FAcc :=
  match a, pv with
  | .sum, .psum q => some { acc with s := acc.s + q }
  | .count, .pcount n => some { acc with s := acc.s + n }
  | .avg, .pavg s n => some { acc with s := acc.s + s, c := acc.c + n }
  | .max, .pmax q => some { acc with vals := acc.vals ++ [q] }
  | .min, .pmin q => some { acc with vals := acc.vals ++ [q] }
  | _, _ => none

/-- Accumulator state of the final phase: insertion-ordered groups with
per-target accumulators. -/
abbrev FinalAcc := List (List Value × List (String × FAcc))

/-- The closed form of one final-phase accumulator update: how the
accumulator of one target evolves when a partition contributes the partial
aggregate of the collected values `vals` (this is `updateFAcc` applied to
the `pvalOf` of `vals`, with the extremum recorded as the list
`(maxQ …).toList`, empty exactly when the partial phase would have
raised). -/
def faccStep (a : Agg) (acc : FAcc) (vals : List Value) : FAcc :=
  match a with
  | .sum => { acc with s := acc.s + (numericOf vals).sum }
  | .count => { acc with s := acc.s + (vals.length : ℚ) }
  | .avg => ⟨acc.s + (numericOf vals).sum, acc.c + (numericOf vals).length, acc.vals⟩
  | .max => { acc with vals := acc.vals ++ (maxQ (numericOf vals)).toList }
  | .min => { acc with vals := acc.vals ++ (minQ (numericOf vals)).toList }

/-- Update the accumulator of target `t` in group `g` (`final_result` is a
defaultdict: a new group is appended with the all-targets default row). -/
def faccInto (targets : List (String × Agg)) (F : FinalAcc) (g : List Value)
    (t : String) (pv : PartialVal) : Option FinalAcc := do
  let a ← List.lookup t targets
  if F.any (fun e => gkeyEq e.1 g) then
    F.mapM (fun e =>
      if gkeyEq e.1 g then
        (e.2.mapM (fun p =>
          if p.1 = t then (updateFAcc a p.2 pv).map (fun acc => (p.1, acc))
          else some p)).map (fun row => (e.1, row))
      else some e)
  else
    (((defaultFRow targets).mapM (fun p =>
      if p.1 = t then (updateFAcc a p.2 pv).map (fun acc => (p.1, acc))
      else some p)).map (fun row => F ++ [(g, row)]))

/-- Fold one partial result into `final_result`. -/
def partialIntoF (targets : List (String × Agg)) (F : FinalAcc)
    (partial' : List (List Value × List (String × PartialVal))) : Option FinalAcc :=
  partial'.foldlM
    (fun F e => e.2.foldlM (fun F p => faccInto targets F e.1 p.1 p.2) F)
    F

/-- Round to four decimal places: `round(x, 4)`.  (Python rounds
half-to-even on binary floats; since both sides of every equation apply
this same function to the same exact rational, only its functionality
matters.) -/
def round4 (q : ℚ) : ℚ := (round (q * 10000) : ℤ) / 10000

/-- The formatted value of one target in one output group
(`nosql/query.py` lines 340-347).  Python's `int` results (sums, counts,
the `0` average of an empty count) and `float` results are both modelled
as rationals; Python `==` identifies them numerically. -/
def formatVal (a : Agg) (acc : FAcc) : Option ℚ :=
  match a with
  | .avg => some (if acc.c > 0 then round4 (acc.s / acc.c) else 0)
  | .max => maxQ acc.vals
  | .min => minQ acc.vals
  | _ => some acc.s

/-- One output row of the formatting pass of `final_aggregate`:
`targets[target]` is looked up for each accumulator slot, then the final
value is computed. -/
def formatRow (targets : List (String × Agg)) (row : List (String × FAcc)) :
    Option (List (String × ℚ)) :=
  row.mapM (fun p => do
    let a ← List.lookup p.1 targets
    let v ← formatVal a p.2
    pure (p.1, v))

/-- The formatting pass of `final_aggregate` (`nosql/query.py` lines
336-348), keeping the group key as the row key.  (The code stores it in a
`_key` field — the scalar for a 1-tuple, the list otherwise — alongside
synthetic `{target}_{aggregation}` field names; the keying is kept
structural here, which identifies rows with their groups exactly as the
`_key` field does.) -/
def formatRows (targets : List (String × Agg)) :
    FinalAcc → Option (List (List Value × List (String × ℚ)))
  | [] => some []
  | (g, row) :: rest => do
    let vals ← formatRow targets row
    let out ← formatRows targets rest
    pure ((g, vals) :: out)

/-- `final_aggregate` (`nosql/query.py` lines 314-350): merge all partial
results group by group, then compute the final value of every target. -/
def finalAggregate (partials : List (List (List Value × List (String × PartialVal))))
    (targets : List (String × Agg)) :
    Option (List (List Value × List (String × ℚ))) := do
  let F ← partials.foldlM (partialIntoF targets) []
  formatRows targets F

/-- Does record `r` carry at least one of the aggregation targets?
(Only such records contribute values to any group.) -/
def targetsPresent (targets : List (String × Agg)) (r : Record) : Bool :=
  targets.any (fun p => (List.lookup p.1 r).isSome)

/-- Does record `r` belong to group `g`? -/
def gMatches (gks : FieldSel) (g : List Value) (r : Record) : Bool :=
  match gkeyOf gks r with
  | some g' => gkeyEq g' g
  | none => false

/-- The values of target `t` collected over group `g` of a dataset, in
record order. -/
def svals (gks : FieldSel) (t : String) (g : List Value) (records : List Record) :
    List Value :=
  records.filterMap (fun r => if gMatches gks g r then List.lookup t r else none)

/-- Is group `g` active in the dataset: does some record of group `g`
carry at least one target?  (Exactly the records that contribute values.) -/
def activeIn (gks : FieldSel) (targets : List (String × Agg)) (g : List Value)
    (records : List Record) : Bool :=
  records.any (fun r => gMatches gks g r && targetsPresent targets r)

/-- The groups of a dataset in order of first appearance, restricted to
records that carry at least one target (`none` on a record missing a group
key). -/
def spGroups (gks : FieldSel) (targets : List (String × Agg))
    (records : List Record) : Option (List (List Value)) :=
  records.foldlM
    (fun acc r => do
      let g ← gkeyOf gks r
      pure (if targetsPresent targets r && !(acc.any (fun g' => gkeyEq g' g))
            then acc ++ [g] else acc))
    []

/-- The spec's single-pass value of one aggregation over the collected
values of one group: `count` counts the records carrying the target,
non-numeric values are excluded from `sum`/`avg`/`max`/`min`, `avg` is
total sum over total count (`0` when the count is `0`) rounded to four
places, `max`/`min` are the extrema of the numeric values (undefined when
there are none). -/
def spVal (a : Agg) (vals : List Value) : Option ℚ :=
  let nums := numericOf vals
  match a with
  | .count => some (vals.length : ℚ)
  | .sum => some nums.sum
  | .avg => some (if nums.length > 0 then round4 (nums.sum / (nums.length : ℚ)) else 0)
  | .max => maxQ nums
  | .min => minQ nums

/-- Modelled from the spec: `single_pass_aggregate(D, targets)` — a direct
grouped aggregation over the whole unpartitioned dataset (spec §4.5 and
§8), for comparison with the partial/final composition.  One row per
group, each target aggregated in a single pass over all of that group's
collected values.  A record carrying none of the targets contributes no
values to accumulate and so contributes to no group. -/
def singlePassAggregate (records : List Record) (gks : FieldSel)
    (targets : List (String × Agg)) :
    Option (List (List Value × List (String × ℚ))) := do
  let gs ← spGroups gks targets records
  gs.mapM (fun g =>
    (targets.mapM (fun p =>
      (spVal p.2 (svals gks p.1 g records)).map (fun v => (p.1, v)))).map
      (fun row => (g, row)))

/-! ### Pipeline executor (`nosql/query_executor.py` lines 161-219)

`execute_query` is embedded with the temporary-file system as explicit
state: `tempfile.NamedTemporaryFile(delete=False)` creates a fresh live
file, `os.remove` deletes one.  Metadata resolution is abstracted: the
executor receives the partition contents directly, and `opened` counts the
partition files it actually read (`save_json_items_to_tempfile`). -/

/-- The temporary-file system: a fresh-name counter and the live temporary
files with their contents. -/
structure FS where
  next : Nat
  files : List (Nat × List Record)
deriving Repr

/-- `tempfile.NamedTemporaryFile(delete=False)` plus writing `content`. -/
def fsCreate (fs : FS) (content : List Record) : Nat × FS :=
  (fs.next, ⟨fs.next + 1, fs.files ++ [(fs.next, content)]⟩)

/-- `os.remove`. -/
def fsRemove (fs : FS) (id : Nat) : FS :=
  ⟨fs.next, fs.files.filter (fun p => !(p.1 = id))⟩

/-- `os.path.exists`. -/
def fsExists (fs : FS) (id : Nat) : Bool :=
  fs.files.any (fun p => p.1 = id)

/-- Read a live temporary file. -/
def fsRead (fs : FS) (id : Nat) : List Record :=
  ((fs.files.find? (fun p => p.1 = id)).map Prod.snd).getD []

/-- `filter_by_values` (`nosql/query.py` lines 88-150) over the file
system: the new temporary file is created first; on success the survivors
are in it and the input file is removed; a condition-evaluation error
escapes mid-loop, leaving the partially written new file live and the
input file in place. -/
def filterFS (fs : FS) (id : Nat) (c : Cond) : Option Nat × FS :=
  let (out, ok) := filterScan (fsRead fs id) c
  let (nid, fs1) := fsCreate fs out
  if ok then (some nid, fsRemove fs1 id) else (none, fs1)

/-- `select_fields` with `last_operation=True` (`nosql/query.py` lines
50-73) over the file system, as consumed by the print loop of
`execute_query`: a new temporary file is created on entry even though
nothing is ever written to it in this mode; each line is projected and
yielded; after the loop the input file is removed — but the new, empty
temporary file is closed and never removed.  A `KeyError` on a missing
projection field escapes mid-iteration, leaving the input file in place
too. -/
def selectFieldsFS (fs : FS) (id : Nat) (fields : List String) :
    Option (List Record) × FS :=
  let (_, fs1) := fsCreate fs []
  match (fsRead fs id).mapM (fun r => selectRecordFields r fields) with
  | none => (none, fs1)
  | some rows => (some rows, fsRemove fs1 id)

/-- `execute_external_sort` over the file system: one sorted-run file per
input (inputs are not removed); a chunk-sort error escapes mid-list,
leaking the runs already written; on success the merged file is created
and the run files are removed. -/
def externalSortFS (fs : FS) (ids : List Nat) (sk : FieldSel) (rev : Bool) :
    Option Nat × FS :=
  let step := fun (st : Option (List Nat) × FS) id =>
    match st with
    | (none, fs) => (none, fs)
    | (some runIds, fs) =>
      match sortChunk sk rev (fsRead fs id) with
      | none => (none, fs)
      | some run =>
        let (rid, fs') := fsCreate fs run
        (some (runIds ++ [rid]), fs')
  match ids.foldl step (some [], fs) with
  | (none, fs) => (none, fs)
  | (some runIds, fs) =>
    let merged := mergeRuns (hkey sk rev) (runIds.map (fsRead fs))
    let (mid, fs1) := fsCreate fs merged
    (some mid, runIds.foldl fsRemove fs1)

/-- The `finally` block of `execute_query` (lines 215-219): remove every
file of `intermediate_results` that still exists. -/
def cleanup (fs : FS) (ids : List Nat) : FS :=
  ids.foldl (fun fs id => if fsExists fs id then fsRemove fs id else fs) fs

/-- The observable outcome of one `execute_query` call. -/
structure ExecResult where
  /-- The diagnostic printed before an early return, if any. -/
  message : Option String
  /-- The result rows printed. -/
  printed : List Record
  /-- How many partition files were opened and read. -/
  opened : Nat
  /-- Did an uncaught exception escape `execute_query`? -/
  crashed : Bool
  /-- The temporary-file system when control leaves `execute_query`
  (after its `finally` cleanup). -/
  fs : FS
deriving Repr

/-- The filter stage of `execute_query` (lines 177-179).  The list
comprehension rebinds `intermediate_results` only after it completes, so
on a mid-list error the `finally` cleanup still sees the original list:
inputs already consumed were removed by their successful calls, and the
new filtered files leak. -/
def filterStage (fs : FS) (ids : List Nat) (c : Cond) :
    Option (List Nat) × FS :=
  ids.foldl
    (fun (st : Option (List Nat) × FS) id =>
      match st with
      | (none, fs) => (none, fs)
      | (some acc, fs) =>
        match filterFS fs id c with
        | (none, fs') => (none, fs')
        | (some nid, fs') => (some (acc ++ [nid]), fs'))
    (some [], fs)

/-- The projection-and-print loop of the plain path (lines 210-213): the
`select_fields` generators run one after another; an error in one leaves
the later inputs untouched. -/
def plainPrintLoop (fs : FS) (ids : List Nat) (columns : List String) :
    Option (List Record) × FS :=
  ids.foldl
    (fun (st : Option (List Record) × FS) id =>
      match st with
      | (none, fs) => (none, fs)
      | (some acc, fs) =>
        match selectFieldsFS fs id columns with
        | (none, fs') => (none, fs')
        | (some rows, fs') => (some (acc ++ rows), fs'))
    (some [], fs)

/-- `execute_query` (`nosql/query_executor.py` lines 161-219) on the given
partition contents.  Notable faithfulness points:
* the parsed `limit` is received (line 163) and then never used — no
  branch of the function consults it;
* the GROUP path always raises after aggregating: with a SORT clause the
  name `sort_and_write_chunk` is undefined (`from query import *` does not
  export underscore names — `NameError`), and without one line 198 calls
  `open` on the list returned by `final_aggregate` (`TypeError`); either
  way the `finally` cleanup still runs, so the path is modelled as a crash
  after cleanup;
* the plain path leaks one empty temporary file per partition (see
  `selectFieldsFS`), surviving the `finally` cleanup, which only knows
  `intermediate_results`. -/
def executeQuery (partitions : List (List Record)) (parts : List String) :
    ExecResult :=
  match parseQuery parts with
  | none => ⟨some "Invalid query", [], 0, false, ⟨0, []⟩⟩
  | some pq =>
    if pq.columns.isEmpty then ⟨some "Invalid query", [], 0, false, ⟨0, []⟩⟩
    else
      let (idsRev, fs0) := partitions.foldl
        (fun (st : List Nat × FS) p =>
          let (id, fs') := fsCreate st.2 p
          (id :: st.1, fs'))
        ([], ⟨0, []⟩)
      let ids := idsRev.reverse
      let opened := partitions.length
      -- FILTER stage
      let afterFilter : Option (List Nat) × FS :=
        if pq.conditions.isEmpty then (some ids, fs0)
        else
          match convertToNestedFormat pq.conditions with
          | none => (none, fs0)
          | some c => filterStage fs0 ids c
      match afterFilter with
      | (none, fs1) => ⟨none, [], opened, true, cleanup fs1 ids⟩
      | (some ids1, fs1) =>
        if !pq.groupBy.isEmpty then
          match pq.groupBy.find? (fun col => !pq.columns.contains col) with
          | some col =>
            ⟨some ("Column '" ++ col ++ "' need to be selected"), [], opened,
             false, cleanup fs1 ids1⟩
          | none =>
            -- aggregation runs, then NameError/TypeError is raised while
            -- printing; `finally` still cleans `intermediate_results`
            ⟨none, [], opened, true, cleanup fs1 ids1⟩
        else if !pq.sortBy.isEmpty then
          let sk : FieldSel := .multi pq.sortBy
          match externalSortFS fs1 ids1 sk pq.reverse with
          | (none, fs2) => ⟨none, [], opened, true, cleanup fs2 ids1⟩
          | (some mid, fs2) =>
            match (fsRead fs2 mid).mapM
                (fun r => selectRecordFields r pq.columns) with
            | none => ⟨none, [], opened, true, cleanup fs2 ids1⟩
            | some rows =>
              ⟨none, rows, opened, false, cleanup (fsRemove fs2 mid) ids1⟩
        else
          match plainPrintLoop fs1 ids1 pq.columns with
          | (none, fs2) => ⟨none, [], opened, true, cleanup fs2 ids1⟩
          | (some rows, fs2) => ⟨none, rows, opened, false, cleanup fs2 ids1⟩

/-! ## Theorems -/

/-! ### C8: a missing target field evaluates to false for every supported
operator -/

/-- C8.  For every record and every leaf condition whose target field is
absent from the record, condition evaluation returns `false` (the record
is filtered out) rather than raising an error, for every supported
operator (`gt`, `lt`, `gte`, `lte`, `eq`, `ne`, `in`). -/
theorem missing_field_evaluates_false (item : Record) (t op : String) (v : Value)
    (hop : op ∈ ["gt", "lt", "gte", "lte", "eq", "ne", "in"])
    (habs : List.lookup t item = none) :
    itemSatisfiesConditions item (Cond.leaf t op v) = some false := by
  have : conditionFunctions op ≠ none := by
    simp only [List.mem_cons, List.not_mem_nil, or_false] at hop
    rcases hop with rfl | rfl | rfl | rfl | rfl | rfl | rfl
    all_goals simp [conditionFunctions]
  match hcf : conditionFunctions op with
  | none => exact absurd hcf this
  | some f =>
    simp [itemSatisfiesConditions, evaluateCondition, hcf, habs]

/-- Witness for C8 at a concrete record and operator. -/
theorem missing_field_evaluates_false_witness :
    "gt" ∈ ["gt", "lt", "gte", "lte", "eq", "ne", "in"] ∧
    List.lookup "a" [("b", Value.int 1)] = none ∧
    itemSatisfiesConditions [("b", Value.int 1)]
      (Cond.leaf "a" "gt" (Value.int 0)) = some false :=
  ⟨by decide, by decide,
   missing_field_evaluates_false [("b", Value.int 1)] "a" "gt" (Value.int 0)
     (by decide) (by decide)⟩

/-! ### C7: the nosql evaluator does not coerce numeric-looking strings -/

/-- C7 counterexample.  The record stores the numeric-looking string
`"42"` under `score`; the claim says the leaf `score gt 40` is evaluated
as the numeric comparison `42 > 40` (which is true), but the evaluator
returns `some false`: the `TypeError` of Python's `'42' > 40` is caught
and turned into `False` — no coercion happens. -/
theorem numeric_string_not_coerced_counterexample :
    strIsFloat "42" = true ∧
    pyLtB (Value.int 40) (Value.int 42) = some true ∧
    itemSatisfiesConditions [("score", Value.str "42")]
      (Cond.leaf "score" "gt" (Value.int 40)) = some false := by
  refine ⟨by decide, by decide, by decide⟩

/-- C7 amended.  The nosql condition evaluator (`evaluate_condition` in
`filter_by_values`) never coerces a string-typed stored value: for the
numeric comparisons `gt`/`lt`/`gte`/`lte` against a numeric literal the
underlying Python comparison raises `TypeError`, which is caught so the
leaf evaluates false, and `eq` between a string and a number is simply
false.  (Digit-string coercion exists only in the relational variant's
`apply_condition` in `database.py`.) -/
theorem string_value_numeric_compare_false (item : Record) (f s : String)
    (n : Int) (op : String)
    (hop : op ∈ ["gt", "lt", "gte", "lte", "eq"])
    (hval : List.lookup f item = some (Value.str s)) :
    itemSatisfiesConditions item (Cond.leaf f op (Value.int n)) = some false := by
  simp only [List.mem_cons, List.not_mem_nil, or_false] at hop
  rcases hop with rfl | rfl | rfl | rfl | rfl
  · simp [itemSatisfiesConditions, evaluateCondition, conditionFunctions, hval,
      pyLtB, Value.toQ]
  · simp [itemSatisfiesConditions, evaluateCondition, conditionFunctions, hval,
      pyLtB, Value.toQ]
  · simp [itemSatisfiesConditions, evaluateCondition, conditionFunctions, hval,
      pyLtB, Value.toQ]
  · simp [itemSatisfiesConditions, evaluateCondition, conditionFunctions, hval,
      pyLtB, Value.toQ]
  · simp [itemSatisfiesConditions, evaluateCondition, conditionFunctions, hval,
      pyEqB]

/-- Witness for the amended C7 at the counterexample's input. -/
theorem string_value_numeric_compare_false_witness :
    "gt" ∈ ["gt", "lt", "gte", "lte", "eq"] ∧
    List.lookup "score" [("score", Value.str "42")] = some (Value.str "42") ∧
    itemSatisfiesConditions [("score", Value.str "42")]
      (Cond.leaf "score" "gt" (Value.int 40)) = some false :=
  ⟨by decide, by decide,
   string_value_numeric_compare_false [("score", Value.str "42")] "score" "42"
     40 "gt" (by decide) (by decide)⟩

/-! ### C5: a literal preceding the field crashes the compiler -/

/-- C5.  The claim says `130 < score` compiles to
`{target: score, condition: gt, value: 130}`.  In fact `parse_query` turns
the token `"130"` into the Python `int` `130`
(`process_filter_value`), and the scanning loop of
`convert_to_nested_format` then calls `.upper()` on it — an uncaught
`AttributeError` (`none`) — before `handle_condition` is ever reached.
The flip logic itself is correct when called directly (third conjunct),
and the whole `execute_query` call crashes after having opened the
partition (fourth conjunct), so the code's intent is clearly the claimed
behaviour and the loop is the slip. -/
theorem reversed_literal_filter_crashes :
    processFilterValue "130" = Value.int 130 ∧
    convertToNestedFormat [Value.int 130, Value.str "<", Value.str "score"] = none ∧
    handleCondition [Value.int 130, Value.str "<", Value.str "score"] =
      some (Cond.leaf "score" "gt" (Value.int 130)) ∧
    (executeQuery [[[("score", Value.int 150)]]]
      ["GET", "score", "FROM", "games", "FILTER", "130", "<", "score"]).crashed
      = true := by
  refine ⟨by decide, by rfl, by rfl, by decide⟩

/-! ### C6: mixed AND/OR is nested under the last operator, not applied
uniformly -/

/-- C6 counterexample.  For the flat token list
`a = 1 AND b = 2 OR c = 3` the compiler produces the nested tree
`OR(AND(a=1, b=2), c=3)` (first conjunct).  Against the record `{a: 1}`
this tree evaluates false (second conjunct), while applying the last-seen
operator `OR` uniformly across the three leaves evaluates true (third
conjunct) — so the claimed equivalence fails at this input. -/
theorem mixed_connectives_counterexample :
    convertToNestedFormat
      [Value.str "a", Value.str "=", Value.int 1, Value.str "AND",
       Value.str "b", Value.str "=", Value.int 2, Value.str "OR",
       Value.str "c", Value.str "=", Value.int 3] =
      some (Cond.node "OR"
        [Cond.node "AND"
          [Cond.leaf "a" "eq" (Value.int 1), Cond.leaf "b" "eq" (Value.int 2)],
         Cond.leaf "c" "eq" (Value.int 3)]) ∧
    itemSatisfiesConditions [("a", Value.int 1)]
      (Cond.node "OR"
        [Cond.node "AND"
          [Cond.leaf "a" "eq" (Value.int 1), Cond.leaf "b" "eq" (Value.int 2)],
         Cond.leaf "c" "eq" (Value.int 3)]) = some false ∧
    itemSatisfiesConditions [("a", Value.int 1)]
      (Cond.node "OR"
        [Cond.leaf "a" "eq" (Value.int 1), Cond.leaf "b" "eq" (Value.int 2),
         Cond.leaf "c" "eq" (Value.int 3)]) = some true := by
  refine ⟨by rfl, by decide, by decide⟩

/-- `handle_condition` on a well-formed `field = literal` triple whose
field token is not number-like: the normalized equality leaf. -/
theorem handleCondition_int_eq (f : String) (n : Int)
    (hf : strIsFloat f = false) :
    handleCondition [Value.str f, Value.str "=", Value.int n] =
      some (Cond.leaf f "eq" (Value.int n)) := by
  simp [handleCondition, isNumberTok, hf, operatorMapping]
  rfl

/-- The scanning loop consumes a `field = literal` triple by appending its
leaf. -/
theorem convertLoop_leaf_step (f : String) (n : Int) (rest : List Value)
    (conds : List Cond) (curOp : Option String)
    (hf : strIsFloat f = false)
    (hc : (eqIC f "and" || eqIC f "or") = false) :
    convertLoop (Value.str f :: Value.str "=" :: Value.int n :: rest) conds curOp
      = convertLoop rest (conds ++ [Cond.leaf f "eq" (Value.int n)]) curOp := by
  rw [convertLoop.eq_def]
  simp [hc, handleCondition_int_eq f n hf]

/-- The scanning loop records a first `AND` connective. -/
theorem convertLoop_and_first (rest : List Value) (conds : List Cond) :
    convertLoop (Value.str "AND" :: rest) conds none =
      convertLoop rest conds (some "AND") := by
  rw [convertLoop.eq_def]
  norm_num
  rfl

/-- The scanning loop, on an `OR` after an `AND` group, wraps the
accumulated conditions and makes `OR` current. -/
theorem convertLoop_or_after_and (rest : List Value) (c : Cond) (cs : List Cond) :
    convertLoop (Value.str "OR" :: rest) (c :: cs) (some "AND") =
      convertLoop rest [Cond.node "AND" (c :: cs)] (some "OR") := by
  rw [convertLoop.eq_def]
  norm_num
  rfl

/-- C6 amended.  When AND and OR are mixed at the same level, the
last-seen logical operator becomes the *root* of the tree and the
conditions accumulated under the previous operator are wrapped into a
nested subgroup: `l1 AND l2 OR l3` compiles to `OR(AND(l1, l2), l3)`
(and symmetrically for `OR ... AND`); the result is not in general
equivalent to applying the last operator uniformly across the leaves. -/
theorem last_operator_becomes_root (f1 f2 f3 : String) (n1 n2 n3 : Int)
    (h1 : strIsFloat f1 = false) (h2 : strIsFloat f2 = false)
    (h3 : strIsFloat f3 = false)
    (hc1 : (eqIC f1 "and" || eqIC f1 "or") = false)
    (hc2 : (eqIC f2 "and" || eqIC f2 "or") = false)
    (hc3 : (eqIC f3 "and" || eqIC f3 "or") = false) :
    convertToNestedFormat
      [Value.str f1, Value.str "=", Value.int n1, Value.str "AND",
       Value.str f2, Value.str "=", Value.int n2, Value.str "OR",
       Value.str f3, Value.str "=", Value.int n3] =
      some (Cond.node "OR"
        [Cond.node "AND"
          [Cond.leaf f1 "eq" (Value.int n1), Cond.leaf f2 "eq" (Value.int n2)],
         Cond.leaf f3 "eq" (Value.int n3)]) := by
  unfold convertToNestedFormat
  rw [convertLoop_leaf_step f1 n1 _ _ _ h1 hc1,
    convertLoop_and_first,
    convertLoop_leaf_step f2 n2 _ _ _ h2 hc2]
  show convertLoop _ (Cond.leaf f1 "eq" (Value.int n1)
      :: [Cond.leaf f2 "eq" (Value.int n2)]) (some "AND") = _
  rw [convertLoop_or_after_and,
    convertLoop_leaf_step f3 n3 _ _ _ h3 hc3]
  rfl

/-- Witness for the amended C6 at the counterexample's leaves. -/
theorem last_operator_becomes_root_witness :
    strIsFloat "a" = false ∧ (eqIC "a" "and" || eqIC "a" "or") = false ∧
    convertToNestedFormat
      [Value.str "a", Value.str "=", Value.int 1, Value.str "AND",
       Value.str "b", Value.str "=", Value.int 2, Value.str "OR",
       Value.str "c", Value.str "=", Value.int 3] =
      some (Cond.node "OR"
        [Cond.node "AND"
          [Cond.leaf "a" "eq" (Value.int 1), Cond.leaf "b" "eq" (Value.int 2)],
         Cond.leaf "c" "eq" (Value.int 3)]) :=
  ⟨by decide, by decide,
   last_operator_becomes_root "a" "b" "c" 1 2 3 (by decide) (by decide)
     (by decide) (by decide) (by decide) (by decide)⟩

/-! ### C4: LIMIT is parsed but never enforced -/

/-- C4.  The claim says a query with `LIMIT n` emits at most `n` rows.
`parse_query` does extract the limit (first conjunct: `LIMIT 2` parses to
`2`), but `execute_query` receives `limit` and never consults it: on a
5-row partition the query `GET a FROM t LIMIT 2` prints all 5 rows
(second conjunct), not at most 2. -/
theorem limit_parsed_but_ignored :
    (parseQuery ["GET", "a", "FROM", "t", "LIMIT", "2"]).map Parsed.limit =
      some (some 2) ∧
    (executeQuery
      [[[("a", Value.int 1)], [("a", Value.int 2)], [("a", Value.int 3)],
        [("a", Value.int 4)], [("a", Value.int 5)]]]
      ["GET", "a", "FROM", "t", "LIMIT", "2"]).printed.length = 5 := by
  refine ⟨by rfl, by decide⟩

/-! ### C3: the plain path leaks one temporary file per partition -/

/-- C3.  The claim says every intermediate temporary file is deleted by
the time `execute_query` returns.  On the plain path (no FILTER, GROUP or
SORT) `select_fields` is called with `last_operation=True`: it creates a
`NamedTemporaryFile(delete=False)` on entry, never writes to it, and never
removes it.  For `GET a FROM t` over one partition the call completes
normally (no crash, the row is printed) yet one empty temporary file —
id 1, created by `select_fields` — is still live after the `finally`
cleanup. -/
theorem plain_query_leaks_tempfile :
    (executeQuery [[[("a", Value.int 1)]]] ["GET", "a", "FROM", "t"]).crashed
      = false ∧
    (executeQuery [[[("a", Value.int 1)]]] ["GET", "a", "FROM", "t"]).printed
      = [[("a", Value.int 1)]] ∧
    (executeQuery [[[("a", Value.int 1)]]] ["GET", "a", "FROM", "t"]).fs.files
      = [(1, [])] := by
  refine ⟨by decide, by decide, by decide⟩

/-! ### C9: missing GET or FROM reports "Invalid query" without touching
partitions -/

/-- If no token is (case-insensitively) `kw`, the keyword lookup fails. -/
theorem kwIdx_eq_none (parts : List String) (kw : String)
    (h : ∀ p ∈ parts, eqIC p kw = false) : kwIdx parts kw = none := by
  induction parts with
  | nil => rfl
  | cons p rest ih =>
    have hp := h p (List.mem_cons_self p rest)
    have hrest : ∀ q ∈ rest, eqIC q kw = false :=
      fun q hq => h q (List.mem_cons_of_mem p hq)
    simp [kwIdx, List.findIdx?, hp]
    have := ih hrest
    simpa [kwIdx, List.findIdx?] using this

/-- C9.  For every query token list lacking a GET token or lacking a FROM
token, `execute_query` prints `"Invalid query"` and returns immediately:
no partition file is opened or read, nothing is printed, and no temporary
file is created. -/
theorem missing_get_or_from_reports_invalid (partitions : List (List Record))
    (parts : List String)
    (h : (∀ p ∈ parts, eqIC p "get" = false) ∨ (∀ p ∈ parts, eqIC p "from" = false)) :
    (executeQuery partitions parts).message = some "Invalid query" ∧
    (executeQuery partitions parts).opened = 0 ∧
    (executeQuery partitions parts).printed = [] ∧
    (executeQuery partitions parts).fs.files = [] := by
  have hnone : parseQuery parts = none := by
    rcases h with h | h
    · simp [parseQuery, kwIdx_eq_none parts "get" h]
    · simp [parseQuery, kwIdx_eq_none parts "from" h]
  simp [executeQuery, hnone]

/-- Witness for C9: a query whose tokens contain no GET. -/
theorem missing_get_or_from_reports_invalid_witness :
    ((∀ p ∈ ["a", "FROM", "t"], eqIC p "get" = false) ∨
      (∀ p ∈ ["a", "FROM", "t"], eqIC p "from" = false)) ∧
    (executeQuery [[[("a", Value.int 1)]]] ["a", "FROM", "t"]).message
      = some "Invalid query" ∧
    (executeQuery [[[("a", Value.int 1)]]] ["a", "FROM", "t"]).opened = 0 :=
  ⟨Or.inl (by decide),
   (missing_get_or_from_reports_invalid [[[("a", Value.int 1)]]]
      ["a", "FROM", "t"] (Or.inl (by decide))).1,
   (missing_get_or_from_reports_invalid [[[("a", Value.int 1)]]]
      ["a", "FROM", "t"] (Or.inl (by decide))).2.1⟩

/-! ### C2: external sort emits a sorted permutation of its inputs -/

theorem lexLt_asymm {a b : List ℚ} (h : lexLt a b = true) : lexLt b a = false := by
  induction a generalizing b with
  | nil => cases b <;> simp_all [lexLt]
  | cons x xs ih =>
    cases b with
    | nil => simp_all [lexLt]
    | cons y ys =>
      by_cases hxy : x < y
      · simp [lexLt, hxy, not_lt.mpr hxy.le, ne_of_gt hxy]
      · by_cases hyx : y < x
        · simp [lexLt, hxy, hyx] at h
        · have hx : ¬ y < x := hyx
          simp [lexLt, hxy, hyx] at h ⊢
          exact ih h

theorem lexLt_trans {a b c : List ℚ} (hab : lexLt a b = true)
    (hbc : lexLt b c = true) : lexLt a c = true := by
  induction a generalizing b c with
  | nil =>
    cases b with
    | nil => simp [lexLt] at hab
    | cons y ys => cases c with
      | nil => simp [lexLt] at hbc
      | cons z zs => simp [lexLt]
  | cons x xs ih =>
    cases b with
    | nil => simp [lexLt] at hab
    | cons y ys =>
      cases c with
      | nil => simp [lexLt] at hbc
      | cons z zs =>
        by_cases hxy : x < y <;> by_cases hyz : y < z
        · simp [lexLt, hxy.trans hyz]
        · have hzy : ¬ z < y := by
            intro hzy
            simp [lexLt, hyz, hzy] at hbc
          have hyz' : y = z := le_antisymm (not_lt.mp hzy) (not_lt.mp hyz)
          subst hyz'
          simp [lexLt, hxy]
        · have hyx : ¬ y < x := by
            intro hyx
            simp [lexLt, hxy, hyx] at hab
          have hxy' : x = y := le_antisymm (not_lt.mp hyx) (not_lt.mp hxy)
          subst hxy'
          simp [lexLt, hyz]
        · have hyx : ¬ y < x := by
            intro hyx
            simp [lexLt, hxy, hyx] at hab
          have hzy : ¬ z < y := by
            intro hzy
            simp [lexLt, hyz, hzy] at hbc
          have h1 : lexLt xs ys = true := by simpa [lexLt, hxy, hyx] using hab
          have h2 : lexLt ys zs = true := by simpa [lexLt, hyz, hzy] using hbc
          have hxz : ¬ x < z := by
            have hx : x = y := le_antisymm (not_lt.mp hyx) (not_lt.mp hxy)
            have hy : y = z := le_antisymm (not_lt.mp hzy) (not_lt.mp hyz)
            simp [hx, hy]
          have hzx : ¬ z < x := by
            have hx : x = y := le_antisymm (not_lt.mp hyx) (not_lt.mp hxy)
            have hy : y = z := le_antisymm (not_lt.mp hzy) (not_lt.mp hyz)
            simp [hx, hy]
          simp [lexLt, hxz, hzx]
          exact ih h1 h2

theorem lexLt_tricho (a b : List ℚ) :
    lexLt a b = true ∨ lexLt b a = true ∨ a = b := by
  induction a generalizing b with
  | nil => cases b <;> simp [lexLt]
  | cons x xs ih =>
    cases b with
    | nil => simp [lexLt]
    | cons y ys =>
      rcases lt_trichotomy x y with hxy | hxy | hxy
      · exact Or.inl (by simp [lexLt, hxy])
      · subst hxy
        rcases ih ys with h | h | h
        · exact Or.inl (by simp [lexLt, h])
        · exact Or.inr (Or.inl (by simp [lexLt, h]))
        · exact Or.inr (Or.inr (by simp [h]))
      · exact Or.inr (Or.inl (by simp [lexLt, hxy]))

theorem lexLe_total (a b : List ℚ) : lexLe a b = true ∨ lexLe b a = true := by
  by_cases h : lexLt b a = true
  · exact Or.inr (by simp [lexLe, lexLt_asymm h])
  · exact Or.inl (by simp [lexLe, Bool.not_eq_true] at h ⊢; simp [h])

theorem lexLe_trans {a b c : List ℚ} (hab : lexLe a b = true)
    (hbc : lexLe b c = true) : lexLe a c = true := by
  simp only [lexLe, Bool.not_eq_true'] at hab hbc ⊢
  by_contra hca
  simp only [Bool.not_eq_false] at hca
  rcases lexLt_tricho b c with h | h | h
  · have := lexLt_trans h hca
    simp [this] at hab
  · simp [h] at hbc
  · subst h
    simp [hca] at hab

theorem lexLt_negMap (a b : List ℚ) (hlen : a.length = b.length) :
    lexLt (a.map Neg.neg) (b.map Neg.neg) = lexLt b a := by
  induction a generalizing b with
  | nil => cases b with
    | nil => simp [lexLt]
    | cons y ys => simp at hlen
  | cons x xs ih =>
    cases b with
    | nil => simp at hlen
    | cons y ys =>
      simp only [List.length_cons, Nat.add_right_cancel_iff] at hlen
      by_cases h1 : x < y <;> by_cases h2 : y < x
      · exact absurd h2 (not_lt.mpr h1.le)
      · simp [lexLt, h1, h2, neg_lt_neg_iff]
      · simp [lexLt, h1, h2, neg_lt_neg_iff]
      · simp [lexLt, h1, h2, neg_lt_neg_iff, ih ys hlen]

theorem lexLe_negMap (a b : List ℚ) (hlen : a.length = b.length) :
    lexLe (a.map Neg.neg) (b.map Neg.neg) = lexLe b a := by
  simp [lexLe, lexLt_negMap b a hlen.symm]

/-- One pop removes exactly one record. -/
theorem popMin_size {keyF : Record → List ℚ} :
    ∀ {runs : List (List Record)} {r : Record} {rest' : List (List Record)},
      popMin keyF runs = some (r, rest') → runsSize rest' + 1 = runsSize runs := by
  intro runs
  induction runs with
  | nil => intro r rest' h; simp [popMin] at h
  | cons run rest ih =>
    intro r rest' h
    cases run with
    | nil =>
      simp only [popMin] at h
      match hrec : popMin keyF rest with
      | none => rw [hrec] at h; simp at h
      | some (r₀, rest₀) =>
        rw [hrec] at h
        simp only [Option.map_some'] at h
        cases h
        have := ih hrec
        simp only [runsSize, List.map_cons, List.sum_cons, List.length_nil] at this ⊢
        omega
    | cons x xs =>
      simp only [popMin] at h
      match hrec : popMin keyF rest with
      | none =>
        rw [hrec] at h
        simp only [Option.some.injEq] at h
        cases h
        simp only [runsSize, List.map_cons, List.sum_cons, List.length_cons]
        omega
      | some (y, rest₀) =>
        rw [hrec] at h
        by_cases hlt : lexLt (keyF y) (keyF x) = true
        · simp only [hlt, if_true, Option.some.injEq] at h
          cases h
          have := ih hrec
          simp only [runsSize, List.map_cons, List.sum_cons, List.length_cons] at this ⊢
          omega
        · simp only [hlt, if_false, Option.some.injEq] at h
          cases h
          simp only [runsSize, List.map_cons, List.sum_cons, List.length_cons]
          omega

/-- A pop returns `none` only when every run is exhausted. -/
theorem popMin_none {keyF : Record → List ℚ} :
    ∀ {runs : List (List Record)}, popMin keyF runs = none → runs.flatten = [] := by
  intro runs
  induction runs with
  | nil => intro _; rfl
  | cons run rest ih =>
    intro h
    cases run with
    | nil =>
      simp only [popMin] at h
      match hrec : popMin keyF rest with
      | none => simp [ih hrec]
      | some p => rw [hrec] at h; simp at h
    | cons x xs =>
      simp only [popMin] at h
      match hrec : popMin keyF rest with
      | none => rw [hrec] at h; simp at h
      | some (y, rest₀) =>
        rw [hrec] at h
        by_cases hlt : lexLt (keyF y) (keyF x) = true
        · simp [hlt] at h
        · simp [hlt] at h

/-- The popped record plus the remaining records permute the originals. -/
theorem popMin_perm {keyF : Record → List ℚ} :
    ∀ {runs : List (List Record)} {r : Record} {rest' : List (List Record)},
      popMin keyF runs = some (r, rest') →
      List.Perm runs.flatten (r :: rest'.flatten) := by
  intro runs
  induction runs with
  | nil => intro r rest' h; simp [popMin] at h
  | cons run rest ih =>
    intro r rest' h
    cases run with
    | nil =>
      simp only [popMin] at h
      match hrec : popMin keyF rest with
      | none => rw [hrec] at h; simp at h
      | some (r₀, rest₀) =>
        rw [hrec] at h
        simp only [Option.map_some'] at h
        cases h
        simpa using ih hrec
    | cons x xs =>
      simp only [popMin] at h
      match hrec : popMin keyF rest with
      | none =>
        rw [hrec] at h
        simp only [Option.some.injEq] at h
        cases h
        simp
      | some (y, rest₀) =>
        rw [hrec] at h
        by_cases hlt : lexLt (keyF y) (keyF x) = true
        · simp only [hlt, if_true, Option.some.injEq] at h
          cases h
          simp only [List.flatten_cons]
          have h1 : List.Perm ((x :: xs) ++ rest.flatten)
              ((x :: xs) ++ (r :: rest₀.flatten)) :=
            List.Perm.append_left _ (ih hrec)
          exact h1.trans List.perm_middle
        · simp only [hlt, if_false, Option.some.injEq] at h
          cases h
          simp

/-- The popped record has the least heap key: it is below everything left
in the runs, and the runs stay sorted. -/
theorem popMin_min {keyF : Record → List ℚ} :
    ∀ {runs : List (List Record)} {r : Record} {rest' : List (List Record)},
      popMin keyF runs = some (r, rest') →
      (∀ run ∈ runs, run.Sorted (fun a b => lexLe (keyF a) (keyF b) = true)) →
      (∀ x ∈ rest'.flatten, lexLe (keyF r) (keyF x) = true) ∧
      (∀ run ∈ rest', run.Sorted (fun a b => lexLe (keyF a) (keyF b) = true)) := by
  intro runs
  induction runs with
  | nil => intro r rest' h _; simp [popMin] at h
  | cons run rest ih =>
    intro r rest' h hsort
    have hsort_run := hsort run (List.mem_cons_self run rest)
    have hsort_rest : ∀ run' ∈ rest,
        run'.Sorted (fun a b => lexLe (keyF a) (keyF b) = true) :=
      fun run' hm => hsort run' (List.mem_cons_of_mem run hm)
    cases run with
    | nil =>
      simp only [popMin] at h
      match hrec : popMin keyF rest with
      | none => rw [hrec] at h; simp at h
      | some (r₀, rest₀) =>
        rw [hrec] at h
        simp only [Option.map_some'] at h
        cases h
        obtain ⟨hmin, hs⟩ := ih hrec hsort_rest
        refine ⟨fun x hx => hmin x (by simpa using hx), ?_⟩
        intro run' hm
        rcases List.mem_cons.mp hm with rfl | hm'
        · exact List.sorted_nil
        · exact hs run' hm'
    | cons x xs =>
      have hx_xs : ∀ z ∈ xs, lexLe (keyF x) (keyF z) = true :=
        List.rel_of_sorted_cons hsort_run
      have hxs_sorted := hsort_run.of_cons
      simp only [popMin] at h
      match hrec : popMin keyF rest with
      | none =>
        rw [hrec] at h
        simp only [Option.some.injEq] at h
        cases h
        have hflat := popMin_none hrec
        constructor
        · intro z hz
          simp only [List.flatten_cons, hflat, List.append_nil] at hz
          exact hx_xs z hz
        · intro run' hm
          rcases List.mem_cons.mp hm with rfl | hm'
          · exact hxs_sorted
          · exact hsort_rest run' hm'
      | some (y, rest₀) =>
        rw [hrec] at h
        obtain ⟨hmin, hs⟩ := ih hrec hsort_rest
        have hperm := popMin_perm hrec
        by_cases hlt : lexLt (keyF y) (keyF x) = true
        · simp only [hlt, if_true, Option.some.injEq] at h
          cases h
          have hrx : lexLe (keyF r) (keyF x) = true := by
            simp [lexLe, lexLt_asymm hlt]
          constructor
          · intro z hz
            simp only [List.flatten_cons, List.mem_append] at hz
            rcases hz with hz | hz
            · rcases List.mem_cons.mp hz with rfl | hz'
              · exact hrx
              · exact lexLe_trans hrx (hx_xs z hz')
            · exact hmin z hz
          · intro run' hm
            rcases List.mem_cons.mp hm with rfl | hm'
            · exact hsort_run
            · exact hs run' hm'
        · simp only [hlt, if_false, Option.some.injEq] at h
          cases h
          have hry : lexLe (keyF r) (keyF y) = true := by
            simp [lexLe, Bool.not_eq_true] at hlt ⊢
            exact hlt
          constructor
          · intro z hz
            simp only [List.flatten_cons, List.mem_append] at hz
            rcases hz with hz | hz
            · exact hx_xs z hz
            · have hz' : z ∈ y :: rest₀.flatten := hperm.mem_iff.mp hz
              rcases List.mem_cons.mp hz' with rfl | hz''
              · exact hry
              · exact lexLe_trans hry (hmin z hz'')
          · intro run' hm
            rcases List.mem_cons.mp hm with rfl | hm'
            · exact hxs_sorted
            · exact hsort_rest run' hm'

/-- Flatten of all-empty runs. -/
theorem flatten_eq_nil_of_runsSize_zero {runs : List (List Record)}
    (h : runsSize runs = 0) : runs.flatten = [] := by
  have : runs.flatten.length = 0 := by
    simpa [List.length_flatten, runsSize] using h
  exact List.eq_nil_of_length_eq_zero this

/-- The merge emits a permutation of everything in the runs. -/
theorem mergeRunsGo_perm {keyF : Record → List ℚ} :
    ∀ (n : Nat) (runs : List (List Record)), runsSize runs ≤ n →
      List.Perm (mergeRunsGo keyF n runs) runs.flatten := by
  intro n
  induction n with
  | zero =>
    intro runs hsize
    have : runsSize runs = 0 := Nat.le_zero.mp hsize
    simp [mergeRunsGo, flatten_eq_nil_of_runsSize_zero this]
  | succ n ih =>
    intro runs hsize
    simp only [mergeRunsGo]
    match hpop : popMin keyF runs with
    | none => simp [popMin_none hpop]
    | some (r, rest') =>
      have hsize' : runsSize rest' ≤ n := by
        have := popMin_size hpop
        omega
      exact ((ih rest' hsize').cons r).trans (popMin_perm hpop).symm

/-- The merge emits records in non-decreasing heap-key order. -/
theorem mergeRunsGo_sorted {keyF : Record → List ℚ} :
    ∀ (n : Nat) (runs : List (List Record)), runsSize runs ≤ n →
      (∀ run ∈ runs, run.Sorted (fun a b => lexLe (keyF a) (keyF b) = true)) →
      (mergeRunsGo keyF n runs).Sorted
        (fun a b => lexLe (keyF a) (keyF b) = true) := by
  intro n
  induction n with
  | zero => intro runs _ _; simp [mergeRunsGo]
  | succ n ih =>
    intro runs hsize hsort
    simp only [mergeRunsGo]
    match hpop : popMin keyF runs with
    | none => exact List.sorted_nil
    | some (r, rest') =>
      have hsize' : runsSize rest' ≤ n := by
        have := popMin_size hpop
        omega
      obtain ⟨hmin, hs⟩ := popMin_min hpop hsort
      refine List.sorted_cons.mpr ⟨?_, ih rest' hsize' hs⟩
      intro b hb
      exact hmin b ((mergeRunsGo_perm n rest' hsize').mem_iff.mp hb)

/-- `mergeRuns` of sorted runs: a sorted permutation of their contents. -/
theorem mergeRuns_correct {keyF : Record → List ℚ} (runs : List (List Record))
    (hsort : ∀ run ∈ runs, run.Sorted (fun a b => lexLe (keyF a) (keyF b) = true)) :
    List.Perm (mergeRuns keyF runs) runs.flatten ∧
    (mergeRuns keyF runs).Sorted (fun a b => lexLe (keyF a) (keyF b) = true) :=
  ⟨mergeRunsGo_perm (runsSize runs) runs le_rfl,
   mergeRunsGo_sorted (runsSize runs) runs le_rfl hsort⟩

/-- An `Option`-monadic `mapM` that succeeds preserves length. -/
theorem mapM_some_length {α β : Type} {f : α → Option β} :
    ∀ {l : List α} {out : List β}, List.mapM f l = some out → out.length = l.length := by
  intro l
  induction l with
  | nil =>
    intro out h
    rw [← List.mapM'_eq_mapM] at h
    simp only [List.mapM'] at h
    simp only [Option.pure_def, Option.some.injEq] at h
    simp [← h]
  | cons a rest ih =>
    intro out h
    rw [← List.mapM'_eq_mapM] at h
    simp only [List.mapM'] at h
    match hfa : f a with
    | none => rw [hfa] at h; simp at h
    | some b =>
      rw [hfa] at h
      match hrest : List.mapM' f rest with
      | none => rw [hrest] at h; simp at h
      | some out' =>
        rw [hrest] at h
        simp only [Option.pure_def, Option.bind_eq_bind, Option.some_bind,
          Option.some.injEq] at h
        rw [List.mapM'_eq_mapM] at hrest
        simp [← h, ih hrest]

/-- A record with a sort key has a key tuple of the selector's length. -/
theorem keyOf_length {sk : FieldSel} {r : Record} (h : (keyTup sk r).isSome) :
    (keyOf sk r).length = sk.fields.length := by
  obtain ⟨v, hv⟩ := Option.isSome_iff_exists.mp h
  simp only [keyOf, hv, Option.getD_some]
  exact mapM_some_length hv

/-- `_sort_and_write_chunk` on a keyed file: a run that permutes the file
and is sorted in heap-key order. -/
theorem sortChunk_correct (sk : FieldSel) (rev : Bool) (data : List Record)
    (h : ∀ r ∈ data, (keyTup sk r).isSome) :
    ∃ run, sortChunk sk rev data = some run ∧ List.Perm run data ∧
      run.Sorted (fun a b => lexLe (hkey sk rev a) (hkey sk rev b) = true) := by
  have hall : data.all (fun r => (keyTup sk r).isSome) = true :=
    List.all_eq_true.mpr (fun r hr => h r hr)
  cases rev with
  | false =>
    refine ⟨List.insertionSort (fun a b => lexLe (keyOf sk a) (keyOf sk b) = true) data,
      by simp [sortChunk, hall], List.perm_insertionSort _ data, ?_⟩
    letI : IsTotal Record (fun a b => lexLe (keyOf sk a) (keyOf sk b) = true) :=
      ⟨fun a b => lexLe_total (keyOf sk a) (keyOf sk b)⟩
    letI : IsTrans Record (fun a b => lexLe (keyOf sk a) (keyOf sk b) = true) :=
      ⟨fun _ _ _ hab hbc => lexLe_trans hab hbc⟩
    have hs := List.sorted_insertionSort
      (fun a b => lexLe (keyOf sk a) (keyOf sk b) = true) data
    refine hs.imp ?_
    intro a b hab
    simpa [hkey] using hab
  | true =>
    refine ⟨List.insertionSort (fun a b => lexLe (keyOf sk b) (keyOf sk a) = true) data,
      by simp [sortChunk, hall], List.perm_insertionSort _ data, ?_⟩
    letI : IsTotal Record (fun a b => lexLe (keyOf sk b) (keyOf sk a) = true) :=
      ⟨fun a b => (lexLe_total (keyOf sk a) (keyOf sk b)).symm⟩
    letI : IsTrans Record (fun a b => lexLe (keyOf sk b) (keyOf sk a) = true) :=
      ⟨fun _ _ _ hab hbc => lexLe_trans hbc hab⟩
    have hs := List.sorted_insertionSort
      (fun a b => lexLe (keyOf sk b) (keyOf sk a) = true) data
    have hmem : ∀ x ∈ List.insertionSort
        (fun a b => lexLe (keyOf sk b) (keyOf sk a) = true) data, x ∈ data :=
      fun x hx => (List.perm_insertionSort _ data).mem_iff.mp hx
    refine List.Pairwise.imp_of_mem ?_ hs
    intro a b ha hb hab
    have hlen : (keyOf sk a).length = (keyOf sk b).length := by
      rw [keyOf_length (h a (hmem a ha)), keyOf_length (h b (hmem b hb))]
    simpa [hkey, lexLe_negMap (keyOf sk a) (keyOf sk b) hlen] using hab

/-- Corresponding permutations flatten to a permutation. -/
theorem flatten_perm_of_forall₂ {l₁ l₂ : List (List Record)}
    (h : List.Forall₂ (fun a b => List.Perm a b) l₁ l₂) :
    List.Perm l₁.flatten l₂.flatten := by
  induction h with
  | nil => rfl
  | cons hp _ ih => simpa using hp.append ih

/-- All chunk sorts succeed on keyed files, producing runs that pairwise
permute the files and are sorted in heap-key order. -/
theorem mapM_sortChunk_correct (sk : FieldSel) (rev : Bool) :
    ∀ (files : List (List Record)),
      (∀ f ∈ files, ∀ r ∈ f, (keyTup sk r).isSome) →
      ∃ runs, List.mapM (sortChunk sk rev) files = some runs ∧
        List.Forall₂ (fun run f => List.Perm run f) runs files ∧
        ∀ run ∈ runs, run.Sorted
          (fun a b => lexLe (hkey sk rev a) (hkey sk rev b) = true) := by
  intro files
  induction files with
  | nil =>
    intro _
    refine ⟨[], ?_, List.Forall₂.nil, by simp⟩
    rw [← List.mapM'_eq_mapM]
    rfl
  | cons f rest ih =>
    intro h
    obtain ⟨run, hrun, hperm, hsorted⟩ :=
      sortChunk_correct sk rev f (h f (List.mem_cons_self f rest))
    obtain ⟨runs, hruns, hforall, hsall⟩ :=
      ih (fun f' hf' => h f' (List.mem_cons_of_mem f hf'))
    refine ⟨run :: runs, ?_, List.Forall₂.cons hperm hforall, ?_⟩
    · rw [← List.mapM'_eq_mapM] at hruns ⊢
      simp only [List.mapM', hrun, hruns]
      rfl
    · intro run' hm
      rcases List.mem_cons.mp hm with rfl | hm'
      · exact hsorted
      · exact hsall run' hm'

/-- C2.  For every list of input partition files whose records all carry
the sort key (as numeric values — the heap's key negation restricts
descending merges to numeric keys) and every sort key (a single field is
the one-element selector), `execute_external_sort` succeeds and emits a
sequence that is a permutation of the multiset of all records in the
concatenation of the inputs, and is non-decreasing in the key —
non-increasing when `reverse` is true. -/
theorem execute_external_sort_correct (files : List (List Record))
    (sk : FieldSel) (rev : Bool)
    (h : ∀ f ∈ files, ∀ r ∈ f, (keyTup sk r).isSome) :
    ∃ out, executeExternalSort files sk rev = some out ∧
      List.Perm out files.flatten ∧
      out.Sorted (fun a b =>
        (if rev then lexLe (keyOf sk b) (keyOf sk a)
         else lexLe (keyOf sk a) (keyOf sk b)) = true) := by
  obtain ⟨runs, hruns, hforall, hsall⟩ := mapM_sortChunk_correct sk rev files h
  obtain ⟨hperm, hsorted⟩ :=
    @mergeRuns_correct (hkey sk rev) runs hsall
  refine ⟨mergeRuns (hkey sk rev) runs, ?_, ?_, ?_⟩
  · simp only [executeExternalSort, hruns, Option.map_some']
  · exact hperm.trans (flatten_perm_of_forall₂ hforall)
  · have hmem : ∀ x ∈ mergeRuns (hkey sk rev) runs, x ∈ files.flatten :=
      fun x hx => (hperm.trans (flatten_perm_of_forall₂ hforall)).mem_iff.mp hx
    refine List.Pairwise.imp_of_mem ?_ hsorted
    intro a b ha hb hab
    have hka : (keyTup sk a).isSome := by
      obtain ⟨f, hf, haf⟩ := List.mem_flatten.mp (hmem a ha)
      exact h f hf a haf
    have hkb : (keyTup sk b).isSome := by
      obtain ⟨f, hf, hbf⟩ := List.mem_flatten.mp (hmem b hb)
      exact h f hf b hbf
    have hlen : (keyOf sk a).length = (keyOf sk b).length := by
      rw [keyOf_length hka, keyOf_length hkb]
    cases rev with
    | false => simpa [hkey] using hab
    | true =>
      simp only [if_true]
      simpa [hkey, lexLe_negMap (keyOf sk a) (keyOf sk b) hlen] using hab

/-- Witness for C2: two keyed partitions, ascending single-field sort. -/
theorem execute_external_sort_correct_witness :
    (∀ f ∈ [[[("k", Value.int 3)], [("k", Value.int 1)]],
            [[("k", Value.int 2)]]], ∀ r ∈ f,
        (keyTup (FieldSel.single "k") r).isSome) ∧
    ∃ out, executeExternalSort
        [[[("k", Value.int 3)], [("k", Value.int 1)]], [[("k", Value.int 2)]]]
        (FieldSel.single "k") false = some out ∧
      List.Perm out
        [[("k", Value.int 3)], [("k", Value.int 1)], [("k", Value.int 2)]] ∧
      out.Sorted (fun a b =>
        (if false then lexLe (keyOf (FieldSel.single "k") b)
            (keyOf (FieldSel.single "k") a)
         else lexLe (keyOf (FieldSel.single "k") a)
            (keyOf (FieldSel.single "k") b)) = true) :=
  ⟨by decide,
   by
    have := execute_external_sort_correct
      [[[("k", Value.int 3)], [("k", Value.int 1)]], [[("k", Value.int 2)]]]
      (FieldSel.single "k") false (by decide)
    simpa using this⟩

/-! ### C10: projection keeps exactly the requested fields or raises -/

/-- `List.lookup` in a record of the canonical `map` shape. -/
theorem lookup_mapform (g : String → Value) :
    ∀ (done : List String) (f : String),
      List.lookup f (done.map (fun x => (x, g x))) =
        if f ∈ done then some (g f) else none := by
  intro done
  induction done with
  | nil => intro f; simp
  | cons d rest ih =>
    intro f
    by_cases hfd : f = d
    · subst hfd
      simp [List.lookup]
    · have hbeq : (f == d) = false := beq_eq_false_iff_ne.mpr hfd
      simp only [List.map_cons, List.lookup, hbeq, List.mem_cons]
      simp [ih f, hfd]

/-- The projection fold over present, distinct fields builds exactly the
requested record. -/
theorem selectFold_present (r : Record) :
    ∀ (fields done : List String), (done ++ fields).Nodup →
      (∀ f ∈ fields, (List.lookup f r).isSome) →
      List.foldlM
        (fun acc f => (List.lookup f r).map (fun v => dictInsert acc f v))
        (done.map (fun x => (x, (List.lookup x r).getD Value.null))) fields =
      some ((done ++ fields).map
        (fun x => (x, (List.lookup x r).getD Value.null))) := by
  intro fields
  induction fields with
  | nil => intro done _ _; simp
  | cons f fs ih =>
    intro done hnd hpres
    obtain ⟨v, hv⟩ := Option.isSome_iff_exists.mp (hpres f (List.mem_cons_self f fs))
    have hfnot : f ∉ done := by
      rcases List.nodup_append.mp hnd with ⟨_, _, hdisj⟩
      intro hf
      exact hdisj hf (List.mem_cons_self f fs)
    have hstep : dictInsert
        (done.map (fun x => (x, (List.lookup x r).getD Value.null))) f v =
        (done ++ [f]).map (fun x => (x, (List.lookup x r).getD Value.null)) := by
      simp only [dictInsert,
        lookup_mapform (fun x => (List.lookup x r).getD Value.null) done f,
        if_neg hfnot, Option.isSome_none, Bool.false_eq_true, if_false,
        List.map_append, List.map_cons, List.map_nil, hv, Option.getD_some]
    rw [List.foldlM_cons, hv]
    simp only [Option.map_some', Option.bind_eq_bind, Option.some_bind, hstep]
    have hnd' : ((done ++ [f]) ++ fs).Nodup := by
      simpa [List.append_assoc] using hnd
    have := ih (done ++ [f]) hnd'
      (fun f' hf' => hpres f' (List.mem_cons_of_mem f hf'))
    rw [this]
    simp [List.append_assoc]

/-- The projection fold raises `KeyError` when any requested field is
absent. -/
theorem selectFold_absent (r : Record) :
    ∀ (fields : List String) (acc : Record),
      (∃ f ∈ fields, List.lookup f r = none) →
      List.foldlM
        (fun acc f => (List.lookup f r).map (fun v => dictInsert acc f v))
        acc fields = none := by
  intro fields
  induction fields with
  | nil => intro acc h; simp at h
  | cons f fs ih =>
    intro acc h
    rw [List.foldlM_cons]
    match hv : List.lookup f r with
    | none => simp
    | some v =>
      obtain ⟨f', hf', hnone⟩ := h
      rcases List.mem_cons.mp hf' with rfl | hf''
      · rw [hnone] at hv; cases hv
      · simp only [Option.map_some', Option.bind_eq_bind, Option.some_bind]
        exact ih _ ⟨f', hf'', hnone⟩

/-- C10.  Projection by `select_record_fields`: the wildcard list `['*']`
returns the record unchanged; an explicit distinct field list returns a
record containing exactly the requested fields (in order, with their
stored values) when every requested field is present; and it raises
`KeyError` (`none`) — it does not skip the field or substitute null — as
soon as any requested field is absent. -/
theorem select_record_fields_spec (r : Record) (fields : List String) :
    selectRecordFields r ["*"] = some r ∧
    (fields ≠ ["*"] → fields.Nodup →
      (∀ f ∈ fields, (List.lookup f r).isSome) →
      selectRecordFields r fields =
        some (fields.map (fun f => (f, (List.lookup f r).getD Value.null)))) ∧
    (fields ≠ ["*"] → (∃ f ∈ fields, List.lookup f r = none) →
      selectRecordFields r fields = none) := by
  refine ⟨by simp [selectRecordFields], ?_, ?_⟩
  · intro hnw hnd hpres
    rw [selectRecordFields, if_neg hnw]
    simpa using selectFold_present r fields [] (by simpa using hnd) hpres
  · intro hnw habs
    rw [selectRecordFields, if_neg hnw]
    exact selectFold_absent r fields [] habs

/-- Witness for C10 at concrete records. -/
theorem select_record_fields_spec_witness :
    selectRecordFields [("a", Value.int 1), ("b", Value.int 2)] ["*"] =
      some [("a", Value.int 1), ("b", Value.int 2)] ∧
    selectRecordFields [("a", Value.int 1), ("b", Value.int 2)] ["b"] =
      some [("b", Value.int 2)] ∧
    selectRecordFields [("a", Value.int 1)] ["b"] = none :=
  ⟨(select_record_fields_spec [("a", Value.int 1), ("b", Value.int 2)] ["b"]).1,
   by
    have := (select_record_fields_spec
      [("a", Value.int 1), ("b", Value.int 2)] ["b"]).2.1
      (by decide) (by decide) (by decide)
    simpa using this,
   (select_record_fields_spec [("a", Value.int 1)] ["b"]).2.2 (by decide)
     ⟨"b", by decide, by decide⟩⟩

/-! ### C1: partial-then-final aggregation equals single-pass aggregation

The proof characterises `grouped_data` (what `partial_aggregate` builds),
then the final-phase accumulators, in terms of the per-group collected
value lists `svals`, which split along partition boundaries. -/

theorem pyEqB_refl (v : Value) : pyEqB v v = true := by
  cases v <;> simp [pyEqB]

theorem pyEqB_symm (a b : Value) : pyEqB a b = pyEqB b a := by
  cases a <;> cases b <;> simp [pyEqB, eq_comm]

theorem pyEqB_trans : ∀ {a b c : Value},
    pyEqB a b = true → pyEqB b c = true → pyEqB a c = true := by
  intro a b c h1 h2
  cases a <;> cases b <;> cases c <;> simp_all [pyEqB]

/-- `gkeyEq` as elementwise Python equality. -/
theorem gkeyEq_iff {a b : List Value} :
    gkeyEq a b = true ↔ List.Forall₂ (fun x y => pyEqB x y = true) a b := by
  induction a generalizing b with
  | nil =>
    cases b <;> simp [gkeyEq, List.forall₂_nil_left_iff]
  | cons x xs ih =>
    cases b with
    | nil => simp [gkeyEq]
    | cons y ys =>
      simp only [gkeyEq, List.length_cons, List.zip_cons_cons, List.all_cons,
        Bool.and_eq_true, List.forall₂_cons, decide_eq_true_eq]
      constructor
      · rintro ⟨hlen, hxy, hall⟩
        refine ⟨hxy, ih.mp ?_⟩
        simp only [gkeyEq, Bool.and_eq_true, decide_eq_true_eq]
        exact ⟨by omega, hall⟩
      · rintro ⟨hxy, hf⟩
        have := ih.mpr hf
        simp only [gkeyEq, Bool.and_eq_true, decide_eq_true_eq] at this
        exact ⟨by omega, hxy, this.2⟩

theorem gkeyEq_refl (g : List Value) : gkeyEq g g = true := by
  rw [gkeyEq_iff]
  exact List.forall₂_same.mpr (fun x _ => pyEqB_refl x)

theorem gkeyEq_symm {a b : List Value} (h : gkeyEq a b = true) :
    gkeyEq b a = true := by
  rw [gkeyEq_iff] at h ⊢
  induction h with
  | nil => exact List.Forall₂.nil
  | cons hxy _ ih =>
    exact List.Forall₂.cons (by rw [pyEqB_symm]; exact hxy) ih

theorem gkeyEq_trans : ∀ {a b c : List Value},
    gkeyEq a b = true → gkeyEq b c = true → gkeyEq a c = true := by
  intro a b c h1 h2
  rw [gkeyEq_iff] at h1 h2 ⊢
  induction h1 generalizing c with
  | nil =>
    cases h2
    exact List.Forall₂.nil
  | cons hxy _ ih =>
    cases h2 with
    | cons hyz hrest => exact List.Forall₂.cons (pyEqB_trans hxy hyz) (ih hrest)

/-- Two Python-equal keys match the same entries everywhere. -/
theorem gkeyEq_congr {g g' : List Value} (h : gkeyEq g g' = true) (x : List Value) :
    gkeyEq x g = gkeyEq x g' := by
  cases hx : gkeyEq x g with
  | true => rw [gkeyEq_trans hx h]
  | false =>
    cases hx' : gkeyEq x g' with
    | false => rfl
    | true =>
      have := gkeyEq_trans hx' (gkeyEq_symm h)
      rw [this] at hx
      cases hx

theorem gMatches_congr {gks : FieldSel} {g g' : List Value}
    (h : gkeyEq g g' = true) (r : Record) :
    gMatches gks g r = gMatches gks g' r := by
  unfold gMatches
  cases gkeyOf gks r with
  | none => rfl
  | some gr => exact gkeyEq_congr h gr

theorem svals_congr {gks : FieldSel} {g g' : List Value} (t : String)
    (h : gkeyEq g g' = true) (D : List Record) :
    svals gks t g D = svals gks t g' D := by
  unfold svals
  congr 1
  funext r
  rw [gMatches_congr h]

theorem activeIn_congr {gks : FieldSel} {targets : List (String × Agg)}
    {g g' : List Value} (h : gkeyEq g g' = true) (D : List Record) :
    activeIn gks targets g D = activeIn gks targets g' D := by
  unfold activeIn
  congr 1
  funext r
  rw [gMatches_congr h]

theorem svals_append (gks : FieldSel) (t : String) (g : List Value)
    (A B : List Record) :
    svals gks t g (A ++ B) = svals gks t g A ++ svals gks t g B := by
  simp [svals, List.filterMap_append]

theorem activeIn_append (gks : FieldSel) (targets : List (String × Agg))
    (g : List Value) (A B : List Record) :
    activeIn gks targets g (A ++ B) =
      (activeIn gks targets g A || activeIn gks targets g B) := by
  simp [activeIn, List.any_append]

/-- A group with no active record collects no values at any target. -/
theorem svals_eq_nil_of_inactive {gks : FieldSel} {targets : List (String × Agg)}
    {g : List Value} {D : List Record}
    (h : activeIn gks targets g D = false) {t : String}
    (ht : t ∈ targets.map Prod.fst) :
    svals gks t g D = [] := by
  unfold svals
  rw [List.filterMap_eq_nil_iff]
  intro r hr
  by_cases hm : gMatches gks g r = true
  · simp only [hm, if_true]
    unfold activeIn at h
    rw [List.any_eq_false] at h
    have h1 := h r hr
    simp only [hm, Bool.true_and, Bool.not_eq_true] at h1
    unfold targetsPresent at h1
    rw [List.any_eq_false] at h1
    obtain ⟨p, hp, hpt⟩ := List.mem_map.mp ht
    have h2 := h1 p hp
    rw [hpt] at h2
    cases hl : List.lookup t r with
    | none => rfl
    | some v => rw [hl] at h2; simp at h2
  · simp only [Bool.not_eq_true] at hm
    simp [hm]

theorem glookup_nil {α : Type} (g : List Value) : glookup g ([] : List (List Value × α)) = none := rfl

theorem glookup_cons {α : Type} (g g₀ : List Value) (x : α) (G : List (List Value × α)) :
    glookup g ((g₀, x) :: G) =
      if gkeyEq g₀ g = true then some x else glookup g G := by
  by_cases h : gkeyEq g₀ g = true
  · simp [glookup, List.find?, h]
  · simp only [Bool.not_eq_true] at h
    simp [glookup, List.find?, h]

/-- Looking a group up in `grouped_data` after the in-place update of
group `g₀`: the entry found for `g` is updated exactly when `g` and `g₀`
are the same Python key. -/
theorem glookup_map_upd (t : String) (v : Value) (g₀ : List Value) :
    ∀ (G : GroupData) (g : List Value),
      glookup g (G.map (fun e =>
        if gkeyEq e.1 g₀ = true then (e.1, addVal e.2 t v) else e)) =
      if gkeyEq g₀ g = true then (glookup g G).map (fun row => addVal row t v)
      else glookup g G := by
  intro G
  induction G with
  | nil =>
    intro g
    simp only [List.map_nil, glookup_nil, Option.map_none']
    split <;> rfl
  | cons e G' ih =>
    intro g
    obtain ⟨ge, row⟩ := e
    by_cases hgg : gkeyEq ge g = true
    · by_cases hg₀ : gkeyEq g₀ g = true
      · have hc : gkeyEq ge g₀ = true := by
          have := gkeyEq_congr (gkeyEq_symm hg₀) ge
          rw [this] at hgg
          exact hgg
        simp only [List.map_cons, hc, if_true]
        rw [glookup_cons, glookup_cons, if_pos hgg, if_pos hg₀, if_pos hgg]
        simp
      · have hc : gkeyEq ge g₀ = false := by
          cases hcc : gkeyEq ge g₀ with
          | false => rfl
          | true =>
            exfalso
            have := gkeyEq_trans (gkeyEq_symm hcc) hgg
            rw [this] at hg₀
            exact hg₀ rfl
        simp only [List.map_cons, hc, Bool.false_eq_true, if_false]
        rw [glookup_cons, glookup_cons, if_pos hgg, if_pos hgg, if_neg hg₀]
    · have hhead : glookup g ((if gkeyEq ge g₀ = true then (ge, addVal row t v)
          else (ge, row)) :: G'.map (fun e =>
            if gkeyEq e.1 g₀ = true then (e.1, addVal e.2 t v) else e)) =
          glookup g (G'.map (fun e =>
            if gkeyEq e.1 g₀ = true then (e.1, addVal e.2 t v) else e)) := by
        split
        · rw [glookup_cons, if_neg hgg]
        · rw [glookup_cons, if_neg hgg]
      simp only [List.map_cons]
      rw [hhead, ih g, glookup_cons, if_neg hgg]

/-- Looking a group up across an append. -/
theorem glookup_append {α : Type} (g : List Value)
    (A B : List (List Value × α)) :
    glookup g (A ++ B) =
      match glookup g A with
      | some x => some x
      | none => glookup g B := by
  induction A with
  | nil => simp [glookup_nil]
  | cons e A' ih =>
    obtain ⟨ge, x⟩ := e
    by_cases h : gkeyEq ge g = true
    · rw [List.cons_append, glookup_cons, glookup_cons, if_pos h, if_pos h]
    · rw [List.cons_append, glookup_cons, glookup_cons, if_neg h, if_neg h, ih]

/-- `glookup` misses exactly when no entry key is the same Python key. -/
theorem glookup_eq_none_iff {α : Type} (g : List Value)
    (G : List (List Value × α)) :
    glookup g G = none ↔ ∀ e ∈ G, gkeyEq e.1 g = false := by
  induction G with
  | nil => simp [glookup_nil]
  | cons e G' ih =>
    obtain ⟨ge, x⟩ := e
    rw [glookup_cons]
    by_cases h : gkeyEq ge g = true
    · simp [h]
    · simp only [Bool.not_eq_true] at h
      simp [h, ih]

/-- The effect of `addToGroup` on every group lookup. -/
theorem addToGroup_glookup (targets : List (String × Agg)) (G : GroupData)
    (g₀ : List Value) (t : String) (v : Value) (g : List Value) :
    glookup g (addToGroup targets G g₀ t v) =
      if gkeyEq g₀ g = true then
        match glookup g G with
        | some row => some (addVal row t v)
        | none => some (addVal (defaultRow targets) t v)
      else glookup g G := by
  unfold addToGroup
  by_cases hex : G.any (fun e => gkeyEq e.1 g₀) = true
  · rw [if_pos hex, glookup_map_upd]
    by_cases hg₀ : gkeyEq g₀ g = true
    · rw [if_pos hg₀, if_pos hg₀]
      match hl : glookup g G with
      | some row => simp
      | none =>
        exfalso
        obtain ⟨e, he, hek⟩ := List.any_eq_true.mp hex
        have h1 := (glookup_eq_none_iff g G).mp hl e he
        rw [gkeyEq_congr hg₀ e.1] at hek
        rw [hek] at h1
        cases h1
    · rw [if_neg hg₀, if_neg hg₀]
  · rw [if_neg hex, glookup_append]
    by_cases hg₀ : gkeyEq g₀ g = true
    · have hl : glookup g G = none := by
        rw [glookup_eq_none_iff]
        intro e he
        cases hc : gkeyEq e.1 g with
        | false => rfl
        | true =>
          exfalso
          have hcg : gkeyEq e.1 g₀ = true := by
            rw [gkeyEq_congr (gkeyEq_symm hg₀) e.1] at hc
            exact hc
          exact hex (List.any_eq_true.mpr ⟨e, he, by simp [hcg]⟩)
      rw [hl, if_pos hg₀]
      rw [glookup_cons, if_pos hg₀]
    · rw [if_neg hg₀]
      match hl : glookup g G with
      | some row => rfl
      | none => rw [glookup_cons, if_neg hg₀, glookup_nil]

/-- `addVal` on a row in canonical `map` shape. -/
theorem addVal_map (L : List (String × Agg)) (f : String → List Value)
    (t : String) (v : Value) :
    addVal (L.map fun p => (p.1, f p.1)) t v =
      L.map (fun p => (p.1, if p.1 = t then f p.1 ++ [v] else f p.1)) := by
  unfold addVal
  rw [List.map_map]
  apply List.map_congr_left
  intro p _
  by_cases hp : p.1 = t <;> simp [hp]

/-- `rowStep` on a present target. -/
theorem rowStep_some {r : Record} {p : String × Agg} {v : Value}
    (hp : List.lookup p.1 r = some v) (row : GroupRow) :
    rowStep r row p = addVal row p.1 v := by
  simp [rowStep, hp]

/-- `rowStep` on an absent target. -/
theorem rowStep_none {r : Record} {p : String × Agg}
    (hp : List.lookup p.1 r = none) (row : GroupRow) :
    rowStep r row p = row := by
  simp [rowStep, hp]

/-- `recStep` on a present target. -/
theorem recStep_some {r : Record} {p : String × Agg} {v : Value}
    (targets : List (String × Agg)) (g : List Value)
    (hp : List.lookup p.1 r = some v) (G : GroupData) :
    recStep targets r g G p = addToGroup targets G g p.1 v := by
  simp [recStep, hp]

/-- `recStep` on an absent target. -/
theorem recStep_none {r : Record} {p : String × Agg}
    (targets : List (String × Agg)) (g : List Value)
    (hp : List.lookup p.1 r = none) (G : GroupData) :
    recStep targets r g G p = G := by
  simp [recStep, hp]

/-- The per-record row update folded over any target sublist, acting on a
canonical row: each slot accumulates the contributions of its own key. -/
theorem rowFoldGen (r : Record) (targets : List (String × Agg)) :
    ∀ (ts : List (String × Agg)) (f : String → List Value),
      ts.foldl (rowStep r) (targets.map fun p => (p.1, f p.1)) =
      targets.map (fun p => (p.1, ts.foldl (fun acc q =>
        if q.1 = p.1 then acc ++ (List.lookup q.1 r).toList else acc) (f p.1))) := by
  intro ts
  induction ts with
  | nil => intro f; simp
  | cons q ts ih =>
    intro f
    rw [List.foldl_cons]
    by_cases hs : (List.lookup q.1 r).isSome
    · obtain ⟨v, hq⟩ := Option.isSome_iff_exists.mp hs
      rw [rowStep_some hq, addVal_map,
        ih (fun x => if x = q.1 then f x ++ [v] else f x)]
      apply List.map_congr_left
      intro p _
      rw [List.foldl_cons, hq]
      congr 1
      by_cases hp : p.1 = q.1
      · simp [hp]
      · rw [if_neg hp, if_neg (fun h => hp h.symm)]
    · have hq : List.lookup q.1 r = none := Option.not_isSome_iff_eq_none.mp hs
      rw [rowStep_none hq, ih f]
      apply List.map_congr_left
      intro p _
      rw [List.foldl_cons, hq]
      congr 1
      split <;> simp

/-- A key absent from the sublist accumulates nothing. -/
theorem contribFold_not_mem (r : Record) (t : String) :
    ∀ (ts : List (String × Agg)) (init : List Value), t ∉ ts.map Prod.fst →
      ts.foldl (fun acc q =>
        if q.1 = t then acc ++ (List.lookup q.1 r).toList else acc) init = init := by
  intro ts
  induction ts with
  | nil => intro init _; rfl
  | cons q ts ih =>
    intro init hmem
    simp only [List.map_cons, List.mem_cons, not_or] at hmem
    rw [List.foldl_cons, if_neg (fun h => hmem.1 h.symm)]
    exact ih init hmem.2

/-- A key occurring once accumulates exactly its record value. -/
theorem contribFold_nodup (r : Record) (t : String) :
    ∀ (ts : List (String × Agg)) (init : List Value),
      (ts.map Prod.fst).Nodup → t ∈ ts.map Prod.fst →
      ts.foldl (fun acc q =>
        if q.1 = t then acc ++ (List.lookup q.1 r).toList else acc) init =
      init ++ (List.lookup t r).toList := by
  intro ts
  induction ts with
  | nil => intro init _ hmem; simp at hmem
  | cons q ts ih =>
    intro init hnd hmem
    simp only [List.map_cons, List.nodup_cons] at hnd
    simp only [List.map_cons, List.mem_cons] at hmem
    rw [List.foldl_cons]
    rcases hmem with rfl | hmem'
    · rw [if_pos rfl]
      exact contribFold_not_mem r q.1 ts _ hnd.1
    · have hqt : ¬ q.1 = t := by
        intro h
        rw [h] at hnd
        exact hnd.1 hmem'
      rw [if_neg hqt]
      exact ih init hnd.2 hmem'

/-- The full per-record row update on a canonical row: every target slot
appends the record's value for that target, when present. -/
theorem rowFold_map (r : Record) (targets : List (String × Agg))
    (hnd : (targets.map Prod.fst).Nodup) (f : String → List Value) :
    targets.foldl (rowStep r) (targets.map fun p => (p.1, f p.1)) =
      targets.map (fun p => (p.1, f p.1 ++ (List.lookup p.1 r).toList)) := by
  rw [rowFoldGen]
  apply List.map_congr_left
  intro p hp
  have hmem : p.1 ∈ targets.map Prod.fst := List.mem_map_of_mem Prod.fst hp
  rw [contribFold_nodup r p.1 targets (f p.1) hnd hmem]

/-- The `grouped_data` fold of one record, looked up group by group. -/
theorem innerFold_glookup (targets : List (String × Agg)) (r : Record)
    (gr : List Value) :
    ∀ (ts : List (String × Agg)) (G : GroupData) (g : List Value),
      glookup g (ts.foldl (recStep targets r gr) G) =
        if gkeyEq gr g = true then
          match glookup g G with
          | some row => some (ts.foldl (rowStep r) row)
          | none =>
            if ts.any (fun p => (List.lookup p.1 r).isSome) then
              some (ts.foldl (rowStep r) (defaultRow targets))
            else none
        else glookup g G := by
  intro ts
  induction ts with
  | nil =>
    intro G g
    simp only [List.foldl_nil, List.any_nil, Bool.false_eq_true, if_false]
    split
    · match glookup g G with
      | some row => rfl
      | none => rfl
    · rfl
  | cons p ts ih =>
    intro G g
    rw [List.foldl_cons]
    by_cases hs : (List.lookup p.1 r).isSome
    · obtain ⟨v, hp⟩ := Option.isSome_iff_exists.mp hs
      rw [recStep_some targets gr hp, ih (addToGroup targets G gr p.1 v) g]
      by_cases h : gkeyEq gr g = true
      · rw [if_pos h, if_pos h, addToGroup_glookup targets G gr p.1 v g, if_pos h]
        match glookup g G with
        | some row =>
          simp only []
          rw [List.foldl_cons, rowStep_some hp]
        | none =>
          simp only [List.any_cons, hp, Option.isSome_some, Bool.true_or, if_true]
          rw [List.foldl_cons, rowStep_some hp]
      · rw [if_neg h, if_neg h, addToGroup_glookup targets G gr p.1 v g, if_neg h]
    · have hp : List.lookup p.1 r = none := Option.not_isSome_iff_eq_none.mp hs
      rw [recStep_none targets gr hp, ih G g]
      by_cases h : gkeyEq gr g = true
      · rw [if_pos h, if_pos h]
        match glookup g G with
        | some row =>
          simp only []
          rw [List.foldl_cons, rowStep_none hp]
        | none =>
          simp only [List.any_cons, hp, Option.isSome_none, Bool.false_or]
          rw [List.foldl_cons, rowStep_none hp]
      · rw [if_neg h, if_neg h]

/-- `recordInto` succeeds exactly by folding the record into every target
slot of its group. -/
theorem recordInto_eq (gks : FieldSel) (targets : List (String × Agg))
    (G : GroupData) (r : Record) (gr : List Value)
    (hg : gkeyOf gks r = some gr) :
    recordInto gks targets G r = some (targets.foldl (recStep targets r gr) G) := by
  simp [recordInto, hg]

theorem gMatches_of_gkeyOf {gks : FieldSel} {r : Record} {gr : List Value}
    (hg : gkeyOf gks r = some gr) (g : List Value) :
    gMatches gks g r = gkeyEq gr g := by
  simp [gMatches, hg]

theorem svals_singleton (gks : FieldSel) (t : String) (g : List Value)
    (r : Record) :
    svals gks t g [r] =
      if gMatches gks g r = true then (List.lookup t r).toList else [] := by
  unfold svals
  cases hm : gMatches gks g r
  · simp [hm]
  · cases hl : List.lookup t r <;> simp [hm, hl, List.filterMap]

theorem activeIn_singleton (gks : FieldSel) (targets : List (String × Agg))
    (g : List Value) (r : Record) :
    activeIn gks targets g [r] = (gMatches gks g r && targetsPresent targets r) := by
  simp [activeIn]

/-- `defaultRow` is a canonical row. -/
theorem defaultRow_eq_map (targets : List (String × Agg)) :
    defaultRow targets = targets.map (fun p => (p.1, ([] : List Value))) := rfl

/-- The grouping loop of `partial_aggregate`, characterised: it succeeds
on records that all carry the group keys, and then holds, for every group
(up to Python key equality), exactly the per-target collected value lists
— with groups carrying no target value absent. -/
theorem buildGroups_char (gks : FieldSel) (targets : List (String × Agg))
    (hnd : (targets.map Prod.fst).Nodup) :
    ∀ (D : List Record), (∀ r ∈ D, (gkeyOf gks r).isSome) →
      ∃ G, buildGroups gks targets D = some G ∧
        ∀ g, glookup g G =
          if activeIn gks targets g D = true then
            some (targets.map (fun p => (p.1, svals gks p.1 g D)))
          else none := by
  intro D
  induction D using List.reverseRecOn with
  | nil =>
    intro _
    refine ⟨[], rfl, ?_⟩
    intro g
    simp [glookup_nil, activeIn]
  | append_singleton D r ih =>
    intro hkeys
    obtain ⟨G, hG, hchar⟩ := ih (fun r' hr' => hkeys r' (by simp [hr']))
    obtain ⟨gr, hg⟩ := Option.isSome_iff_exists.mp (hkeys r (by simp))
    have hbuild : buildGroups gks targets (D ++ [r]) =
        some (targets.foldl (recStep targets r gr) G) := by
      unfold buildGroups at hG ⊢
      rw [List.foldlM_append, hG]
      simp only [Option.bind_eq_bind, Option.some_bind, List.foldlM_cons,
        List.foldlM_nil]
      rw [recordInto_eq gks targets G r gr hg]
      rfl
    refine ⟨_, hbuild, ?_⟩
    intro g
    rw [innerFold_glookup targets r gr targets G g]
    have hact : activeIn gks targets g (D ++ [r]) =
        (activeIn gks targets g D ||
          (gMatches gks g r && targetsPresent targets r)) := by
      rw [activeIn_append, activeIn_singleton]
    have hsv : ∀ t, svals gks t g (D ++ [r]) =
        svals gks t g D ++
          (if gMatches gks g r = true then (List.lookup t r).toList else []) := by
      intro t
      rw [svals_append, svals_singleton]
    by_cases hgr : gkeyEq gr g = true
    · rw [if_pos hgr]
      have hm : gMatches gks g r = true := by
        rw [gMatches_of_gkeyOf hg g]
        exact hgr
      match hlook : glookup g G with
      | some row =>
        simp only []
        have hactD : activeIn gks targets g D = true := by
          by_contra hc
          simp only [Bool.not_eq_true] at hc
          rw [hchar g, hc] at hlook
          simp at hlook
        have hrow : row = targets.map (fun p => (p.1, svals gks p.1 g D)) := by
          have := hchar g
          rw [hlook, hactD, if_pos rfl] at this
          exact (Option.some.injEq _ _).mp this.symm |>.symm
        rw [hrow, rowFold_map r targets hnd (fun t => svals gks t g D)]
        rw [hact, hactD, Bool.true_or, if_pos rfl]
        congr 1
        apply List.map_congr_left
        intro p _
        rw [hsv p.1, hm, if_pos rfl]
      | none =>
        simp only []
        have hactD : activeIn gks targets g D = false := by
          by_contra hc
          simp only [Bool.not_eq_false] at hc
          rw [hchar g, hc] at hlook
          simp at hlook
        by_cases hpres : targetsPresent targets r = true
        · rw [show (targets.any fun p => (List.lookup p.1 r).isSome) =
              targetsPresent targets r from rfl, hpres, if_pos rfl]
          rw [defaultRow_eq_map, rowFold_map r targets hnd (fun _ => [])]
          rw [hact, hactD, hm, hpres, Bool.false_or, Bool.true_and, if_pos rfl]
          congr 1
          apply List.map_congr_left
          intro p hp
          rw [hsv p.1, hm, if_pos rfl,
            svals_eq_nil_of_inactive hactD (List.mem_map_of_mem Prod.fst hp)]
        · simp only [Bool.not_eq_true] at hpres
          rw [show (targets.any fun p => (List.lookup p.1 r).isSome) =
              targetsPresent targets r from rfl, hpres]
          rw [hact, hactD, hm, hpres]
          simp
    · rw [if_neg hgr]
      have hm : gMatches gks g r = false := by
        rw [gMatches_of_gkeyOf hg g]
        cases hc : gkeyEq gr g with
        | false => rfl
        | true => exact absurd hc hgr
      rw [hchar g, hact, hm, Bool.false_and, Bool.or_false]
      by_cases hactD : activeIn gks targets g D = true
      · rw [if_pos hactD, if_pos hactD]
        congr 1
        apply List.map_congr_left
        intro p _
        rw [hsv p.1, hm]
        simp
      · simp only [Bool.not_eq_true] at hactD
        rw [hactD]
        simp

/-- A successful grouping pass means every record carried the group keys. -/
theorem foldlM_recordInto_keys (gks : FieldSel) (targets : List (String × Agg)) :
    ∀ (D : List Record) (G₀ G : GroupData),
      D.foldlM (recordInto gks targets) G₀ = some G →
      ∀ r ∈ D, (gkeyOf gks r).isSome := by
  intro D
  induction D with
  | nil => intro G₀ G _ r hr; cases hr
  | cons r₀ D' ih =>
    intro G₀ G h r hr
    rw [List.foldlM_cons] at h
    match hrec : recordInto gks targets G₀ r₀ with
    | none => rw [hrec] at h; simp at h
    | some G₁ =>
      rw [hrec] at h
      simp only [Option.bind_eq_bind, Option.some_bind] at h
      rcases List.mem_cons.mp hr with rfl | hr'
      · unfold recordInto at hrec
        match hk : gkeyOf gks r with
        | some _ => simp
        | none => rw [hk] at hrec; simp at hrec
      · exact ih G₁ G h r hr'

/-- `pvRows` looked up group by group. -/
theorem pvRows_glookup (targets : List (String × Agg)) :
    ∀ (G : GroupData) (P : List (List Value × List (String × PartialVal))),
      pvRows targets G = some P →
      ∀ g, glookup g P = (glookup g G).bind (fun row => pvRow targets row) := by
  intro G
  induction G with
  | nil =>
    intro P h g
    simp only [pvRows, Option.some.injEq] at h
    subst h
    simp [glookup_nil]
  | cons e G' ih =>
    intro P h g
    obtain ⟨g₀, row⟩ := e
    simp only [pvRows, Option.bind_eq_bind] at h
    match htvs : pvRow targets row with
    | none => rw [htvs] at h; simp at h
    | some tvs =>
      rw [htvs] at h
      match hout : pvRows targets G' with
      | none => rw [hout] at h; simp at h
      | some out =>
        rw [hout] at h
        simp only [Option.some_bind, Option.pure_def, Option.some.injEq] at h
        subst h
        rw [glookup_cons, glookup_cons]
        by_cases hg : gkeyEq g₀ g = true
        · rw [if_pos hg, if_pos hg]
          simp [htvs]
        · rw [if_neg hg, if_neg hg]
          exact ih out hout g

/-- Every row of a grouping that `pvRows` accepts is itself accepted. -/
theorem pvRows_some_all (targets : List (String × Agg)) :
    ∀ (G : GroupData) (P : List (List Value × List (String × PartialVal))),
      pvRows targets G = some P → ∀ e ∈ G, (pvRow targets e.2).isSome := by
  intro G
  induction G with
  | nil => intro P _ e he; cases he
  | cons e₀ G' ih =>
    intro P h e he
    obtain ⟨g₀, row⟩ := e₀
    simp only [pvRows, Option.bind_eq_bind] at h
    match htvs : pvRow targets row with
    | none => rw [htvs] at h; simp at h
    | some tvs =>
      rw [htvs] at h
      match hout : pvRows targets G' with
      | none => rw [hout] at h; simp at h
      | some out =>
        rcases List.mem_cons.mp he with rfl | he'
        · simp [htvs]
        · exact ih out hout e he'

/-- A found entry is an entry. -/
theorem glookup_mem {α : Type} {g : List Value} {G : List (List Value × α)}
    {x : α} (h : glookup g G = some x) : ∃ g₀, (g₀, x) ∈ G := by
  unfold glookup at h
  match hf : G.find? (fun e => gkeyEq e.1 g) with
  | none => rw [hf] at h; simp at h
  | some e =>
    rw [hf] at h
    simp only [Option.map_some', Option.some.injEq] at h
    subst h
    exact ⟨e.1, by simpa using List.mem_of_find?_eq_some hf⟩

/-- With distinct keys, an association-list entry finds itself. -/
theorem lookup_self_of_nodup {α : Type} :
    ∀ {L : List (String × α)}, (L.map Prod.fst).Nodup →
      ∀ {p : String × α}, p ∈ L → List.lookup p.1 L = some p.2 := by
  intro L
  induction L with
  | nil => intro _ p hp; cases hp
  | cons q L' ih =>
    intro hnd p hp
    simp only [List.map_cons, List.nodup_cons] at hnd
    rcases List.mem_cons.mp hp with rfl | hp'
    · simp [List.lookup]
    · have hbeq : (p.1 == q.1) = false := by
        simp only [beq_eq_false_iff_ne, ne_eq]
        intro h
        exact hnd.1 (h ▸ List.mem_map_of_mem Prod.fst hp')
      simp only [List.lookup, hbeq]
      exact ih hnd.2 hp'

/-- A successful bind has a successful first component. -/
theorem isSome_of_bind {α β : Type} {x : Option α} {f : α → Option β}
    (h : (x.bind f).isSome) : x.isSome := by
  cases x <;> simp_all

/-- `pvRow` on a canonical row with distinct keys whose per-target
aggregations all succeed. -/
theorem pvRow_map (targets : List (String × Agg)) (f : String → List Value) :
    ∀ (ts : List (String × Agg)),
      (∀ p ∈ ts, List.lookup p.1 targets = some p.2) →
      (∀ p ∈ ts, (pvalOf p.2 (f p.1)).isSome) →
      pvRow targets (ts.map fun p => (p.1, f p.1)) =
        some (ts.map (fun p =>
          (p.1, (pvalOf p.2 (f p.1)).getD (PartialVal.pcount 0)))) := by
  intro ts
  induction ts with
  | nil => intro _ _; rfl
  | cons q ts ih =>
    intro hlk hsucc
    obtain ⟨pv, hpv⟩ :=
      Option.isSome_iff_exists.mp (hsucc q (List.mem_cons_self q ts))
    have hrest := ih (fun p hp => hlk p (List.mem_cons_of_mem q hp))
      (fun p hp => hsucc p (List.mem_cons_of_mem q hp))
    unfold pvRow at hrest ⊢
    rw [List.map_cons, ← List.mapM'_eq_mapM, List.mapM', List.mapM'_eq_mapM,
      hrest]
    simp [hlk q (List.mem_cons_self q ts), hpv]

/-- Conversely, an accepted canonical row has all its per-target
aggregations succeed. -/
theorem pvRow_map_succ (targets : List (String × Agg)) (f : String → List Value) :
    ∀ (ts : List (String × Agg)),
      (∀ p ∈ ts, List.lookup p.1 targets = some p.2) →
      (pvRow targets (ts.map fun p => (p.1, f p.1))).isSome →
      ∀ p ∈ ts, (pvalOf p.2 (f p.1)).isSome := by
  intro ts
  induction ts with
  | nil => intro _ _ p hp; cases hp
  | cons q ts ih =>
    intro hlk hsome p hp
    unfold pvRow at hsome
    rw [List.map_cons, ← List.mapM'_eq_mapM, List.mapM',
      List.mapM'_eq_mapM] at hsome
    simp only [hlk q (List.mem_cons_self q ts), Option.bind_eq_bind,
      Option.some_bind] at hsome
    match hpv : pvalOf q.2 (f q.1) with
    | none => rw [hpv] at hsome; simp at hsome
    | some pv =>
      rw [hpv] at hsome
      simp only [Option.some_bind] at hsome
      rcases List.mem_cons.mp hp with rfl | hp'
      · simp [hpv]
      · refine ih (fun p' hp2 => hlk p' (List.mem_cons_of_mem q hp2)) ?_ p hp'
        simp only [Option.pure_def, Option.some_bind] at hsome
        exact isSome_of_bind hsome

/-- `partial_aggregate`, characterised: when it succeeds it holds, for
every group, the per-target partial values computed from that group's
collected value lists — and all those per-target computations succeed. -/
theorem partialAggregate_char (gks : FieldSel) (targets : List (String × Agg))
    (hnd : (targets.map Prod.fst).Nodup) (D : List Record)
    (hsome : (partialAggregate D gks targets).isSome) :
    ∃ P, partialAggregate D gks targets = some P ∧
      (∀ g, activeIn gks targets g D = true →
        ∀ p ∈ targets, (pvalOf p.2 (svals gks p.1 g D)).isSome) ∧
      (∀ g, glookup g P =
        if activeIn gks targets g D = true then
          some (targets.map (fun p => (p.1,
            (pvalOf p.2 (svals gks p.1 g D)).getD (PartialVal.pcount 0))))
        else none) := by
  unfold partialAggregate at hsome ⊢
  match hG : buildGroups gks targets D with
  | none => rw [hG] at hsome; simp at hsome
  | some G =>
    rw [hG] at hsome
    simp only [Option.bind_eq_bind, Option.some_bind] at hsome ⊢
    match hP : pvRows targets G with
    | none => rw [hP] at hsome; simp at hsome
    | some P =>
      have hkeys : ∀ r ∈ D, (gkeyOf gks r).isSome :=
        foldlM_recordInto_keys gks targets D [] G hG
      obtain ⟨G', hG', hchar⟩ := buildGroups_char gks targets hnd D hkeys
      have hGG : G' = G := by
        rw [hG] at hG'
        exact ((Option.some.injEq _ _).mp hG').symm
      subst hGG
      have hlkself : ∀ p ∈ targets, List.lookup p.1 targets = some p.2 :=
        fun p hp => lookup_self_of_nodup hnd hp
      have hsucc : ∀ g, activeIn gks targets g D = true →
          ∀ p ∈ targets, (pvalOf p.2 (svals gks p.1 g D)).isSome := by
        intro g hact p hp
        have hlk := hchar g
        rw [hact, if_pos rfl] at hlk
        obtain ⟨g₀, hmem⟩ := glookup_mem hlk
        have hrow := pvRows_some_all targets G' P hP (g₀,
          targets.map (fun p => (p.1, svals gks p.1 g D))) hmem
        exact pvRow_map_succ targets (fun t => svals gks t g D) targets
          hlkself hrow p hp
      refine ⟨P, rfl, hsucc, ?_⟩
      intro g
      rw [pvRows_glookup targets G' P hP g, hchar g]
      by_cases hact : activeIn gks targets g D = true
      · rw [if_pos hact, if_pos hact]
        simp only [Option.some_bind]
        exact pvRow_map targets (fun t => svals gks t g D) targets hlkself
          (hsucc g hact)
      · rw [if_neg hact, if_neg hact]
        rfl

/-- `updateFAcc` applied to the partial value of a collected list: always
succeeds and lands on the closed-form `faccStep`. -/
theorem updateFAcc_of_pvalOf {a : Agg} {vals : List Value} {pv : PartialVal}
    (h : pvalOf a vals = some pv) (acc : FAcc) :
    updateFAcc a acc pv = some (faccStep a acc vals) := by
  cases a with
  | sum =>
    simp only [pvalOf, Option.some.injEq] at h
    subst h
    rfl
  | count =>
    simp only [pvalOf, Option.some.injEq] at h
    subst h
    rfl
  | avg =>
    simp only [pvalOf, Option.some.injEq] at h
    subst h
    rfl
  | max =>
    simp only [pvalOf, Option.map_eq_some'] at h
    obtain ⟨m, hm, rfl⟩ := h
    simp [updateFAcc, faccStep, hm]
  | min =>
    simp only [pvalOf, Option.map_eq_some'] at h
    obtain ⟨m, hm, rfl⟩ := h
    simp [updateFAcc, faccStep, hm]

/-- Generic form of `glookup_map_upd`: an in-place update of the entries
whose key is `g₀`. -/
theorem glookup_map_upd_gen {α : Type} (u : α → α) (g₀ : List Value) :
    ∀ (G : List (List Value × α)) (g : List Value),
      glookup g (G.map (fun e =>
        if gkeyEq e.1 g₀ = true then (e.1, u e.2) else e)) =
      if gkeyEq g₀ g = true then (glookup g G).map u else glookup g G := by
  intro G
  induction G with
  | nil =>
    intro g
    simp only [List.map_nil, glookup_nil, Option.map_none']
    split <;> rfl
  | cons e G' ih =>
    intro g
    obtain ⟨ge, x⟩ := e
    by_cases hgg : gkeyEq ge g = true
    · by_cases hg₀ : gkeyEq g₀ g = true
      · have hc : gkeyEq ge g₀ = true := by
          have := gkeyEq_congr (gkeyEq_symm hg₀) ge
          rw [this] at hgg
          exact hgg
        simp only [List.map_cons, hc, if_true]
        rw [glookup_cons, glookup_cons, if_pos hgg, if_pos hg₀, if_pos hgg]
        simp
      · have hc : gkeyEq ge g₀ = false := by
          cases hcc : gkeyEq ge g₀ with
          | false => rfl
          | true =>
            exfalso
            have := gkeyEq_trans (gkeyEq_symm hcc) hgg
            rw [this] at hg₀
            exact hg₀ rfl
        simp only [List.map_cons, hc, Bool.false_eq_true, if_false]
        rw [glookup_cons, glookup_cons, if_pos hgg, if_pos hgg, if_neg hg₀]
    · have hhead : glookup g ((if gkeyEq ge g₀ = true then (ge, u x)
          else (ge, x)) :: G'.map (fun e =>
            if gkeyEq e.1 g₀ = true then (e.1, u e.2) else e)) =
          glookup g (G'.map (fun e =>
            if gkeyEq e.1 g₀ = true then (e.1, u e.2) else e)) := by
        split
        · rw [glookup_cons, if_neg hgg]
        · rw [glookup_cons, if_neg hgg]
      simp only [List.map_cons]
      rw [hhead, ih g, glookup_cons, if_neg hgg]

/-- The monadic single-slot row update of the final phase: total under a
succeeding `updateFAcc`, and equal to the pointwise update. -/
theorem rowUpdF_mapM (t : String) (a : Agg) (pv : PartialVal)
    (hupd : ∀ acc, (updateFAcc a acc pv).isSome) :
    ∀ (row : List (String × FAcc)),
      row.mapM (fun p =>
        if p.1 = t then (updateFAcc a p.2 pv).map (fun acc => (p.1, acc))
        else some p) =
      some (row.map (fun p =>
        if p.1 = t then (p.1, (updateFAcc a p.2 pv).getD p.2) else p)) := by
  intro row
  induction row with
  | nil => rfl
  | cons p row' ih =>
    rw [List.map_cons, ← List.mapM'_eq_mapM, List.mapM', List.mapM'_eq_mapM, ih]
    by_cases hp : p.1 = t
    · obtain ⟨acc, hacc⟩ := Option.isSome_iff_exists.mp (hupd p.2)
      simp [hp, hacc]
    · simp [hp]

/-- The final-phase whole-state update (the existing-group branch of
`faccInto`): total, and equal to the pointwise update of the matching
groups. -/
theorem faccMapM_F (g : List Value) (t : String) (a : Agg) (pv : PartialVal)
    (hupd : ∀ acc, (updateFAcc a acc pv).isSome) :
    ∀ (F : FinalAcc),
      F.mapM (fun e =>
        if gkeyEq e.1 g then
          (e.2.mapM (fun p =>
            if p.1 = t then (updateFAcc a p.2 pv).map (fun acc => (p.1, acc))
            else some p)).map (fun row => (e.1, row))
        else some e) =
      some (F.map (fun e =>
        if gkeyEq e.1 g = true then
          (e.1, e.2.map (fun p =>
            if p.1 = t then (p.1, (updateFAcc a p.2 pv).getD p.2) else p))
        else e)) := by
  intro F
  induction F with
  | nil => rfl
  | cons e F' ih =>
    rw [List.map_cons, ← List.mapM'_eq_mapM, List.mapM', List.mapM'_eq_mapM, ih]
    by_cases he : gkeyEq e.1 g = true
    · simp only [he, if_true]
      rw [rowUpdF_mapM t a pv hupd e.2]
      simp [he]
    · simp [he]

/-- `faccInto` computed: update the matching groups in place, or append a
freshly updated default row. -/
theorem faccInto_eq (targets : List (String × Agg)) (F : FinalAcc)
    (g : List Value) (t : String) (pv : PartialVal) (a : Agg)
    (ha : List.lookup t targets = some a)
    (hupd : ∀ acc, (updateFAcc a acc pv).isSome) :
    faccInto targets F g t pv = some (
      if F.any (fun e => gkeyEq e.1 g) = true then
        F.map (fun e =>
          if gkeyEq e.1 g = true then
            (e.1, e.2.map (fun p =>
              if p.1 = t then (p.1, (updateFAcc a p.2 pv).getD p.2) else p))
          else e)
      else F ++ [(g, (defaultFRow targets).map (fun p =>
        if p.1 = t then (p.1, (updateFAcc a p.2 pv).getD p.2) else p))]) := by
  unfold faccInto
  rw [ha]
  simp only [Option.bind_eq_bind, Option.some_bind]
  by_cases hex : F.any (fun e => gkeyEq e.1 g) = true
  · rw [if_pos hex, if_pos hex, faccMapM_F g t a pv hupd F]
  · rw [if_neg hex, if_neg hex, rowUpdF_mapM t a pv hupd (defaultFRow targets)]
    rfl

/-- The effect of `faccInto` on every group lookup. -/
theorem faccInto_glookup (targets : List (String × Agg)) (F : FinalAcc)
    (g : List Value) (t : String) (pv : PartialVal) (a : Agg)
    (_ha : List.lookup t targets = some a)
    (_hupd : ∀ acc, (updateFAcc a acc pv).isSome) (g' : List Value) :
    glookup g' (if F.any (fun e => gkeyEq e.1 g) = true then
        F.map (fun e =>
          if gkeyEq e.1 g = true then
            (e.1, e.2.map (fun p =>
              if p.1 = t then (p.1, (updateFAcc a p.2 pv).getD p.2) else p))
          else e)
      else F ++ [(g, (defaultFRow targets).map (fun p =>
        if p.1 = t then (p.1, (updateFAcc a p.2 pv).getD p.2) else p))]) =
      if gkeyEq g g' = true then
        match glookup g' F with
        | some row => some (row.map (fun p =>
            if p.1 = t then (p.1, (updateFAcc a p.2 pv).getD p.2) else p))
        | none => some ((defaultFRow targets).map (fun p =>
            if p.1 = t then (p.1, (updateFAcc a p.2 pv).getD p.2) else p))
      else glookup g' F := by
  by_cases hex : F.any (fun e => gkeyEq e.1 g) = true
  · rw [if_pos hex,
      glookup_map_upd_gen (fun row => row.map (fun p =>
        if p.1 = t then (p.1, (updateFAcc a p.2 pv).getD p.2) else p)) g F g']
    by_cases hg₀ : gkeyEq g g' = true
    · rw [if_pos hg₀, if_pos hg₀]
      match hl : glookup g' F with
      | some row => simp
      | none =>
        exfalso
        obtain ⟨e, he, hek⟩ := List.any_eq_true.mp hex
        have h1 := (glookup_eq_none_iff g' F).mp hl e he
        rw [gkeyEq_congr hg₀ e.1] at hek
        rw [hek] at h1
        cases h1
    · rw [if_neg hg₀, if_neg hg₀]
  · rw [if_neg hex, glookup_append]
    by_cases hg₀ : gkeyEq g g' = true
    · have hl : glookup g' F = none := by
        rw [glookup_eq_none_iff]
        intro e he
        cases hc : gkeyEq e.1 g' with
        | false => rfl
        | true =>
          exfalso
          have hcg : gkeyEq e.1 g = true := by
            rw [gkeyEq_congr (gkeyEq_symm hg₀) e.1] at hc
            exact hc
          exact hex (List.any_eq_true.mpr ⟨e, he, by simp [hcg]⟩)
      rw [hl, if_pos hg₀]
      rw [glookup_cons, if_pos hg₀]
    · rw [if_neg hg₀]
      match hl : glookup g' F with
      | some row => rfl
      | none => rw [glookup_cons, if_neg hg₀, glookup_nil]

/-- Folding the target pairs of one partial row into `final_result`,
looked up group by group: the row's group accumulates every target's
partial value (created from the all-default row if new); other groups are
untouched. -/
theorem tvsFoldF_glookup (targets : List (String × Agg)) (grow : List Value)
    (pvf : String × Agg → PartialVal) :
    ∀ (ts : List (String × Agg)),
      (∀ p ∈ ts, List.lookup p.1 targets = some p.2) →
      (∀ p ∈ ts, ∀ acc, (updateFAcc p.2 acc (pvf p)).isSome) →
      ∀ (F : FinalAcc),
        ∃ F', (ts.map (fun p => (p.1, pvf p))).foldlM
            (fun F q => faccInto targets F grow q.1 q.2) F = some F' ∧
          ∀ g', glookup g' F' =
            if gkeyEq grow g' = true then
              match glookup g' F with
              | some row => some (ts.foldl (fun row p => row.map (fun q =>
                  if q.1 = p.1 then (q.1, (updateFAcc p.2 q.2 (pvf p)).getD q.2)
                  else q)) row)
              | none =>
                if ts.isEmpty then none
                else some (ts.foldl (fun row p => row.map (fun q =>
                  if q.1 = p.1 then (q.1, (updateFAcc p.2 q.2 (pvf p)).getD q.2)
                  else q)) (defaultFRow targets))
            else glookup g' F := by
  intro ts
  induction ts with
  | nil =>
    intro _ _ F
    refine ⟨F, rfl, ?_⟩
    intro g'
    by_cases h : gkeyEq grow g' = true
    · rw [if_pos h]
      match glookup g' F with
      | some row => rfl
      | none => rfl
    · rw [if_neg h]
  | cons p ts ih =>
    intro hlk hupd F
    have ha := hlk p (List.mem_cons_self p ts)
    have hu := hupd p (List.mem_cons_self p ts)
    obtain ⟨F', hF', hchar⟩ := ih
      (fun q hq => hlk q (List.mem_cons_of_mem p hq))
      (fun q hq => hupd q (List.mem_cons_of_mem p hq))
      (if F.any (fun e => gkeyEq e.1 grow) = true then
        F.map (fun e =>
          if gkeyEq e.1 grow = true then
            (e.1, e.2.map (fun q =>
              if q.1 = p.1 then (q.1, (updateFAcc p.2 q.2 (pvf p)).getD q.2) else q))
          else e)
      else F ++ [(grow, (defaultFRow targets).map (fun q =>
        if q.1 = p.1 then (q.1, (updateFAcc p.2 q.2 (pvf p)).getD q.2) else q))])
    refine ⟨F', ?_, ?_⟩
    · rw [List.map_cons, List.foldlM_cons,
        faccInto_eq targets F grow p.1 (pvf p) p.2 ha hu]
      simpa using hF'
    · intro g'
      rw [hchar g', faccInto_glookup targets F grow p.1 (pvf p) p.2 ha hu g']
      by_cases h : gkeyEq grow g' = true
      · rw [if_pos h, if_pos h, if_pos h]
        match glookup g' F with
        | some row =>
          simp only []
          rw [List.foldl_cons]
        | none =>
          simp only [List.isEmpty_cons, Bool.false_eq_true, if_false]
          rw [List.foldl_cons]
      · rw [if_neg h, if_neg h, if_neg h]

theorem gkeyEq_false_symm {a b : List Value} (h : gkeyEq a b = false) :
    gkeyEq b a = false := by
  cases hc : gkeyEq b a with
  | false => rfl
  | true => rw [gkeyEq_symm hc] at h; cases h

/-- In an accumulator whose group keys are pairwise non-equivalent, the
lookup at a member's own key returns that member's payload. -/
theorem glookup_self_of_uniq {α : Type} :
    ∀ {F : List (List Value × α)},
      F.Pairwise (fun e f => gkeyEq e.1 f.1 = false) →
      ∀ {g₀ : List Value} {x : α}, (g₀, x) ∈ F → glookup g₀ F = some x := by
  intro F
  induction F with
  | nil => intro _ g₀ x hm; cases hm
  | cons e F ih =>
    intro huniq g₀ x hm
    rw [List.pairwise_cons] at huniq
    rcases List.mem_cons.mp hm with h | h
    · subst h
      rw [glookup_cons, if_pos (gkeyEq_refl g₀)]
    · obtain ⟨ge, y⟩ := e
      have hf : gkeyEq ge g₀ = false := huniq.1 (g₀, x) h
      rw [glookup_cons]
      simp only [hf, Bool.false_eq_true, if_false]
      exact ih huniq.2 h

/-- `addToGroup` keeps the group keys pairwise non-equivalent: updating in
place changes no key, and a key is appended only when no equivalent key is
present. -/
theorem addToGroup_uniq (targets : List (String × Agg)) (G : GroupData)
    (g : List Value) (t : String) (v : Value)
    (h : G.Pairwise (fun e f => gkeyEq e.1 f.1 = false)) :
    (addToGroup targets G g t v).Pairwise
      (fun e f => gkeyEq e.1 f.1 = false) := by
  unfold addToGroup
  by_cases hex : G.any (fun e => gkeyEq e.1 g) = true
  · rw [if_pos hex]
    refine List.Pairwise.map _ ?_ h
    intro a b hab
    by_cases ha : gkeyEq a.1 g = true <;> by_cases hb : gkeyEq b.1 g = true <;>
      simp [ha, hb, hab]
  · rw [if_neg hex]
    rw [List.pairwise_append]
    refine ⟨h, List.pairwise_singleton _ _, ?_⟩
    intro a haG b hb
    simp only [List.mem_singleton] at hb
    subst hb
    simp only [Bool.not_eq_true] at hex
    rw [List.any_eq_false] at hex
    have := hex a haG
    simpa using this

/-- The per-record grouping fold keeps the group keys pairwise
non-equivalent. -/
theorem recStepFold_uniq (targets : List (String × Agg)) (r : Record)
    (g : List Value) :
    ∀ (ts : List (String × Agg)) (G : GroupData),
      G.Pairwise (fun e f => gkeyEq e.1 f.1 = false) →
      (ts.foldl (recStep targets r g) G).Pairwise
        (fun e f => gkeyEq e.1 f.1 = false) := by
  intro ts
  induction ts with
  | nil => intro G h; exact h
  | cons p ts ih =>
    intro G h
    rw [List.foldl_cons]
    refine ih _ ?_
    unfold recStep
    match List.lookup p.1 r with
    | some v => exact addToGroup_uniq targets G g p.1 v h
    | none => exact h

/-- The grouping loop of `partial_aggregate` produces pairwise
non-equivalent group keys (`grouped_data` is a Python dict). -/
theorem buildGroups_uniq (gks : FieldSel) (targets : List (String × Agg)) :
    ∀ (D : List Record) (G₀ G : GroupData),
      G₀.Pairwise (fun e f => gkeyEq e.1 f.1 = false) →
      D.foldlM (recordInto gks targets) G₀ = some G →
      G.Pairwise (fun e f => gkeyEq e.1 f.1 = false) := by
  intro D
  induction D with
  | nil =>
    intro G₀ G h hG
    simp only [List.foldlM_nil] at hG
    cases hG
    exact h
  | cons r D ih =>
    intro G₀ G h hG
    rw [List.foldlM_cons] at hG
    match hri : recordInto gks targets G₀ r with
    | none => rw [hri] at hG; cases hG
    | some G₁ =>
      rw [hri] at hG
      simp only [Option.bind_eq_bind, Option.some_bind] at hG
      refine ih G₁ G ?_ hG
      unfold recordInto at hri
      match hg : gkeyOf gks r with
      | none => rw [hg] at hri; cases hri
      | some gr =>
        rw [hg] at hri
        simp only [Option.bind_eq_bind, Option.some_bind, Option.pure_def,
          Option.some.injEq] at hri
        subst hri
        exact recStepFold_uniq targets r gr targets G₀ h

/-- `pvRows` keeps the group keys, in order. -/
theorem pvRows_keys (targets : List (String × Agg)) :
    ∀ (G : GroupData) (P : List (List Value × List (String × PartialVal))),
      pvRows targets G = some P → P.map Prod.fst = G.map Prod.fst := by
  intro G
  induction G with
  | nil =>
    intro P h
    simp only [pvRows, Option.some.injEq] at h
    subst h
    rfl
  | cons e rest ih =>
    intro P h
    obtain ⟨g, row⟩ := e
    simp only [pvRows, Option.bind_eq_bind] at h
    match htv : pvRow targets row with
    | none => rw [htv] at h; cases h
    | some tvs =>
      rw [htv] at h
      simp only [Option.some_bind] at h
      match hrest : pvRows targets rest with
      | none => rw [hrest] at h; cases h
      | some out =>
        rw [hrest] at h
        simp only [Option.some_bind, Option.pure_def, Option.some.injEq] at h
        subst h
        simp only [List.map_cons]
        rw [ih out hrest]

/-- Pairwise distinctness of group keys transfers along equality of the
key lists. -/
theorem uniqKeys_transfer {α β : Type} {L : List (List Value × α)}
    {M : List (List Value × β)} (hk : M.map Prod.fst = L.map Prod.fst)
    (h : L.Pairwise (fun e f => gkeyEq e.1 f.1 = false)) :
    M.Pairwise (fun e f => gkeyEq e.1 f.1 = false) := by
  have h1 : (L.map Prod.fst).Pairwise (fun a b => gkeyEq a b = false) :=
    List.pairwise_map.mpr h
  rw [← hk] at h1
  exact List.pairwise_map.mp h1

/-- The per-target accumulator update fold on a canonical row keeps the
canonical shape, accumulating slot by slot. -/
theorem updFoldGen (pvf2 : String × Agg → PartialVal)
    (targets : List (String × Agg)) :
    ∀ (ts : List (String × Agg)) (f : String × Agg → FAcc),
      ts.foldl (fun row p => row.map (fun q =>
          if q.1 = p.1 then (q.1, (updateFAcc p.2 q.2 (pvf2 p)).getD q.2)
          else q))
        (targets.map fun p => (p.1, f p)) =
      targets.map (fun p => (p.1, ts.foldl (fun acc q =>
        if p.1 = q.1 then (updateFAcc q.2 acc (pvf2 q)).getD acc else acc)
        (f p))) := by
  intro ts
  induction ts with
  | nil => intro f; simp
  | cons q ts ih =>
    intro f
    rw [List.foldl_cons]
    have hrow : (targets.map fun p => (p.1, f p)).map (fun e =>
        if e.1 = q.1 then (e.1, (updateFAcc q.2 e.2 (pvf2 q)).getD e.2)
        else e) =
      targets.map (fun p => (p.1,
        if p.1 = q.1 then (updateFAcc q.2 (f p) (pvf2 q)).getD (f p)
        else f p)) := by
      rw [List.map_map]
      apply List.map_congr_left
      intro p _
      by_cases hp : p.1 = q.1 <;> simp [Function.comp, hp]
    rw [hrow, ih (fun p =>
      if p.1 = q.1 then (updateFAcc q.2 (f p) (pvf2 q)).getD (f p) else f p)]
    apply List.map_congr_left
    intro p _
    rw [List.foldl_cons]

/-- A slot whose key is absent from the sublist is never updated. -/
theorem updContribFold_not_mem (pvf2 : String × Agg → PartialVal)
    (t : String) :
    ∀ (ts : List (String × Agg)) (init : FAcc), t ∉ ts.map Prod.fst →
      ts.foldl (fun acc q =>
        if t = q.1 then (updateFAcc q.2 acc (pvf2 q)).getD acc else acc)
        init = init := by
  intro ts
  induction ts with
  | nil => intro init _; rfl
  | cons q ts ih =>
    intro init hmem
    simp only [List.map_cons, List.mem_cons, not_or] at hmem
    rw [List.foldl_cons, if_neg hmem.1]
    exact ih init hmem.2

/-- With distinct target keys, a slot is updated exactly once, by its own
target. -/
theorem updContribFold_nodup (pvf2 : String × Agg → PartialVal) :
    ∀ (ts : List (String × Agg)) (init : FAcc) (p : String × Agg),
      (ts.map Prod.fst).Nodup → p ∈ ts →
      ts.foldl (fun acc q =>
        if p.1 = q.1 then (updateFAcc q.2 acc (pvf2 q)).getD acc else acc)
        init =
      (updateFAcc p.2 init (pvf2 p)).getD init := by
  intro ts
  induction ts with
  | nil => intro init p _ hmem; cases hmem
  | cons q ts ih =>
    intro init p hnd hmem
    simp only [List.map_cons, List.nodup_cons] at hnd
    rw [List.foldl_cons]
    rcases List.mem_cons.mp hmem with rfl | hmem'
    · rw [if_pos rfl]
      exact updContribFold_not_mem pvf2 p.1 ts _ hnd.1
    · have hqt : ¬ p.1 = q.1 := by
        intro h
        rw [← h] at hnd
        exact hnd.1 (List.mem_map_of_mem Prod.fst hmem')
      rw [if_neg hqt]
      exact ih init p hnd.2 hmem'

/-- The full per-partial-row update on a canonical accumulator row: every
target slot folds in its own partial value. -/
theorem rowUpdFold_map (targets : List (String × Agg))
    (hnd : (targets.map Prod.fst).Nodup) (pvf2 : String × Agg → PartialVal)
    (f : String × Agg → FAcc) :
    targets.foldl (fun row p => row.map (fun q =>
        if q.1 = p.1 then (q.1, (updateFAcc p.2 q.2 (pvf2 p)).getD q.2)
        else q))
      (targets.map fun p => (p.1, f p)) =
    targets.map (fun p => (p.1,
      (updateFAcc p.2 (f p) (pvf2 p)).getD (f p))) := by
  rw [updFoldGen]
  apply List.map_congr_left
  intro p hp
  rw [updContribFold_nodup pvf2 targets (f p) p hnd hp]

/-- Folding the rows of one partial result into `final_result`: each of
its groups (they are pairwise distinct) gets every target's partial value
folded in, other groups are untouched. -/
theorem rowsFoldF_glookup (targets : List (String × Agg))
    (pvf : List Value → (String × Agg) → PartialVal)
    (hcong : ∀ g g', gkeyEq g g' = true → ∀ p, pvf g p = pvf g' p)
    (hlk : ∀ p ∈ targets, List.lookup p.1 targets = some p.2) :
    ∀ (P : List (List Value × List (String × PartialVal))),
      (∀ e ∈ P, e.2 = targets.map (fun p => (p.1, pvf e.1 p))) →
      (∀ e ∈ P, ∀ p ∈ targets, ∀ acc,
        (updateFAcc p.2 acc (pvf e.1 p)).isSome) →
      P.Pairwise (fun e f => gkeyEq e.1 f.1 = false) →
      ∀ (F : FinalAcc),
        ∃ F', partialIntoF targets F P = some F' ∧
          ∀ g', glookup g' F' =
            match glookup g' P with
            | some _ =>
              match glookup g' F with
              | some row => some (targets.foldl (fun row p => row.map (fun q =>
                  if q.1 = p.1 then
                    (q.1, (updateFAcc p.2 q.2 (pvf g' p)).getD q.2)
                  else q)) row)
              | none =>
                if targets.isEmpty then none
                else some (targets.foldl (fun row p => row.map (fun q =>
                  if q.1 = p.1 then
                    (q.1, (updateFAcc p.2 q.2 (pvf g' p)).getD q.2)
                  else q)) (defaultFRow targets))
            | none => glookup g' F := by
  intro P
  induction P with
  | nil =>
    intro _ _ _ F
    refine ⟨F, rfl, ?_⟩
    intro g'
    rw [glookup_nil]
  | cons e P ih =>
    intro hrow hupd huniq F
    rw [List.pairwise_cons] at huniq
    have he2 := hrow e (List.mem_cons_self e P)
    obtain ⟨F₁, hF₁, hchar₁⟩ := tvsFoldF_glookup targets e.1 (pvf e.1)
      targets hlk (fun p hp acc => hupd e (List.mem_cons_self e P) p hp acc) F
    obtain ⟨F', hF', hchar⟩ := ih
      (fun f hf => hrow f (List.mem_cons_of_mem e hf))
      (fun f hf => hupd f (List.mem_cons_of_mem e hf))
      huniq.2 F₁
    refine ⟨F', ?_, ?_⟩
    · unfold partialIntoF at hF' ⊢
      rw [List.foldlM_cons]
      conv_lhs => rw [he2]
      rw [hF₁]
      simpa using hF'
    · intro g'
      rw [hchar g']
      obtain ⟨ge, tvs⟩ := e
      by_cases hge : gkeyEq ge g' = true
      · have hPnone : glookup g' P = none := by
          rw [glookup_eq_none_iff]
          intro f hf
          have h1 : gkeyEq ge f.1 = false := huniq.1 f hf
          have h2 : gkeyEq f.1 ge = false := gkeyEq_false_symm h1
          rw [gkeyEq_congr hge f.1] at h2
          exact h2
        rw [hPnone]
        simp only []
        rw [hchar₁ g', if_pos hge, glookup_cons, if_pos hge]
        have hfun : ∀ p, pvf ge p = pvf g' p := hcong ge g' hge
        have hstep : (fun (row : List (String × FAcc)) p => row.map (fun q =>
            if q.1 = p.1 then
              (q.1, (updateFAcc p.2 q.2 (pvf ge p)).getD q.2)
            else q)) =
          (fun (row : List (String × FAcc)) p => row.map (fun q =>
            if q.1 = p.1 then
              (q.1, (updateFAcc p.2 q.2 (pvf g' p)).getD q.2)
            else q)) := by
          funext row p
          rw [hfun p]
        rw [hstep]
      · rw [glookup_cons, if_neg hge]
        have hF₁g : glookup g' F₁ = glookup g' F := by
          rw [hchar₁ g', if_neg hge]
        rw [hF₁g]

theorem mapM_option_concat {α β : Type} (f : α → Option β) :
    ∀ (l : List α) (x : α) (out : List β) (y : β),
      l.mapM f = some out → f x = some y →
      (l ++ [x]).mapM f = some (out ++ [y]) := by
  intro l
  induction l with
  | nil =>
    intro x out y hl hx
    rw [← List.mapM'_eq_mapM] at hl
    simp only [List.mapM', Option.pure_def, Option.some.injEq] at hl
    subst hl
    rw [List.nil_append, ← List.mapM'_eq_mapM]
    simp [List.mapM', hx]
  | cons a l ih =>
    intro x out y hl hx
    rw [← List.mapM'_eq_mapM] at hl
    simp only [List.mapM', Option.bind_eq_bind] at hl
    match ha : f a with
    | none => rw [ha] at hl; cases hl
    | some b =>
      rw [ha] at hl
      simp only [Option.some_bind] at hl
      match hrest : List.mapM' f l with
      | none => rw [hrest] at hl; cases hl
      | some bs =>
        rw [hrest] at hl
        simp only [Option.some_bind, Option.pure_def, Option.some.injEq] at hl
        subst hl
        rw [List.mapM'_eq_mapM] at hrest
        have := ih x bs y hrest hx
        rw [List.cons_append, ← List.mapM'_eq_mapM]
        simp only [List.mapM', ha, Option.bind_eq_bind, Option.some_bind]
        rw [← List.mapM'_eq_mapM] at this
        rw [this]
        rfl

/-- Group activity over concatenated partitions. -/
theorem activeIn_flatten (gks : FieldSel) (targets : List (String × Agg))
    (g : List Value) :
    ∀ (Ds : List (List Record)),
      activeIn gks targets g Ds.flatten =
        Ds.any (fun D => activeIn gks targets g D) := by
  intro Ds
  induction Ds with
  | nil => rfl
  | cons D Ds ih =>
    rw [List.flatten_cons, activeIn_append, ih, List.any_cons]

/-- Collected values over concatenated partitions. -/
theorem svals_flatten (gks : FieldSel) (t : String) (g : List Value) :
    ∀ (Ds : List (List Record)),
      svals gks t g Ds.flatten = (Ds.map (fun D => svals gks t g D)).flatten := by
  intro Ds
  induction Ds with
  | nil => rfl
  | cons D Ds ih =>
    rw [List.flatten_cons, svals_append, ih, List.map_cons, List.flatten_cons]

/-- A guarded fold over elements that all fail the guard is the identity. -/
theorem foldl_if_false {α β : Type} (cond : β → Bool) (step : α → β → α) :
    ∀ (l : List β) (init : α), (∀ b ∈ l, cond b = false) →
      l.foldl (fun a b => if cond b = true then step a b else a) init = init := by
  intro l
  induction l with
  | nil => intro init _; rfl
  | cons b l ih =>
    intro init h
    rw [List.foldl_cons, h b (List.mem_cons_self b l)]
    simp only [Bool.false_eq_true, if_false]
    exact ih init (fun b' hb' => h b' (List.mem_cons_of_mem b hb'))

/-- The group keys of a partial result are pairwise non-equivalent. -/
theorem partialAggregate_uniq (D : List Record) (gks : FieldSel)
    (targets : List (String × Agg))
    {P : List (List Value × List (String × PartialVal))}
    (h : partialAggregate D gks targets = some P) :
    P.Pairwise (fun e f => gkeyEq e.1 f.1 = false) := by
  unfold partialAggregate at h
  match hG : buildGroups gks targets D with
  | none => rw [hG] at h; cases h
  | some G =>
    rw [hG] at h
    simp only [Option.bind_eq_bind, Option.some_bind] at h
    unfold buildGroups at hG
    have hGu : G.Pairwise (fun e f => gkeyEq e.1 f.1 = false) :=
      buildGroups_uniq gks targets D [] G List.Pairwise.nil hG
    exact uniqKeys_transfer (pvRows_keys targets G P h) hGu

/-- The accumulation loop of `final_aggregate` over the per-partition
partial results: when every partition's partial aggregation succeeds,
`final_result` holds, for every group active somewhere, each target's
accumulator folded partition by partition over the group's collected
values. -/
theorem finalFold_char (gks : FieldSel) (targets : List (String × Agg))
    (hnd : (targets.map Prod.fst).Nodup) :
    ∀ (Ds : List (List Record)),
      (∀ D ∈ Ds, (partialAggregate D gks targets).isSome) →
      ∃ ps F, Ds.mapM (fun D => partialAggregate D gks targets) = some ps ∧
        ps.foldlM (partialIntoF targets) [] = some F ∧
        ∀ g', glookup g' F =
          if activeIn gks targets g' Ds.flatten = true then
            some (targets.map (fun p => (p.1,
              Ds.foldl (fun acc D =>
                if activeIn gks targets g' D = true then
                  faccStep p.2 acc (svals gks p.1 g' D)
                else acc) ⟨0, 0, []⟩)))
          else none := by
  intro Ds
  induction Ds using List.reverseRecOn with
  | nil =>
    intro _
    refine ⟨[], [], rfl, rfl, ?_⟩
    intro g'
    simp [glookup_nil, activeIn]
  | append_singleton Ds D ih =>
    intro hok
    obtain ⟨ps, F, hps, hF, hchar⟩ := ih (fun D' hD' => hok D' (by simp [hD']))
    have hsome := hok D (by simp)
    obtain ⟨P, hP, hsucc, hPchar⟩ := partialAggregate_char gks targets hnd D hsome
    have hps' : (Ds ++ [D]).mapM (fun D => partialAggregate D gks targets) =
        some (ps ++ [P]) := mapM_option_concat _ Ds D ps P hps hP
    have hPuniq := partialAggregate_uniq D gks targets hP
    have hlk : ∀ p ∈ targets, List.lookup p.1 targets = some p.2 :=
      fun p hp => lookup_self_of_nodup hnd hp
    have hact_mem : ∀ e ∈ P, activeIn gks targets e.1 D = true := by
      intro e he
      have hself : glookup e.1 P = some e.2 := by
        obtain ⟨g₀, x⟩ := e
        exact glookup_self_of_uniq hPuniq he
      rw [hPchar e.1] at hself
      by_contra hc
      simp only [Bool.not_eq_true] at hc
      rw [hc] at hself
      simp at hself
    have hrow : ∀ e ∈ P, e.2 = targets.map (fun p => (p.1,
        (pvalOf p.2 (svals gks p.1 e.1 D)).getD (PartialVal.pcount 0))) := by
      intro e he
      have hself : glookup e.1 P = some e.2 := by
        obtain ⟨g₀, x⟩ := e
        exact glookup_self_of_uniq hPuniq he
      rw [hPchar e.1, if_pos (hact_mem e he)] at hself
      exact ((Option.some.injEq _ _).mp hself).symm
    have hupd : ∀ e ∈ P, ∀ p ∈ targets, ∀ acc,
        (updateFAcc p.2 acc
          ((pvalOf p.2 (svals gks p.1 e.1 D)).getD (PartialVal.pcount 0))).isSome := by
      intro e he p hp acc
      obtain ⟨pv, hpv⟩ := Option.isSome_iff_exists.mp
        (hsucc e.1 (hact_mem e he) p hp)
      rw [hpv]
      simp only [Option.getD_some]
      rw [updateFAcc_of_pvalOf hpv acc]
      rfl
    have hcong : ∀ g g', gkeyEq g g' = true → ∀ p : String × Agg,
        (pvalOf p.2 (svals gks p.1 g D)).getD (PartialVal.pcount 0) =
        (pvalOf p.2 (svals gks p.1 g' D)).getD (PartialVal.pcount 0) := by
      intro g g' hgg p
      rw [svals_congr p.1 hgg D]
    obtain ⟨F', hF', hchar'⟩ := rowsFoldF_glookup targets
      (fun g p => (pvalOf p.2 (svals gks p.1 g D)).getD (PartialVal.pcount 0))
      hcong hlk P hrow hupd hPuniq F
    refine ⟨ps ++ [P], F', hps', ?_, ?_⟩
    · rw [List.foldlM_append, hF]
      simp only [Option.bind_eq_bind, Option.some_bind, List.foldlM_cons,
        List.foldlM_nil]
      rw [hF']
      rfl
    · intro g'
      rw [hchar' g', hPchar g']
      have hflatD : ([D] : List (List Record)).flatten = D := by simp
      have hactapp : activeIn gks targets g' ((Ds ++ [D]).flatten) =
          (activeIn gks targets g' Ds.flatten || activeIn gks targets g' D) := by
        rw [List.flatten_append, hflatD, activeIn_append]
      by_cases hdact : activeIn gks targets g' D = true
      · rw [if_pos hdact]
        simp only []
        rw [hchar g']
        by_cases hpre : activeIn gks targets g' Ds.flatten = true
        · rw [if_pos hpre]
          simp only []
          rw [rowUpdFold_map targets hnd
            (fun p => (pvalOf p.2 (svals gks p.1 g' D)).getD (PartialVal.pcount 0))
            (fun p => Ds.foldl (fun acc D =>
              if activeIn gks targets g' D = true then
                faccStep p.2 acc (svals gks p.1 g' D)
              else acc) ⟨0, 0, []⟩)]
          rw [hactapp, hpre, Bool.true_or, if_pos rfl]
          congr 1
          apply List.map_congr_left
          intro p hp
          obtain ⟨pv, hpv⟩ := Option.isSome_iff_exists.mp (hsucc g' hdact p hp)
          rw [hpv]
          simp only [Option.getD_some]
          rw [updateFAcc_of_pvalOf hpv]
          simp only [Option.getD_some]
          rw [List.foldl_append, List.foldl_cons, List.foldl_nil, if_pos hdact]
        · rw [if_neg hpre]
          have hne : targets.isEmpty = false := by
            unfold activeIn at hdact
            obtain ⟨r, _, hr⟩ := List.any_eq_true.mp hdact
            simp only [Bool.and_eq_true] at hr
            obtain ⟨_, hpres⟩ := hr
            unfold targetsPresent at hpres
            obtain ⟨p, hp', _⟩ := List.any_eq_true.mp hpres
            cases targets with
            | nil => cases hp'
            | cons _ _ => rfl
          rw [hne]
          simp only [Bool.false_eq_true, if_false]
          have hdefault : defaultFRow targets =
              targets.map (fun p => (p.1,
                (fun _ : String × Agg => (⟨0, 0, []⟩ : FAcc)) p)) := rfl
          rw [hdefault, rowUpdFold_map targets hnd
            (fun p => (pvalOf p.2 (svals gks p.1 g' D)).getD (PartialVal.pcount 0))
            (fun _ => ⟨0, 0, []⟩)]
          simp only [Bool.not_eq_true] at hpre
          rw [hactapp, hpre]
          simp only [Bool.false_or]
          rw [if_pos hdact]
          congr 1
          apply List.map_congr_left
          intro p hp
          obtain ⟨pv, hpv⟩ := Option.isSome_iff_exists.mp (hsucc g' hdact p hp)
          rw [hpv]
          simp only [Option.getD_some]
          rw [updateFAcc_of_pvalOf hpv]
          simp only [Option.getD_some]
          rw [List.foldl_append, List.foldl_cons, List.foldl_nil, if_pos hdact]
          have hpref : Ds.foldl (fun acc D =>
              if activeIn gks targets g' D = true then
                faccStep p.2 acc (svals gks p.1 g' D)
              else acc) ⟨0, 0, []⟩ = ⟨0, 0, []⟩ := by
            apply foldl_if_false (fun D => activeIn gks targets g' D)
              (fun acc D => faccStep p.2 acc (svals gks p.1 g' D))
            intro D' hD'
            have h1 : Ds.any (fun D => activeIn gks targets g' D) = false := by
              rw [← activeIn_flatten]
              exact hpre
            rw [List.any_eq_false] at h1
            have := h1 D' hD'
            simpa using this
          rw [hpref]
      · rw [if_neg hdact]
        simp only []
        rw [hchar g', hactapp]
        simp only [Bool.not_eq_true] at hdact
        rw [hdact, Bool.or_false]
        by_cases hpre : activeIn gks targets g' Ds.flatten = true
        · rw [if_pos hpre, if_pos hpre]
          congr 1
          apply List.map_congr_left
          intro p _
          rw [List.foldl_append, List.foldl_cons, List.foldl_nil]
          rw [hdact]
          simp
        · rw [if_neg hpre, if_neg hpre]

theorem mapM_keys_fst {β γ : Type}
    (f : (List Value × β) → Option (List Value × γ))
    (hf : ∀ e x, f e = some x → x.1 = e.1) :
    ∀ (L : List (List Value × β)) (L' : List (List Value × γ)),
      L.mapM f = some L' → L'.map Prod.fst = L.map Prod.fst := by
  intro L
  induction L with
  | nil =>
    intro L' h
    rw [← List.mapM'_eq_mapM] at h
    simp only [List.mapM', Option.pure_def, Option.some.injEq] at h
    subst h
    rfl
  | cons e L ih =>
    intro L' h
    rw [← List.mapM'_eq_mapM] at h
    simp only [List.mapM', Option.bind_eq_bind] at h
    match he : f e with
    | none => rw [he] at h; cases h
    | some x =>
      rw [he] at h
      simp only [Option.some_bind] at h
      match hrest : List.mapM' f L with
      | none => rw [hrest] at h; cases h
      | some xs =>
        rw [hrest] at h
        simp only [Option.some_bind, Option.pure_def, Option.some.injEq] at h
        subst h
        rw [List.mapM'_eq_mapM] at hrest
        simp only [List.map_cons]
        rw [ih xs hrest, hf e x he]

/-- `faccInto` keeps the group keys of `final_result` pairwise
non-equivalent (it is a `defaultdict`): an update changes no key, and a
new key is appended only when no equivalent key is present. -/
theorem faccInto_uniq (targets : List (String × Agg)) (F : FinalAcc)
    (g : List Value) (t : String) (pv : PartialVal) (F' : FinalAcc)
    (h : faccInto targets F g t pv = some F')
    (hu : F.Pairwise (fun e f => gkeyEq e.1 f.1 = false)) :
    F'.Pairwise (fun e f => gkeyEq e.1 f.1 = false) := by
  unfold faccInto at h
  match ha : List.lookup t targets with
  | none => rw [ha] at h; cases h
  | some a =>
    rw [ha] at h
    simp only [Option.bind_eq_bind, Option.some_bind] at h
    by_cases hex : F.any (fun e => gkeyEq e.1 g) = true
    · rw [if_pos hex] at h
      have hk : F'.map Prod.fst = F.map Prod.fst := by
        refine mapM_keys_fst _ ?_ F F' h
        intro e x he
        by_cases hge : gkeyEq e.1 g = true
        · rw [if_pos hge] at he
          match hrow : e.2.mapM (fun p =>
              if p.1 = t then (updateFAcc a p.2 pv).map (fun acc => (p.1, acc))
              else some p) with
          | none => rw [hrow] at he; cases he
          | some row =>
            rw [hrow] at he
            simp only [Option.map_some', Option.some.injEq] at he
            subst he
            rfl
        · rw [if_neg hge] at he
          simp only [Option.some.injEq] at he
          subst he
          rfl
      exact uniqKeys_transfer hk hu
    · rw [if_neg hex] at h
      match hrow : (defaultFRow targets).mapM (fun p =>
          if p.1 = t then (updateFAcc a p.2 pv).map (fun acc => (p.1, acc))
          else some p) with
      | none => rw [hrow] at h; cases h
      | some row =>
        rw [hrow] at h
        simp only [Option.map_some', Option.some.injEq] at h
        subst h
        rw [List.pairwise_append]
        refine ⟨hu, List.pairwise_singleton _ _, ?_⟩
        intro a' ha' b hb
        simp only [List.mem_singleton] at hb
        subst hb
        simp only [Bool.not_eq_true] at hex
        rw [List.any_eq_false] at hex
        have := hex a' ha'
        simpa using this

/-- The per-row fold of `faccInto` keeps the group keys pairwise
non-equivalent. -/
theorem faccFold_uniq (targets : List (String × Agg)) (g : List Value) :
    ∀ (tvs : List (String × PartialVal)) (F F' : FinalAcc),
      tvs.foldlM (fun F p => faccInto targets F g p.1 p.2) F = some F' →
      F.Pairwise (fun e f => gkeyEq e.1 f.1 = false) →
      F'.Pairwise (fun e f => gkeyEq e.1 f.1 = false) := by
  intro tvs
  induction tvs with
  | nil =>
    intro F F' h hu
    simp only [List.foldlM_nil] at h
    cases h
    exact hu
  | cons p tvs ih =>
    intro F F' h hu
    rw [List.foldlM_cons] at h
    match hstep : faccInto targets F g p.1 p.2 with
    | none => rw [hstep] at h; cases h
    | some F₁ =>
      rw [hstep] at h
      simp only [Option.bind_eq_bind, Option.some_bind] at h
      exact ih F₁ F' h (faccInto_uniq targets F g p.1 p.2 F₁ hstep hu)

/-- `partialIntoF` keeps the group keys pairwise non-equivalent. -/
theorem partialIntoF_uniq (targets : List (String × Agg)) :
    ∀ (P : List (List Value × List (String × PartialVal))) (F F' : FinalAcc),
      partialIntoF targets F P = some F' →
      F.Pairwise (fun e f => gkeyEq e.1 f.1 = false) →
      F'.Pairwise (fun e f => gkeyEq e.1 f.1 = false) := by
  intro P
  induction P with
  | nil =>
    intro F F' h hu
    simp only [partialIntoF, List.foldlM_nil] at h
    cases h
    exact hu
  | cons e P ih =>
    intro F F' h hu
    unfold partialIntoF at h
    rw [List.foldlM_cons] at h
    match hstep : e.2.foldlM (fun F p => faccInto targets F e.1 p.1 p.2) F with
    | none => rw [hstep] at h; cases h
    | some F₁ =>
      rw [hstep] at h
      simp only [Option.bind_eq_bind, Option.some_bind] at h
      exact ih F₁ F' h (faccFold_uniq targets e.1 e.2 F F₁ hstep hu)

/-- The whole merging loop of `final_aggregate` keeps the group keys
pairwise non-equivalent. -/
theorem finalFoldList_uniq (targets : List (String × Agg)) :
    ∀ (ps : List (List (List Value × List (String × PartialVal))))
      (F F' : FinalAcc),
      ps.foldlM (partialIntoF targets) F = some F' →
      F.Pairwise (fun e f => gkeyEq e.1 f.1 = false) →
      F'.Pairwise (fun e f => gkeyEq e.1 f.1 = false) := by
  intro ps
  induction ps with
  | nil =>
    intro F F' h hu
    simp only [List.foldlM_nil] at h
    cases h
    exact hu
  | cons P ps ih =>
    intro F F' h hu
    rw [List.foldlM_cons] at h
    match hstep : partialIntoF targets F P with
    | none => rw [hstep] at h; cases h
    | some F₁ =>
      rw [hstep] at h
      simp only [Option.bind_eq_bind, Option.some_bind] at h
      exact ih F₁ F' h (partialIntoF_uniq targets P F F₁ hstep hu)

theorem numericOf_append (A B : List Value) :
    numericOf (A ++ B) = numericOf A ++ numericOf B := by
  simp [numericOf, List.filterMap_append]

theorem maxQ_toList (o : Option ℚ) : maxQ o.toList = o := by
  cases o <;> rfl

theorem minQ_toList (o : Option ℚ) : minQ o.toList = o := by
  cases o <;> rfl

theorem foldl_max_pull (a : ℚ) :
    ∀ (ys : List ℚ) (y : ℚ),
      ys.foldl Max.max (Max.max a y) = Max.max a (ys.foldl Max.max y) := by
  intro ys
  induction ys with
  | nil => intro y; rfl
  | cons z ys ih =>
    intro y
    rw [List.foldl_cons, List.foldl_cons, max_assoc, ih]

theorem foldl_min_pull (a : ℚ) :
    ∀ (ys : List ℚ) (y : ℚ),
      ys.foldl Min.min (Min.min a y) = Min.min a (ys.foldl Min.min y) := by
  intro ys
  induction ys with
  | nil => intro y; rfl
  | cons z ys ih =>
    intro y
    rw [List.foldl_cons, List.foldl_cons, min_assoc, ih]

/-- `max` over a concatenation combines the two maxima. -/
theorem maxQ_append (A B : List ℚ) :
    maxQ (A ++ B) = match maxQ A, maxQ B with
      | none, b => b
      | some a, none => some a
      | some a, some b => some (Max.max a b) := by
  match A with
  | [] =>
    simp only [List.nil_append, maxQ]
  | x :: xs =>
    simp only [List.cons_append, maxQ, List.foldl_append]
    match B with
    | [] => rfl
    | y :: ys =>
      simp only [maxQ, List.foldl_cons]
      rw [foldl_max_pull]

/-- `min` over a concatenation combines the two minima. -/
theorem minQ_append (A B : List ℚ) :
    minQ (A ++ B) = match minQ A, minQ B with
      | none, b => b
      | some a, none => some a
      | some a, some b => some (Min.min a b) := by
  match A with
  | [] =>
    simp only [List.nil_append, minQ]
  | x :: xs =>
    simp only [List.cons_append, minQ, List.foldl_append]
    match B with
    | [] => rfl
    | y :: ys =>
      simp only [minQ, List.foldl_cons]
      rw [foldl_min_pull]

/-- The maximum of per-chunk maxima is the global maximum. -/
theorem maxQ_flatten_toList :
    ∀ (Ns : List (List ℚ)),
      maxQ ((Ns.map (fun N => (maxQ N).toList)).flatten) = maxQ Ns.flatten := by
  intro Ns
  induction Ns with
  | nil => rfl
  | cons N Ns ih =>
    rw [List.map_cons, List.flatten_cons, List.flatten_cons, maxQ_append,
      maxQ_append, maxQ_toList, ih]

/-- The minimum of per-chunk minima is the global minimum. -/
theorem minQ_flatten_toList :
    ∀ (Ns : List (List ℚ)),
      minQ ((Ns.map (fun N => (minQ N).toList)).flatten) = minQ Ns.flatten := by
  intro Ns
  induction Ns with
  | nil => rfl
  | cons N Ns ih =>
    rw [List.map_cons, List.flatten_cons, List.flatten_cons, minQ_append,
      minQ_append, minQ_toList, ih]

theorem maxQ_isSome_of_ne_nil {xs : List ℚ} (h : xs ≠ []) :
    (maxQ xs).isSome = true := by
  match xs with
  | [] => exact absurd rfl h
  | x :: xs => rfl

theorem minQ_isSome_of_ne_nil {xs : List ℚ} (h : xs ≠ []) :
    (minQ xs).isSome = true := by
  match xs with
  | [] => exact absurd rfl h
  | x :: xs => rfl

theorem numericOf_svals_flatten (gks : FieldSel) (t : String) (g : List Value)
    (Ds : List (List Record)) :
    numericOf (svals gks t g Ds.flatten) =
      (Ds.map (fun D => numericOf (svals gks t g D))).flatten := by
  rw [svals_flatten]
  induction Ds with
  | nil => rfl
  | cons D Ds ih =>
    simp only [List.map_cons, List.flatten_cons, numericOf_append]
    rw [ih]

/-- The `sum` accumulator folded over the partitions. -/
theorem accFold_sum (gks : FieldSel) (targets : List (String × Agg))
    (t : String) (g : List Value) :
    ∀ (Ds : List (List Record)) (init : FAcc),
      (∀ D ∈ Ds, activeIn gks targets g D = false → svals gks t g D = []) →
      Ds.foldl (fun acc D => if activeIn gks targets g D = true then
          faccStep Agg.sum acc (svals gks t g D) else acc) init =
        ⟨init.s + (numericOf (svals gks t g Ds.flatten)).sum, init.c,
          init.vals⟩ := by
  intro Ds
  induction Ds with
  | nil =>
    intro init _
    simp [svals, numericOf]
  | cons D Ds ih =>
    intro init hnil
    rw [List.foldl_cons, List.flatten_cons, svals_append, numericOf_append,
      List.sum_append]
    by_cases hact : activeIn gks targets g D = true
    · rw [if_pos hact,
        ih _ (fun D' hD' => hnil D' (List.mem_cons_of_mem D hD'))]
      simp only [faccStep, FAcc.mk.injEq]
      refine ⟨by ring, trivial, trivial⟩
    · rw [if_neg hact,
        ih _ (fun D' hD' => hnil D' (List.mem_cons_of_mem D hD'))]
      have h0 : svals gks t g D = [] := hnil D (List.mem_cons_self D Ds)
        (by simpa using hact)
      rw [h0]
      simp [numericOf]

/-- The `count` accumulator folded over the partitions. -/
theorem accFold_count (gks : FieldSel) (targets : List (String × Agg))
    (t : String) (g : List Value) :
    ∀ (Ds : List (List Record)) (init : FAcc),
      (∀ D ∈ Ds, activeIn gks targets g D = false → svals gks t g D = []) →
      Ds.foldl (fun acc D => if activeIn gks targets g D = true then
          faccStep Agg.count acc (svals gks t g D) else acc) init =
        ⟨init.s + ((svals gks t g Ds.flatten).length : ℚ), init.c,
          init.vals⟩ := by
  intro Ds
  induction Ds with
  | nil =>
    intro init _
    simp [svals]
  | cons D Ds ih =>
    intro init hnil
    rw [List.foldl_cons, List.flatten_cons, svals_append, List.length_append]
    by_cases hact : activeIn gks targets g D = true
    · rw [if_pos hact,
        ih _ (fun D' hD' => hnil D' (List.mem_cons_of_mem D hD'))]
      simp only [faccStep, FAcc.mk.injEq]
      refine ⟨by push_cast; ring, trivial, trivial⟩
    · rw [if_neg hact,
        ih _ (fun D' hD' => hnil D' (List.mem_cons_of_mem D hD'))]
      have h0 : svals gks t g D = [] := hnil D (List.mem_cons_self D Ds)
        (by simpa using hact)
      rw [h0]
      simp

/-- The `avg` accumulator folded over the partitions. -/
theorem accFold_avg (gks : FieldSel) (targets : List (String × Agg))
    (t : String) (g : List Value) :
    ∀ (Ds : List (List Record)) (init : FAcc),
      (∀ D ∈ Ds, activeIn gks targets g D = false → svals gks t g D = []) →
      Ds.foldl (fun acc D => if activeIn gks targets g D = true then
          faccStep Agg.avg acc (svals gks t g D) else acc) init =
        ⟨init.s + (numericOf (svals gks t g Ds.flatten)).sum,
          init.c + (numericOf (svals gks t g Ds.flatten)).length,
          init.vals⟩ := by
  intro Ds
  induction Ds with
  | nil =>
    intro init _
    simp [svals, numericOf]
  | cons D Ds ih =>
    intro init hnil
    rw [List.foldl_cons, List.flatten_cons, svals_append, numericOf_append,
      List.sum_append, List.length_append]
    by_cases hact : activeIn gks targets g D = true
    · rw [if_pos hact,
        ih _ (fun D' hD' => hnil D' (List.mem_cons_of_mem D hD'))]
      simp only [faccStep, FAcc.mk.injEq]
      refine ⟨by ring, by ring, trivial⟩
    · rw [if_neg hact,
        ih _ (fun D' hD' => hnil D' (List.mem_cons_of_mem D hD'))]
      have h0 : svals gks t g D = [] := hnil D (List.mem_cons_self D Ds)
        (by simpa using hact)
      rw [h0]
      simp [numericOf]

/-- The `max` accumulator folded over the partitions: the per-partition
maxima collected in order. -/
theorem accFold_max (gks : FieldSel) (targets : List (String × Agg))
    (t : String) (g : List Value) :
    ∀ (Ds : List (List Record)) (init : FAcc),
      (∀ D ∈ Ds, activeIn gks targets g D = false → svals gks t g D = []) →
      Ds.foldl (fun acc D => if activeIn gks targets g D = true then
          faccStep Agg.max acc (svals gks t g D) else acc) init =
        ⟨init.s, init.c, init.vals ++
          (Ds.map (fun D =>
            (maxQ (numericOf (svals gks t g D))).toList)).flatten⟩ := by
  intro Ds
  induction Ds with
  | nil =>
    intro init _
    simp
  | cons D Ds ih =>
    intro init hnil
    rw [List.foldl_cons, List.map_cons, List.flatten_cons]
    by_cases hact : activeIn gks targets g D = true
    · rw [if_pos hact,
        ih _ (fun D' hD' => hnil D' (List.mem_cons_of_mem D hD'))]
      simp only [faccStep, FAcc.mk.injEq]
      refine ⟨trivial, trivial, by rw [List.append_assoc]⟩
    · rw [if_neg hact,
        ih _ (fun D' hD' => hnil D' (List.mem_cons_of_mem D hD'))]
      have h0 : svals gks t g D = [] := hnil D (List.mem_cons_self D Ds)
        (by simpa using hact)
      rw [h0]
      simp [numericOf, maxQ]

/-- The `min` accumulator folded over the partitions: the per-partition
minima collected in order. -/
theorem accFold_min (gks : FieldSel) (targets : List (String × Agg))
    (t : String) (g : List Value) :
    ∀ (Ds : List (List Record)) (init : FAcc),
      (∀ D ∈ Ds, activeIn gks targets g D = false → svals gks t g D = []) →
      Ds.foldl (fun acc D => if activeIn gks targets g D = true then
          faccStep Agg.min acc (svals gks t g D) else acc) init =
        ⟨init.s, init.c, init.vals ++
          (Ds.map (fun D =>
            (minQ (numericOf (svals gks t g D))).toList)).flatten⟩ := by
  intro Ds
  induction Ds with
  | nil =>
    intro init _
    simp
  | cons D Ds ih =>
    intro init hnil
    rw [List.foldl_cons, List.map_cons, List.flatten_cons]
    by_cases hact : activeIn gks targets g D = true
    · rw [if_pos hact,
        ih _ (fun D' hD' => hnil D' (List.mem_cons_of_mem D hD'))]
      simp only [faccStep, FAcc.mk.injEq]
      refine ⟨trivial, trivial, by rw [List.append_assoc]⟩
    · rw [if_neg hact,
        ih _ (fun D' hD' => hnil D' (List.mem_cons_of_mem D hD'))]
      have h0 : svals gks t g D = [] := hnil D (List.mem_cons_self D Ds)
        (by simpa using hact)
      rw [h0]
      simp [numericOf, minQ]

/-- A canonical accumulator row formats pointwise when every slot's final
value succeeds. -/
theorem formatRow_map (targets : List (String × Agg))
    (f : String × Agg → FAcc) :
    ∀ (ts : List (String × Agg)),
      (∀ p ∈ ts, List.lookup p.1 targets = some p.2) →
      (∀ p ∈ ts, (formatVal p.2 (f p)).isSome) →
      formatRow targets (ts.map fun p => (p.1, f p)) =
        some (ts.map (fun p => (p.1, (formatVal p.2 (f p)).getD 0))) := by
  intro ts
  induction ts with
  | nil => intro _ _; rfl
  | cons q ts ih =>
    intro hlk hsucc
    obtain ⟨v, hv⟩ :=
      Option.isSome_iff_exists.mp (hsucc q (List.mem_cons_self q ts))
    have hrest := ih (fun p hp => hlk p (List.mem_cons_of_mem q hp))
      (fun p hp => hsucc p (List.mem_cons_of_mem q hp))
    unfold formatRow at hrest ⊢
    rw [List.map_cons, ← List.mapM'_eq_mapM, List.mapM', List.mapM'_eq_mapM,
      hrest]
    simp [hlk q (List.mem_cons_self q ts), hv]

/-- `formatRows` keeps the group keys and formats each row. -/
theorem formatRows_glookup (targets : List (String × Agg)) :
    ∀ (F : FinalAcc) (out : List (List Value × List (String × ℚ))),
      formatRows targets F = some out →
      ∀ g, glookup g out = (glookup g F).bind (formatRow targets) := by
  intro F
  induction F with
  | nil =>
    intro out h g
    simp only [formatRows, Option.some.injEq] at h
    subst h
    simp [glookup_nil]
  | cons e F' ih =>
    intro out h g
    obtain ⟨g₀, row⟩ := e
    simp only [formatRows, Option.bind_eq_bind] at h
    match hvals : formatRow targets row with
    | none => rw [hvals] at h; simp at h
    | some vals =>
      rw [hvals] at h
      match hout : formatRows targets F' with
      | none => rw [hout] at h; simp at h
      | some out' =>
        rw [hout] at h
        simp only [Option.some_bind, Option.pure_def, Option.some.injEq] at h
        subst h
        rw [glookup_cons, glookup_cons]
        by_cases hg : gkeyEq g₀ g = true
        · rw [if_pos hg, if_pos hg]
          simp [hvals]
        · rw [if_neg hg, if_neg hg]
          exact ih out' hout g

/-- `formatRows` succeeds when every row formats. -/
theorem formatRows_some (targets : List (String × Agg)) :
    ∀ (F : FinalAcc), (∀ e ∈ F, (formatRow targets e.2).isSome) →
      (formatRows targets F).isSome := by
  intro F
  induction F with
  | nil => intro _; rfl
  | cons e F' ih =>
    intro h
    obtain ⟨g₀, row⟩ := e
    obtain ⟨vals, hvals⟩ := Option.isSome_iff_exists.mp
      (h (g₀, row) (List.mem_cons_self _ F'))
    obtain ⟨out', hout⟩ := Option.isSome_iff_exists.mp
      (ih (fun e he => h e (List.mem_cons_of_mem _ he)))
    simp [formatRows, hvals, hout]

/-- A tagging `mapM` over an everywhere-successful base map. -/
theorem mapM_tag_map (h : String × Agg → Option ℚ) :
    ∀ (ts : List (String × Agg)), (∀ p ∈ ts, (h p).isSome) →
      ts.mapM (fun p => (h p).map (fun v => (p.1, v))) =
        some (ts.map (fun p => (p.1, (h p).getD 0))) := by
  intro ts
  induction ts with
  | nil => intro _; rfl
  | cons q ts ih =>
    intro hsucc
    obtain ⟨v, hv⟩ :=
      Option.isSome_iff_exists.mp (hsucc q (List.mem_cons_self q ts))
    have hrest := ih (fun p hp => hsucc p (List.mem_cons_of_mem q hp))
    rw [List.map_cons, ← List.mapM'_eq_mapM, List.mapM', List.mapM'_eq_mapM,
      hrest]
    simp [hv]

/-- The group-discovery loop of `single_pass_aggregate`: it succeeds when
all records carry the group keys, and collects exactly the keys of the
active groups. -/
theorem spGroups_char (gks : FieldSel) (targets : List (String × Agg)) :
    ∀ (records : List Record), (∀ r ∈ records, (gkeyOf gks r).isSome) →
      ∃ gs, spGroups gks targets records = some gs ∧
        ∀ g, gs.any (fun g₀ => gkeyEq g₀ g) =
          activeIn gks targets g records := by
  intro records
  induction records using List.reverseRecOn with
  | nil =>
    intro _
    exact ⟨[], rfl, fun g => by simp [activeIn]⟩
  | append_singleton rs r ih =>
    intro hkeys
    obtain ⟨gs, hgs, hact⟩ := ih (fun r' hr' => hkeys r' (by simp [hr']))
    obtain ⟨gr, hg⟩ := Option.isSome_iff_exists.mp (hkeys r (by simp))
    unfold spGroups at hgs ⊢
    rw [List.foldlM_append, hgs]
    simp only [Option.bind_eq_bind, Option.some_bind, List.foldlM_cons,
      List.foldlM_nil, hg, Option.pure_def]
    refine ⟨_, rfl, ?_⟩
    intro g
    rw [activeIn_append, activeIn_singleton, gMatches_of_gkeyOf hg g,
      ← hact g]
    by_cases htp : targetsPresent targets r = true
    · by_cases hany : gs.any (fun g' => gkeyEq g' gr) = true
      · rw [htp, hany]
        simp only [Bool.not_true, Bool.and_false, Bool.false_eq_true, if_false,
          Bool.and_true]
        by_cases hgrg : gkeyEq gr g = true
        · obtain ⟨g₀, hg₀, hk⟩ := List.any_eq_true.mp hany
          have hgg : gs.any (fun g₀ => gkeyEq g₀ g) = true :=
            List.any_eq_true.mpr ⟨g₀, hg₀, gkeyEq_trans hk hgrg⟩
          rw [hgg, hgrg]
          simp
        · simp only [Bool.not_eq_true] at hgrg
          rw [hgrg, Bool.or_false]
      · simp only [Bool.not_eq_true] at hany
        rw [htp, hany]
        simp only [Bool.not_false, Bool.and_true, if_true]
        rw [List.any_append]
        simp [Bool.or_comm]
    · simp only [Bool.not_eq_true] at htp
      rw [htp]
      simp

/-- Looking a group up in a per-group `mapM`-built result: the first
collected key equivalent to the group determines the row. -/
theorem glookup_rows_mapM (rowf : List Value → Option (List (String × ℚ))) :
    ∀ (gs : List (List Value)), (∀ g₀ ∈ gs, (rowf g₀).isSome) →
      ∃ sp, gs.mapM (fun g => (rowf g).map (fun row => (g, row))) = some sp ∧
        ∀ g, glookup g sp =
          match gs.find? (fun g₀ => gkeyEq g₀ g) with
          | some g₀ => rowf g₀
          | none => none := by
  intro gs
  induction gs with
  | nil =>
    intro _
    refine ⟨[], rfl, ?_⟩
    intro g
    rw [List.find?_nil, glookup_nil]
  | cons g₀ gs ih =>
    intro hsucc
    obtain ⟨row, hrow⟩ := Option.isSome_iff_exists.mp
      (hsucc g₀ (List.mem_cons_self g₀ gs))
    obtain ⟨sp', hsp', hchar⟩ :=
      ih (fun g' hg' => hsucc g' (List.mem_cons_of_mem g₀ hg'))
    refine ⟨(g₀, row) :: sp', ?_, ?_⟩
    · rw [← List.mapM'_eq_mapM, List.mapM', List.mapM'_eq_mapM, hsp', hrow]
      rfl
    · intro g
      rw [glookup_cons]
      by_cases hk : gkeyEq g₀ g = true
      · rw [if_pos hk, List.find?_cons_of_pos _ (by simpa using hk)]
        simp only []
        exact hrow.symm
      · rw [if_neg hk, List.find?_cons_of_neg _ (by simpa using hk), hchar g]

/-- `single_pass_aggregate`, characterised: on records that all carry the
group keys and whose active groups all aggregate successfully, it emits
one row per active group, holding every target's single-pass value. -/
theorem singlePass_char (gks : FieldSel) (targets : List (String × Agg))
    (records : List Record)
    (hkeys : ∀ r ∈ records, (gkeyOf gks r).isSome)
    (hsv : ∀ g, activeIn gks targets g records = true →
      ∀ p ∈ targets, (spVal p.2 (svals gks p.1 g records)).isSome) :
    ∃ sp, singlePassAggregate records gks targets = some sp ∧
      ∀ g, glookup g sp =
        if activeIn gks targets g records = true then
          some (targets.map (fun p =>
            (p.1, (spVal p.2 (svals gks p.1 g records)).getD 0)))
        else none := by
  obtain ⟨gs, hgs, hact⟩ := spGroups_char gks targets records hkeys
  have hrowf : ∀ g₀ ∈ gs,
      ((fun g => targets.mapM (fun p =>
        (spVal p.2 (svals gks p.1 g records)).map (fun v => (p.1, v)))) g₀).isSome := by
    intro g₀ hg₀
    have hactg : activeIn gks targets g₀ records = true := by
      rw [← hact g₀]
      exact List.any_eq_true.mpr ⟨g₀, hg₀, by simp [gkeyEq_refl]⟩
    simp only []
    rw [mapM_tag_map (fun p => spVal p.2 (svals gks p.1 g₀ records)) targets
      (hsv g₀ hactg)]
    rfl
  obtain ⟨sp, hsp, hchar⟩ := glookup_rows_mapM _ gs hrowf
  refine ⟨sp, ?_, ?_⟩
  · unfold singlePassAggregate
    rw [hgs]
    simpa using hsp
  · intro g
    rw [hchar g]
    by_cases hactg : activeIn gks targets g records = true
    · rw [if_pos hactg]
      have hany : gs.any (fun g₀ => gkeyEq g₀ g) = true := by
        rw [hact g]; exact hactg
      obtain ⟨g₀, hg₀, hk⟩ := List.any_eq_true.mp hany
      match hfind : gs.find? (fun g₀ => gkeyEq g₀ g) with
      | none =>
        exfalso
        have hno := List.find?_eq_none.mp hfind g₀ hg₀
        exact hno hk
      | some g₁ =>
        have hk₁ : gkeyEq g₁ g = true := by
          have := List.find?_some hfind
          simpa using this
        have hact₁ : activeIn gks targets g₁ records = true := by
          rw [activeIn_congr hk₁ records]
          exact hactg
        simp only []
        rw [mapM_tag_map (fun p => spVal p.2 (svals gks p.1 g₁ records)) targets
          (hsv g₁ hact₁)]
        congr 1
        apply List.map_congr_left
        intro p _
        rw [svals_congr p.1 hk₁ records]
    · rw [if_neg hactg]
      match hfind : gs.find? (fun g₀ => gkeyEq g₀ g) with
      | none => rfl
      | some g₁ =>
        exfalso
        have hk₁ : gkeyEq g₁ g = true := by
          have := List.find?_some hfind
          simpa using this
        have hmem : g₁ ∈ gs := List.mem_of_find?_eq_some hfind
        have : gs.any (fun g₀ => gkeyEq g₀ g) = true :=
          List.any_eq_true.mpr ⟨g₁, hmem, by simpa using hk₁⟩
        rw [hact g] at this
        exact hactg this

/-- At an active group, the formatted fold of one target's accumulator
over all partitions succeeds and equals the single-pass value, provided
the target's partial value succeeded on every partition where the group is
active. -/
theorem formatVal_fold_eq_spVal (gks : FieldSel)
    (targets : List (String × Agg)) (p : String × Agg) (hp : p ∈ targets)
    (g : List Value) (Ds : List (List Record))
    (hsuccD : ∀ D ∈ Ds, activeIn gks targets g D = true →
      (pvalOf p.2 (svals gks p.1 g D)).isSome)
    (hact : activeIn gks targets g Ds.flatten = true) :
    formatVal p.2 (Ds.foldl (fun acc D =>
        if activeIn gks targets g D = true then
          faccStep p.2 acc (svals gks p.1 g D) else acc) ⟨0, 0, []⟩) =
      spVal p.2 (svals gks p.1 g Ds.flatten) ∧
    (spVal p.2 (svals gks p.1 g Ds.flatten)).isSome := by
  have hnil : ∀ D ∈ Ds, activeIn gks targets g D = false →
      svals gks p.1 g D = [] := fun D _ h =>
    svals_eq_nil_of_inactive h (List.mem_map_of_mem Prod.fst hp)
  obtain ⟨t, a⟩ := p
  cases a with
  | sum =>
    rw [accFold_sum gks targets t g Ds ⟨0, 0, []⟩ hnil]
    constructor
    · simp [formatVal, spVal]
    · simp [spVal]
  | count =>
    rw [accFold_count gks targets t g Ds ⟨0, 0, []⟩ hnil]
    constructor
    · simp [formatVal, spVal]
    · simp [spVal]
  | avg =>
    rw [accFold_avg gks targets t g Ds ⟨0, 0, []⟩ hnil]
    constructor
    · simp [formatVal, spVal]
    · simp [spVal]
  | max =>
    rw [accFold_max gks targets t g Ds ⟨0, 0, []⟩ hnil]
    have heq : formatVal Agg.max ⟨0, 0, [] ++
        (Ds.map (fun D => (maxQ (numericOf (svals gks t g D))).toList)).flatten⟩ =
        spVal Agg.max (svals gks t g Ds.flatten) := by
      simp only [formatVal, spVal, List.nil_append]
      have hmm : Ds.map (fun D => (maxQ (numericOf (svals gks t g D))).toList) =
          (Ds.map (fun D => numericOf (svals gks t g D))).map
            (fun N => (maxQ N).toList) := by
        rw [List.map_map]
        rfl
      rw [hmm, maxQ_flatten_toList, ← numericOf_svals_flatten]
    refine ⟨heq, ?_⟩
    rw [← heq]
    simp only [formatVal, List.nil_append]
    rw [activeIn_flatten] at hact
    obtain ⟨D₀, hD₀, hactD₀⟩ := List.any_eq_true.mp hact
    have hpv := hsuccD D₀ hD₀ hactD₀
    simp only [pvalOf] at hpv
    rw [Option.isSome_map'] at hpv
    obtain ⟨m, hm⟩ := Option.isSome_iff_exists.mp hpv
    have hxseg : ∃ x, x ∈ (maxQ (numericOf (svals gks t g D₀))).toList := by
      rw [hm]
      exact ⟨m, by simp⟩
    obtain ⟨x, hx⟩ := hxseg
    apply maxQ_isSome_of_ne_nil
    apply List.ne_nil_of_mem
    exact List.mem_flatten.mpr ⟨_, List.mem_map_of_mem _ hD₀, hx⟩
  | min =>
    rw [accFold_min gks targets t g Ds ⟨0, 0, []⟩ hnil]
    have heq : formatVal Agg.min ⟨0, 0, [] ++
        (Ds.map (fun D => (minQ (numericOf (svals gks t g D))).toList)).flatten⟩ =
        spVal Agg.min (svals gks t g Ds.flatten) := by
      simp only [formatVal, spVal, List.nil_append]
      have hmm : Ds.map (fun D => (minQ (numericOf (svals gks t g D))).toList) =
          (Ds.map (fun D => numericOf (svals gks t g D))).map
            (fun N => (minQ N).toList) := by
        rw [List.map_map]
        rfl
      rw [hmm, minQ_flatten_toList, ← numericOf_svals_flatten]
    refine ⟨heq, ?_⟩
    rw [← heq]
    simp only [formatVal, List.nil_append]
    rw [activeIn_flatten] at hact
    obtain ⟨D₀, hD₀, hactD₀⟩ := List.any_eq_true.mp hact
    have hpv := hsuccD D₀ hD₀ hactD₀
    simp only [pvalOf] at hpv
    rw [Option.isSome_map'] at hpv
    obtain ⟨m, hm⟩ := Option.isSome_iff_exists.mp hpv
    have hne : numericOf (svals gks t g D₀) ≠ [] := by
      intro hc
      rw [hc] at hm
      cases hm
    have hxseg : ∃ x, x ∈ (minQ (numericOf (svals gks t g D₀))).toList := by
      rw [hm]
      exact ⟨m, by simp⟩
    obtain ⟨x, hx⟩ := hxseg
    apply minQ_isSome_of_ne_nil
    apply List.ne_nil_of_mem
    exact List.mem_flatten.mpr ⟨_, List.mem_map_of_mem _ hD₀, hx⟩

/-- C1 (amended): partial-then-final aggregation equivalence.  For every
dataset partitioned arbitrarily, with pairwise-distinct target keys (they
are Python dict keys), whenever `partial_aggregate` succeeds on every
partition, `final_aggregate` over the list of partial results succeeds and
produces, for every group, exactly the same count/sum/avg/max/min values
as the single-pass aggregation over the whole unpartitioned dataset. -/
theorem partial_final_aggregate_equivalence (gks : FieldSel)
    (targets : List (String × Agg)) (hnd : (targets.map Prod.fst).Nodup)
    (Ds : List (List Record))
    (hok : ∀ D ∈ Ds, (partialAggregate D gks targets).isSome) :
    ∃ ps out sp,
      Ds.mapM (fun D => partialAggregate D gks targets) = some ps ∧
      finalAggregate ps targets = some out ∧
      singlePassAggregate Ds.flatten gks targets = some sp ∧
      ∀ g, glookup g out = glookup g sp := by
  obtain ⟨ps, F, hps, hF, hchar⟩ := finalFold_char gks targets hnd Ds hok
  have hFuniq : F.Pairwise (fun e f => gkeyEq e.1 f.1 = false) :=
    finalFoldList_uniq targets ps [] F hF List.Pairwise.nil
  have hsuccD : ∀ D ∈ Ds, ∀ g, activeIn gks targets g D = true →
      ∀ p ∈ targets, (pvalOf p.2 (svals gks p.1 g D)).isSome := by
    intro D hD
    obtain ⟨P, hP, hsucc, hPchar⟩ :=
      partialAggregate_char gks targets hnd D (hok D hD)
    exact hsucc
  have hlk : ∀ p ∈ targets, List.lookup p.1 targets = some p.2 :=
    fun p hp => lookup_self_of_nodup hnd hp
  have hmemF : ∀ e ∈ F, activeIn gks targets e.1 Ds.flatten = true ∧
      e.2 = targets.map (fun p => (p.1, Ds.foldl (fun acc D =>
        if activeIn gks targets e.1 D = true then
          faccStep p.2 acc (svals gks p.1 e.1 D) else acc) ⟨0, 0, []⟩)) := by
    intro e he
    have hself : glookup e.1 F = some e.2 := by
      obtain ⟨g₀, x⟩ := e
      exact glookup_self_of_uniq hFuniq he
    rw [hchar e.1] at hself
    by_cases hacte : activeIn gks targets e.1 Ds.flatten = true
    · rw [if_pos hacte] at hself
      exact ⟨hacte, ((Option.some.injEq _ _).mp hself).symm⟩
    · rw [if_neg hacte] at hself
      cases hself
  have hfmt : ∀ g, activeIn gks targets g Ds.flatten = true → ∀ p ∈ targets,
      formatVal p.2 (Ds.foldl (fun acc D =>
        if activeIn gks targets g D = true then
          faccStep p.2 acc (svals gks p.1 g D) else acc) ⟨0, 0, []⟩) =
        spVal p.2 (svals gks p.1 g Ds.flatten) ∧
      (spVal p.2 (svals gks p.1 g Ds.flatten)).isSome := by
    intro g hact p hp
    exact formatVal_fold_eq_spVal gks targets p hp g Ds
      (fun D hD hactD => hsuccD D hD g hactD p hp) hact
  have hrows : ∀ e ∈ F, (formatRow targets e.2).isSome := by
    intro e he
    obtain ⟨hacte, herow⟩ := hmemF e he
    have hsucc2 : ∀ p ∈ targets,
        (formatVal p.2 (Ds.foldl (fun acc D =>
          if activeIn gks targets e.1 D = true then
            faccStep p.2 acc (svals gks p.1 e.1 D) else acc)
          ⟨0, 0, []⟩)).isSome := by
      intro p hp
      have h1 := hfmt e.1 hacte p hp
      rw [h1.1]
      exact h1.2
    rw [herow, formatRow_map targets _ targets hlk hsucc2]
    rfl
  obtain ⟨out, hout⟩ :=
    Option.isSome_iff_exists.mp (formatRows_some targets F hrows)
  have hfin : finalAggregate ps targets = some out := by
    unfold finalAggregate
    rw [hF]
    simp only [Option.bind_eq_bind, Option.some_bind]
    exact hout
  have hkeys : ∀ r ∈ Ds.flatten, (gkeyOf gks r).isSome := by
    intro r hr
    obtain ⟨D, hD, hrD⟩ := List.mem_flatten.mp hr
    obtain ⟨P, hP⟩ := Option.isSome_iff_exists.mp (hok D hD)
    unfold partialAggregate at hP
    match hG : buildGroups gks targets D with
    | none => rw [hG] at hP; cases hP
    | some G =>
      unfold buildGroups at hG
      exact foldlM_recordInto_keys gks targets D [] G hG r hrD
  obtain ⟨sp, hsp, hspchar⟩ := singlePass_char gks targets Ds.flatten hkeys
    (fun g hact p hp => (hfmt g hact p hp).2)
  refine ⟨ps, out, sp, hps, hfin, hsp, ?_⟩
  intro g
  rw [formatRows_glookup targets F out hout g, hchar g, hspchar g]
  by_cases hact : activeIn gks targets g Ds.flatten = true
  · rw [if_pos hact, if_pos hact]
    simp only [Option.some_bind]
    have hsucc2 : ∀ p ∈ targets,
        (formatVal p.2 (Ds.foldl (fun acc D =>
          if activeIn gks targets g D = true then
            faccStep p.2 acc (svals gks p.1 g D) else acc)
          ⟨0, 0, []⟩)).isSome := by
      intro p hp
      have h1 := hfmt g hact p hp
      rw [h1.1]
      exact h1.2
    rw [formatRow_map targets _ targets hlk hsucc2]
    congr 1
    apply List.map_congr_left
    intro p hp
    have h1 := hfmt g hact p hp
    rw [h1.1]
  · rw [if_neg hact, if_neg hact]
    rfl

/-- C1 counterexample: the equivalence does not hold unconditionally.
With a `max` target whose values in one partition are all non-numeric,
`partial_aggregate` on that partition raises `ValueError` (`max` of an
empty list, `nosql/query.py` line 300), so the partial-then-final pipeline
fails — while the single-pass aggregation over the unpartitioned dataset
succeeds (the other partition supplies a numeric value). -/
theorem partial_then_final_not_single_pass :
    [[[("g", Value.int 1), ("x", Value.str "a")]],
      [[("g", Value.int 1), ("x", Value.int 2)]]].mapM
        (fun D => partialAggregate D (FieldSel.single "g") [("x", Agg.max)])
      = none ∧
    singlePassAggregate
        [[("g", Value.int 1), ("x", Value.str "a")],
          [("g", Value.int 1), ("x", Value.int 2)]]
        (FieldSel.single "g") [("x", Agg.max)] =
      some [([Value.int 1], [("x", (2 : ℚ))])] := by
  constructor
  · rfl
  · rfl

/-- Witness: the amended equivalence at a concrete partitioned dataset. -/
theorem partial_final_aggregate_equivalence_witness :
    ((([("x", Agg.sum)] : List (String × Agg)).map Prod.fst).Nodup ∧
      ∀ D ∈ [[[("g", Value.int 1), ("x", Value.int 2)]],
        [[("g", Value.int 1), ("x", Value.int 3)]]],
        (partialAggregate D (FieldSel.single "g") [("x", Agg.sum)]).isSome) ∧
    ∃ ps out sp,
      [[[("g", Value.int 1), ("x", Value.int 2)]],
        [[("g", Value.int 1), ("x", Value.int 3)]]].mapM
        (fun D => partialAggregate D (FieldSel.single "g") [("x", Agg.sum)])
        = some ps ∧
      finalAggregate ps [("x", Agg.sum)] = some out ∧
      singlePassAggregate
        [[[("g", Value.int 1), ("x", Value.int 2)]],
          [[("g", Value.int 1), ("x", Value.int 3)]]].flatten
        (FieldSel.single "g") [("x", Agg.sum)] = some sp ∧
      ∀ g, glookup g out = glookup g sp :=
  ⟨⟨by decide, by decide⟩,
    partial_final_aggregate_equivalence (FieldSel.single "g")
      [("x", Agg.sum)] (by decide)
      [[[("g", Value.int 1), ("x", Value.int 2)]],
        [[("g", Value.int 1), ("x", Value.int 3)]]] (by decide)⟩

end NoSQL
